import Mathlib

/-!
Verification development for the self-balancing-tree core of the repository
(`src/avl_tree.c`, `src/rbtree.c`, `src/btree.c`).  Each C function is
translated into a Lean definition of the same name; heap-allocated nodes
become inductive values, `malloc` failure is modelled by an explicit
allocation oracle where a claim depends on it, and the C `while` loops
become recursion (structural where the loop descends the tree, fuel where
the C recursion is not structural for Lean).
-/

/-! # B-tree model (`src/btree.c`)

A `BTreeNode` holds `keys[0..num_keys)` and, for internal nodes,
`children[0..num_keys]`.  The C arrays have capacity `2t-1` / `2t` and a
live prefix of length `num_keys` / `num_keys+1`; the model keeps exactly
the live prefix as a list, so `num_keys` is the length of `keys`.  Cells
behind the live prefix are never read by the C code on the traced paths;
where C would dereference a pointer that is `NULL` or out of the live
range, the model takes an explicitly marked default branch. -/

namespace BT

inductive N : Type where
  | mk (keys : List Int) (children : List N) (is_leaf : Bool)

def keysOf : N → List Int
  | .mk ks _ _ => ks

def childrenOf : N → List N
  | .mk _ cs _ => cs

def leafOf : N → Bool
  | .mk _ _ l => l

/-- `node->num_keys` (always the length of the live key prefix). -/
def numKeys (n : N) : Nat := (keysOf n).length

def setKeys : N → List Int → N
  | .mk _ cs l, ks => .mk ks cs l

def setChildren : N → List N → N
  | .mk ks _ l, cs => .mk ks cs l

/-- replace `node->children[i]` -/
def setChild (n : N) (i : Nat) (c : N) : N :=
  setChildren n ((childrenOf n).set i c)

/-- `node->children[i]`; `none` where the C code would read a pointer
outside the live prefix. -/
def childAt (n : N) (i : Nat) : Option N := (childrenOf n).get? i

/-- `node->keys[i]` with a junk default (C would read an uninitialised
cell; unreachable on the verified paths). -/
def keyAt (n : N) (i : Nat) : Int := (keysOf n).getD i 0

/-- `create_btree_node(t, is_leaf)` with the allocation succeeding:
fresh node, `num_keys = 0`, children all `NULL`. -/
def create_btree_node (is_leaf : Bool) : N := .mk [] [] is_leaf

/-- The `BTree` handle: `{ root, t }` (btree.h lines 18-21; there is no
`size` field). -/
structure T : Type where
  root : N
  t : Nat

/-- `create_btree(t)`: rejects `t < 2`, otherwise an empty-leaf root. -/
def create_btree (t : Nat) : Option T :=
  if t < 2 then none else some ⟨create_btree_node true, t⟩

/-- index computed by `while (i < num_keys && key > keys[i]) i++`
(first index whose key is `≥ key`): used by `search_recursive` and
`find_key_index`. -/
def find_key_index (ks : List Int) (key : Int) : Nat :=
  (ks.takeWhile (fun x => x < key)).length

/-- index computed by the right-to-left scan
`i = num_keys-1; while (i >= 0 && key < keys[i]) i--;` followed by `i+1`:
one past the last key that is `≤ key`.  Used by the leaf insert position
and the descent index of `btree_insert_nonfull`. -/
def scanRightIdx (ks : List Int) (key : Int) : Nat :=
  ks.length - (ks.reverse.takeWhile (fun x => key < x)).length

/-- `search_recursive(node, key)`: returns the node containing the key, or
`none`.  The C function checks `node == NULL` first, so a missing child
pointer propagates as not-found.  The C recursion descends one tree level
per call; `fuel` bounds that depth for Lean's termination checker (any
fuel larger than the tree height gives the C behaviour). -/
def search_recursive (fuel : Nat) (n : N) (key : Int) : Option N :=
  match fuel, n with
  | 0, _ => none
  | Nat.succ fuel, .mk ks cs l =>
    let i := find_key_index ks key
    if i < ks.length ∧ ks.get? i = some key then
      some (.mk ks cs l)
    else if l then
      none
    else
      match cs.get? i with
      | none => none      -- C: search_recursive(NULL, ...) returns NULL
      | some c => search_recursive fuel c key

/-- `search_btree(tree, key)` -/
def search_btree (fuel : Nat) (tr : T) (key : Int) : Bool :=
  (search_recursive fuel tr.root key).isSome

/-- State-threaded version of `search_btree`: the C function takes the
tree handle and performs no write to it; the embedding returns the handle
it was given together with the result. -/
def search_btreeS (fuel : Nat) (tr : T) (key : Int) : T × Bool :=
  (tr, search_btree fuel tr key)

/-- `btree_split_child(parent, child_index, full_child, t)` (allocation of
the new sibling succeeding).  The new sibling takes keys `t..2t-2` and
children `t..2t-1` of the full child, the full child keeps keys `0..t-2`
and children `0..t-1`, and the median key `keys[t-1]` moves up into the
parent at `child_index`, with the sibling linked at `child_index + 1`. -/
def btree_split_child (parent : N) (child_index : Nat) (t : Nat) : N :=
  match childAt parent child_index with
  | none => parent          -- C would dereference NULL; unreachable
  | some full =>
    let sib : N := .mk ((keysOf full).drop t)
        (if leafOf full then childrenOf full else (childrenOf full).drop t)
        (leafOf full)
    let full' : N := .mk ((keysOf full).take (t - 1))
        (if leafOf full then childrenOf full else (childrenOf full).take t)
        (leafOf full)
    let median := (keysOf full).getD (t - 1) 0
    let cs := ((childrenOf parent).set child_index full').insertIdx (child_index + 1) sib
    .mk ((keysOf parent).insertIdx child_index median) cs (leafOf parent)

/-- `btree_insert_nonfull(node, key, t)`.  In a leaf the key is shifted in
at the scan position (note: **after** any equal key — duplicates are not
rejected).  In an internal node the target child is pre-emptively split
when full, the descent index is bumped past the promoted median when the
key is larger, and the insert recurses into that child. -/
def btree_insert_nonfull (fuel : Nat) (n : N) (key : Int) (t : Nat) : N :=
  match fuel with
  | 0 => n
  | Nat.succ fuel =>
    if leafOf n then
      setKeys n ((keysOf n).insertIdx (scanRightIdx (keysOf n) key) key)
    else
      let i := scanRightIdx (keysOf n) key
      let step : N × Nat :=
        match childAt n i with
        | none => (n, i)    -- C would dereference NULL; unreachable
        | some c =>
          if numKeys c = 2 * t - 1 then
            let n' := btree_split_child n i t
            if key > keyAt n' i then (n', i + 1) else (n', i)
          else (n, i)
      match childAt step.1 step.2 with
      | none => step.1      -- C would dereference NULL; unreachable
      | some c => setChild step.1 step.2 (btree_insert_nonfull fuel c key t)

/-- `insert_btree(tree, key)` (all allocations succeeding).  Returns the
updated handle only: the C function returns `void`, reporting no status. -/
def insert_btree (fuel : Nat) (tr : T) (key : Int) : T :=
  if numKeys tr.root = 2 * tr.t - 1 then
    let new_root : N := .mk [] [tr.root] false
    let new_root := btree_split_child new_root 0 tr.t
    ⟨btree_insert_nonfull fuel new_root key tr.t, tr.t⟩
  else
    ⟨btree_insert_nonfull fuel tr.root key tr.t, tr.t⟩

/-- `remove_key_from_node(node, key_index, t)`: shift the keys after
`key_index` left by one. -/
def remove_key_from_node (n : N) (key_index : Nat) : N :=
  if key_index < numKeys n then setKeys n ((keysOf n).eraseIdx key_index)
  else n                     -- C prints an error and returns

/-- `get_predecessor_key(node, t)`: rightmost key of the subtree. -/
def get_predecessor_key (fuel : Nat) (n : N) : Int :=
  match fuel with
  | 0 => 0
  | Nat.succ fuel =>
    if leafOf n then (keysOf n).getD (numKeys n - 1) 0
    else
      match childAt n (numKeys n) with
      | none => 0            -- C would dereference NULL; unreachable
      | some c => get_predecessor_key fuel c

/-- `get_successor_key(node, t)`: leftmost key of the subtree. -/
def get_successor_key (fuel : Nat) (n : N) : Int :=
  match fuel with
  | 0 => 0
  | Nat.succ fuel =>
    if leafOf n then (keysOf n).getD 0 0
    else
      match childAt n 0 with
      | none => 0            -- C would dereference NULL; unreachable
      | some c => get_successor_key fuel c

/-- `borrow_from_prev_sibling`: rotate the parent separator key down into
the deficient child (prepended) and the left sibling's last key up; for
internal nodes the left sibling's last child moves over as the deficient
child's new first child. -/
def borrow_from_prev_sibling (parent : N) (didx : Nat) : N :=
  match childAt parent didx, childAt parent (didx - 1) with
  | some d, some ls =>
    let pk := keyAt parent (didx - 1)
    let d' : N := .mk (pk :: keysOf d)
        (if leafOf d then childrenOf d
         else ((childrenOf ls).getD (numKeys ls) (create_btree_node true)) :: childrenOf d)
        (leafOf d)
    let ls' : N := .mk ((keysOf ls).take (numKeys ls - 1))
        (if leafOf ls then childrenOf ls else (childrenOf ls).take (numKeys ls))
        (leafOf ls)
    let parent := setKeys parent ((keysOf parent).set (didx - 1) ((keysOf ls).getD (numKeys ls - 1) 0))
    setChild (setChild parent didx d') (didx - 1) ls'
  | _, _ => parent           -- C would dereference NULL; unreachable

/-- `borrow_from_next_sibling`: parent separator key appended to the
deficient child, right sibling's first key up, and (for internal nodes)
the right sibling's first child moved over. -/
def borrow_from_next_sibling (parent : N) (didx : Nat) : N :=
  match childAt parent didx, childAt parent (didx + 1) with
  | some d, some rs =>
    let pk := keyAt parent didx
    let d' : N := .mk (keysOf d ++ [pk])
        (if leafOf rs then childrenOf d
         else childrenOf d ++ [(childrenOf rs).getD 0 (create_btree_node true)])
        (leafOf d)
    let rs' : N := .mk ((keysOf rs).drop 1)
        (if leafOf rs then childrenOf rs else (childrenOf rs).drop 1)
        (leafOf rs)
    let parent := setKeys parent ((keysOf parent).set didx ((keysOf rs).getD 0 0))
    setChild (setChild parent didx d') (didx + 1) rs'
  | _, _ => parent           -- C would dereference NULL; unreachable

/-- `merge_children(parent, parent_key_idx_to_move_down, t)`: the parent
separator key and the whole right child are appended to the left child,
and the separator/child slot is removed from the parent.

For internal children the C function runs **two** child-copy loops: a
first loop writing `right->children[i]` into slots `lc .. lc+rc` (where
`lc`/`rc` are the original key counts), followed by a "corrected" loop
writing the same pointers into slots `lc+1 .. lc+rc+1`.  The combined
effect on the live prefix is that slot `lc` — the left child's own last
child — is overwritten with `right->children[0]`, which therefore appears
in both slot `lc` and slot `lc+1` (in C, two aliased pointers to the same
node), while the left child's original last subtree is dropped. -/
def merge_children (parent : N) (pkIdx : Nat) (t : Nat) : N :=
  match childAt parent pkIdx, childAt parent (pkIdx + 1) with
  | some lc, some rc =>
    let pk := keyAt parent pkIdx
    let merged : N := .mk (keysOf lc ++ pk :: keysOf rc)
        (if leafOf lc then childrenOf lc
         else (childrenOf lc).take (numKeys lc) ++ (childrenOf rc).take 1 ++ childrenOf rc)
        (leafOf lc)
    let parent := setKeys parent ((keysOf parent).eraseIdx pkIdx)
    let parent := setChild parent pkIdx merged
    setChildren parent ((childrenOf parent).eraseIdx (pkIdx + 1))
  | _, _ => parent           -- C would dereference NULL; unreachable

/-- `parent->children[i]->num_keys >= t` (false when the child pointer is
outside the live prefix, where C would dereference NULL). -/
def siblingCanLend (parent : N) (i : Nat) (t : Nat) : Bool :=
  match childAt parent i with
  | some s => numKeys s ≥ t
  | none => false

/-- `fill_child_if_needed(parent, child_idx, t)`: bring the child at
`child_idx` up from `t-1` keys by borrowing from a sibling with `≥ t`
keys, else by merging with a sibling (with the right sibling when one
exists, else with the left). -/
def fill_child_if_needed (parent : N) (child_idx : Nat) (t : Nat) : N :=
  match childAt parent child_idx with
  | none => parent           -- C would dereference NULL; unreachable
  | some c =>
    if numKeys c < t - 1 then parent          -- C prints an error and returns
    else if numKeys c = t - 1 then
      if child_idx > 0 ∧ siblingCanLend parent (child_idx - 1) t then
        borrow_from_prev_sibling parent child_idx
      else if child_idx < numKeys parent ∧ siblingCanLend parent (child_idx + 1) t then
        borrow_from_next_sibling parent child_idx
      else if child_idx < numKeys parent then
        merge_children parent child_idx t
      else
        merge_children parent (child_idx - 1) t
    else parent

/-- `btree_delete_recursive(node, key, t)`.  `fuel` bounds the recursion
depth (each recursive call moves one level down the tree). -/
def btree_delete_recursive (fuel : Nat) (n : N) (key : Int) (t : Nat) : N :=
  match fuel with
  | 0 => n
  | Nat.succ fuel =>
    let idx := find_key_index (keysOf n) key
    if idx < numKeys n ∧ (keysOf n).get? idx = some key then
      -- Case 1: key is in this node
      if leafOf n then
        remove_key_from_node n idx
      else
        match childAt n idx, childAt n (idx + 1) with
        | some lck, some rck =>
          if numKeys lck ≥ t then
            let pred := get_predecessor_key fuel lck
            let n := setKeys n ((keysOf n).set idx pred)
            setChild n idx (btree_delete_recursive fuel lck pred t)
          else if numKeys rck ≥ t then
            let succ := get_successor_key fuel rck
            let n := setKeys n ((keysOf n).set idx succ)
            setChild n (idx + 1) (btree_delete_recursive fuel rck succ t)
          else
            let n := merge_children n idx t
            match childAt n idx with
            | none => n      -- C would dereference NULL; unreachable
            | some m => setChild n idx (btree_delete_recursive fuel m key t)
        | _, _ => n          -- C would dereference NULL; unreachable
    else
      -- Case 2: key is not in this node
      if leafOf n then n
      else
        match childAt n idx with
        | none => n          -- C would dereference NULL; unreachable
        | some c =>
          let deficient := numKeys c < t
          let n1 := if deficient then fill_child_if_needed n idx t else n
          let idx1 :=
            if deficient ∧ idx > numKeys n1 ∧ idx > 0 then idx - 1 else idx
          match childAt n1 idx1 with
          | none => n1       -- C would dereference NULL; unreachable
          | some c1 => setChild n1 idx1 (btree_delete_recursive fuel c1 key t)

/-- `delete_btree(tree, key)`: early-out on an empty tree, run the
recursive delete, then shrink the root when it is a key-less internal
node.  Returns only the handle — the C function returns `void`. -/
def delete_btree (fuel : Nat) (tr : T) (key : Int) : T :=
  if numKeys tr.root = 0 ∧ leafOf tr.root then tr
  else
    let root := btree_delete_recursive fuel tr.root key tr.t
    if numKeys root = 0 ∧ ¬ leafOf root then
      match childAt root 0 with
      | some c => ⟨c, tr.t⟩
      | none => ⟨create_btree_node true, tr.t⟩   -- C re-creates an empty root
    else ⟨root, tr.t⟩

/-! ## Allocation-instrumented insert path

`create_btree_node` calls `malloc`; the instrumented definitions thread an
explicit allocation oracle (a list of `Bool`s, one consumed per
`create_btree_node` call, `false` = `malloc` returns `NULL`; an exhausted
oracle means success).  They are the same functions as above with the
C `NULL`-return branches made explicit. -/

/-- `create_btree_node` with the allocation oracle: `none` when the
next allocation fails. -/
def create_btree_nodeA (alloc : List Bool) (is_leaf : Bool) :
    Option N × List Bool :=
  match alloc with
  | [] => (some (create_btree_node is_leaf), [])
  | ok :: rest => (if ok then some (create_btree_node is_leaf) else none, rest)

/-- `btree_split_child` with the allocation oracle: when the sibling
allocation fails the C function prints an error and returns with the
parent and the (still full) child untouched. -/
def btree_split_childA (alloc : List Bool) (parent : N) (child_index : Nat)
    (t : Nat) : N × List Bool :=
  match create_btree_nodeA alloc (match childAt parent child_index with
      | some full => leafOf full | none => true) with
  | (none, rest) => (parent, rest)     -- allocation failed: split abandoned
  | (some _, rest) => (btree_split_child parent child_index t, rest)

/-- `btree_insert_nonfull` with the allocation oracle. -/
def btree_insert_nonfullA (fuel : Nat) (alloc : List Bool) (n : N)
    (key : Int) (t : Nat) : N × List Bool :=
  match fuel with
  | 0 => (n, alloc)
  | Nat.succ fuel =>
    if leafOf n then
      (setKeys n ((keysOf n).insertIdx (scanRightIdx (keysOf n) key) key), alloc)
    else
      let i := scanRightIdx (keysOf n) key
      let step : N × Nat × List Bool :=
        match childAt n i with
        | none => (n, i, alloc)        -- C would dereference NULL; unreachable
        | some c =>
          if numKeys c = 2 * t - 1 then
            match btree_split_childA alloc n i t with
            | (n', rest) =>
              -- When the split was abandoned, `n'` = `n` still has an
              -- unchanged (full) child and `keys[i]` is whatever the live
              -- prefix holds; the C code compares against it regardless.
              if key > keyAt n' i then (n', i + 1, rest) else (n', i, rest)
          else (n, i, alloc)
      match childAt step.1 step.2.1 with
      | none => (step.1, step.2.2)     -- C would dereference NULL; unreachable
      | some c =>
        match btree_insert_nonfullA fuel step.2.2 c key t with
        | (c', rest) => (setChild step.1 step.2.1 c', rest)

/-- `insert_btree` with the allocation oracle.  When the root is full a
new root is allocated and linked **before** the old root is split; a
failed sibling allocation inside that split leaves the new (key-less)
root in place and the insert simply carries on. -/
def insert_btreeA (fuel : Nat) (alloc : List Bool) (tr : T) (key : Int) :
    T × List Bool :=
  if numKeys tr.root = 2 * tr.t - 1 then
    match create_btree_nodeA alloc false with
    | (none, rest) => (tr, rest)       -- new root allocation failed: return
    | (some nr, rest) =>
      let new_root := setChildren nr [tr.root]
      match btree_split_childA rest new_root 0 tr.t with
      | (new_root, rest) =>
        match btree_insert_nonfullA fuel rest new_root key tr.t with
        | (root', rest) => (⟨root', tr.t⟩, rest)
  else
    match btree_insert_nonfullA fuel alloc tr.root key tr.t with
    | (root', rest) => (⟨root', tr.t⟩, rest)

/-! ## Operation sequences -/

/-- One caller-visible mutation: `(true, k)` = `insert_btree(tree, k)`,
`(false, k)` = `delete_btree(tree, k)` (all allocations succeeding). -/
def applyBTreeOp (fuel : Nat) (tr : T) (op : Bool × Int) : T :=
  if op.1 then insert_btree fuel tr op.2 else delete_btree fuel tr op.2

/-- Run a sequence of operations on the tree created by
`create_btree(t)`. -/
def runBTreeOps (t : Nat) (ops : List (Bool × Int)) : T :=
  ops.foldl (applyBTreeOp 20) ⟨create_btree_node true, t⟩

def insList (ks : List Int) : List (Bool × Int) := ks.map (fun k => (true, k))

/-- Interleave child in-order sequences with the node's keys:
child 0, key 0, child 1, key 1, …, child `num_keys`. -/
def interleave : List (List Int) → List Int → List Int
  | [], ks => ks
  | c :: cs, [] => c ++ interleave cs []
  | c :: cs, k :: ks => c ++ k :: interleave cs ks

/-- In-order key sequence of a B-tree node (test-checker traversal
order). -/
def inorderKeys (fuel : Nat) (n : N) : List Int :=
  match fuel with
  | 0 => []
  | Nat.succ fuel =>
    if leafOf n then keysOf n
    else interleave ((childrenOf n).map (inorderKeys fuel)) (keysOf n)

/-- Total number of keys stored in the subtree. -/
def totalKeys (fuel : Nat) (n : N) : Nat := (inorderKeys fuel n).length

/-- Computable strict-increase check on a key sequence. -/
def strictIncB : List Int → Bool
  | [] => true
  | [_] => true
  | a :: b :: rest => a < b && strictIncB (b :: rest)


/-- Insert 1..10 into a `t = 2` tree, then delete 9, 10 and 9: the last
delete merges the root's two internal children through the buggy
`merge_children` child copy. -/
def corruptionOps : List (Bool × Int) :=
  insList [1, 2, 3, 4, 5, 6, 7, 8, 9, 10] ++ [(false, 9), (false, 10), (false, 9)]

/-- The tree value `corruptionOps` reaches: the leaf holding 3 is gone
and the leaf holding 5 sits in two child slots (one C pointer, aliased). -/
def corruptedRoot : N :=
  .mk [2, 4, 6]
    [.mk [1] [] true, .mk [5] [] true, .mk [5] [] true, .mk [7, 8] [] true] false

/-- Ten distinct keys inserted, then all ten deleted. -/
def roundTripOps : List (Bool × Int) :=
  insList [1, 2, 3, 4, 5, 6, 7, 8, 9, 10] ++
    [(false, 9), (false, 10), (false, 1), (false, 2), (false, 3),
     (false, 4), (false, 5), (false, 6), (false, 7), (false, 8)]

end BT

/-! # AVL model (`src/avl_tree.c`)

An `AVLNode*` is either `NULL` or a heap node `{key, left, right,
height}`; the model is the inductive unfolding of that structure.  The
`size_t* size_ptr` out-parameter threaded through the recursive insert
and delete is modelled by returning the number of nodes created
(respectively destroyed) alongside the new subtree root and the
`success_flag`. -/

namespace AVL

inductive AVLNode : Type where
  | nil : AVLNode                                  -- NULL
  | node (key : Int) (left right : AVLNode) (height : Int) : AVLNode
deriving DecidableEq, Repr

open AVLNode

/-- `create_new_avl_node(key)` (allocation succeeding): height-0 leaf. -/
def create_new_avl_node (key : Int) : AVLNode := node key nil nil 0

/-- `max_int_internal` -/
def max_int_internal (a b : Int) : Int := if a > b then a else b

/-- `get_node_height_internal`: stored height, `-1` for `NULL`. -/
def get_node_height_internal : AVLNode → Int
  | nil => -1
  | node _ _ _ h => h

/-- `update_node_height_internal`: recompute this node's stored height
from the children's stored heights. -/
def update_node_height_internal : AVLNode → AVLNode
  | nil => nil
  | node k l r _ =>
    node k l r (1 + max_int_internal (get_node_height_internal l) (get_node_height_internal r))

/-- `get_balance_factor_internal`: left stored height minus right stored
height, `0` for `NULL`. -/
def get_balance_factor_internal : AVLNode → Int
  | nil => 0
  | node _ l r _ => get_node_height_internal l - get_node_height_internal r

/-- `right_rotate_internal(y)`: guarded identity when `y` or `y->left`
is `NULL`; otherwise the left child `x` becomes the subtree root, `y`
adopts `x`'s right subtree, and the heights of `y` then `x` are
recomputed (in that order). -/
def right_rotate_internal : AVLNode → AVLNode
  | nil => nil
  | node k nil r h => node k nil r h
  | node yk (node xk xl xr _) yr _ =>
    let y' := update_node_height_internal (node yk xr yr 0)
    update_node_height_internal (node xk xl y' 0)

/-- `left_rotate_internal(x)` (mirror image). -/
def left_rotate_internal : AVLNode → AVLNode
  | nil => nil
  | node k l nil h => node k l nil h
  | node xk xl (node yk yl yr _) _ =>
    let x' := update_node_height_internal (node xk xl yl 0)
    update_node_height_internal (node yk x' yr 0)

/-- `find_min_node_internal`: leftmost node of a subtree (`nil` for an
empty subtree, like the C `NULL` start). -/
def find_min_node_internal : AVLNode → AVLNode
  | nil => nil
  | node k nil r h => node k nil r h
  | node _ (node lk ll lr lh) _ _ => find_min_node_internal (node lk ll lr lh)

/-- key of a node, with a junk default for `NULL` (the C code only reads
`node->left->key` / `node->right->key` under a balance-factor guard that
implies the child exists on every verified path). -/
def keyOf : AVLNode → Int
  | nil => 0
  | node k _ _ _ => k

/-- Steps 2-4 of `insert_recursive_internal` after the recursive call
returned: recompute the height, read the balance factor and apply the
four key-comparison rebalancing cases. -/
def insRebalance (n : AVLNode) (key : Int) : AVLNode :=
  let n := update_node_height_internal n
  let balance := get_balance_factor_internal n
  match n with
  | nil => nil
  | node k l r h =>
    if balance > 1 ∧ key < keyOf l then
      right_rotate_internal (node k l r h)
    else if balance < -1 ∧ key > keyOf r then
      left_rotate_internal (node k l r h)
    else if balance > 1 ∧ key > keyOf l then
      right_rotate_internal (node k (left_rotate_internal l) r h)
    else if balance < -1 ∧ key < keyOf r then
      left_rotate_internal (node k l (right_rotate_internal r) h)
    else
      node k l r h

/-- `insert_recursive_internal(node, key, &success_flag, &size)`:
returns (new subtree root, `success_flag`, size increment).
`allocOk = false` makes the single `create_new_avl_node` call fail. -/
def insert_recursive_internal (n : AVLNode) (key : Int) (allocOk : Bool) :
    AVLNode × Int × Nat :=
  match n with
  | nil =>
    if allocOk then (create_new_avl_node key, 0, 1)
    else (nil, -1, 0)
  | node k l r h =>
    if key < k then
      let (l', flag, inc) := insert_recursive_internal l key allocOk
      (insRebalance (node k l' r h) key, flag, inc)
    else if key > k then
      let (r', flag, inc) := insert_recursive_internal r key allocOk
      (insRebalance (node k l r' h) key, flag, inc)
    else
      (node k l r h, 1, 0)

/-- The post-deletion rebalance of `delete_recursive_internal`:
recompute the height, then the four cases keyed on the child's balance
factor sign. -/
def delRebalance (n : AVLNode) : AVLNode :=
  let n := update_node_height_internal n
  let balance := get_balance_factor_internal n
  match n with
  | nil => nil
  | node k l r h =>
    if balance > 1 ∧ get_balance_factor_internal l ≥ 0 then
      right_rotate_internal (node k l r h)
    else if balance > 1 ∧ get_balance_factor_internal l < 0 then
      right_rotate_internal (node k (left_rotate_internal l) r h)
    else if balance < -1 ∧ get_balance_factor_internal r ≤ 0 then
      left_rotate_internal (node k l r h)
    else if balance < -1 ∧ get_balance_factor_internal r > 0 then
      left_rotate_internal (node k l (right_rotate_internal r) h)
    else
      node k l r h

/-- `delete_recursive_internal(node, key, &success_flag, &size)`:
returns (new subtree root, `success_flag`, size decrement).  In the
two-children case the in-order successor's key is copied up and the
successor is deleted from the right subtree by a nested recursive call
whose own flag is discarded. -/
def delete_recursive_internal (n : AVLNode) (key : Int) :
    AVLNode × Int × Nat :=
  match n with
  | nil => (nil, 1, 0)
  | node k l r h =>
    if key < k then
      let (l', flag, dec) := delete_recursive_internal l key
      (delRebalance (node k l' r h), flag, dec)
    else if key > k then
      let (r', flag, dec) := delete_recursive_internal r key
      (delRebalance (node k l r' h), flag, dec)
    else
      -- key == k: node to delete found
      if l = nil ∨ r = nil then
        -- `temp = node->left ? node->left : node->right`
        let temp := if l = nil then r else l
        if temp = nil then (nil, 0, 1)           -- no child: node freed
        else (delRebalance temp, 0, 1)           -- one child: child spliced up,
                                                 -- then rebalanced by the code below the case
      else
        -- two children: copy the in-order successor's key into this node,
        -- delete the successor from the right subtree (its own flag is
        -- discarded), then rebalance
        let succ := find_min_node_internal r
        let (r', _, dec) := delete_recursive_internal r (keyOf succ)
        (delRebalance (node (keyOf succ) l r' h), 0, dec)

/-- `AVLTree` handle: `{root, size}`. -/
structure AVLTree : Type where
  root : AVLNode
  size : Nat
deriving DecidableEq, Repr

/-- `create_avl_tree()` (allocation succeeding). -/
def create_avl_tree : AVLTree := ⟨nil, 0⟩

/-- `insert_into_avl_tree(tree, key)`: `-1` on a NULL handle, else run
the recursive insert on the root and return its flag.  Modelled over
`Option AVLTree` so a NULL handle is representable. -/
def insert_into_avl_tree (tr : Option AVLTree) (key : Int) (allocOk : Bool) :
    Int × Option AVLTree :=
  match tr with
  | none => (-1, none)
  | some t =>
    let (root', flag, inc) := insert_recursive_internal t.root key allocOk
    (flag, some ⟨root', t.size + inc⟩)

/-- `delete_from_avl_tree(tree, key)`: `1` on a NULL handle or an empty
tree (the C early-out `tree->root == NULL && key` falls through to the
recursive call for `key == 0`, which also reports `1`), else run the
recursive delete. -/
def delete_from_avl_tree (tr : Option AVLTree) (key : Int) :
    Int × Option AVLTree :=
  match tr with
  | none => (1, none)
  | some t =>
    if t.root = nil ∧ key ≠ 0 then (1, some t)
    else
      let (root', flag, dec) := delete_recursive_internal t.root key
      (flag, some ⟨root', t.size - dec⟩)

/-- `search_in_avl_tree(tree, key)`: iterative descent, `NULL`/`nil`
when not found.  The returned value is the subtree rooted at the found
node (the C function returns a pointer into the tree). -/
def search_loop (cur : AVLNode) (key : Int) : AVLNode :=
  match cur with
  | nil => nil
  | node k l r h =>
    if key = k then node k l r h
    else if key < k then search_loop l key
    else search_loop r key

def search_in_avl_tree (tr : Option AVLTree) (key : Int) : AVLNode :=
  match tr with
  | none => nil
  | some t => search_loop t.root key

/-- State-threaded version of `search_in_avl_tree`: the C function
performs no write; the embedding returns the handle it was given
together with the result. -/
def search_in_avl_treeS (tr : Option AVLTree) (key : Int) :
    Option AVLTree × AVLNode :=
  (tr, search_in_avl_tree tr key)

/-- `get_avl_tree_size` -/
def get_avl_tree_size (tr : Option AVLTree) : Nat :=
  match tr with
  | none => 0
  | some t => t.size

/-- One caller-visible mutation: `.ins k allocOk` = `insert_into_avl_tree`,
`.del k` = `delete_from_avl_tree`. -/
inductive Op : Type where
  | ins (k : Int) (allocOk : Bool)
  | del (k : Int)

def applyOp (t : AVLTree) : Op → AVLTree
  | .ins k allocOk => ((insert_into_avl_tree (some t) k allocOk).2).getD t
  | .del k => ((delete_from_avl_tree (some t) k).2).getD t

/-- Run a sequence of operations on the tree built by
`create_avl_tree()`. -/
def runOps (ops : List Op) : AVLTree :=
  ops.foldl applyOp create_avl_tree

/-! ## Specification predicates (independent recursive checkers) -/

/-- Real height of the subtree, ignoring the stored fields
(`-1` for an absent tree). -/
def realHeight : AVLNode → Int
  | nil => -1
  | node _ l r _ => 1 + max (realHeight l) (realHeight r)

/-- Every stored `height` equals `1 + max(child heights)` with `-1` for
an absent child. -/
def HeightsOk : AVLNode → Prop
  | nil => True
  | node _ l r h => h = 1 + max (realHeight l) (realHeight r) ∧ HeightsOk l ∧ HeightsOk r

/-- Every node's balance factor (real left height minus real right
height) has absolute value at most 1. -/
def BalancedOk : AVLNode → Prop
  | nil => True
  | node _ l r _ =>
    |realHeight l - realHeight r| ≤ 1 ∧ BalancedOk l ∧ BalancedOk r

/-- In-order key sequence. -/
def inorder : AVLNode → List Int
  | nil => []
  | node k l r _ => inorder l ++ k :: inorder r

/-- Number of key-bearing nodes reachable from the root. -/
def countNodes : AVLNode → Nat
  | nil => 0
  | node _ l r _ => countNodes l + countNodes r + 1

/-- The claim's per-node field check, phrased on the stored fields as in
the spec: stored height is `1 + max(stored child heights, -1 if absent)`
and the stored balance factor has absolute value at most 1. -/
def AVLFieldsOk : AVLNode → Prop
  | nil => True
  | node _ l r h =>
    h = 1 + max (get_node_height_internal l) (get_node_height_internal r) ∧
    |get_node_height_internal l - get_node_height_internal r| ≤ 1 ∧
    AVLFieldsOk l ∧ AVLFieldsOk r

/-- Characterisation of a subtree whose height grew by one during the
insertion of `key`: it is either the freshly created leaf, or its
balance leans exactly toward the side `key` went. -/
def GrewP : AVLNode → Int → Prop
  | nil, _ => False
  | node k l r _, key =>
    (realHeight l = -1 ∧ realHeight r = -1) ∨
    (realHeight l - realHeight r = 1 ∧ key < k) ∨
    (realHeight l - realHeight r = -1 ∧ key > k)

/-- Full health of a handle: consistent stored heights, AVL balance,
and accurate size counter. -/
def AVLGood (t : AVLTree) : Prop :=
  HeightsOk t.root ∧ BalancedOk t.root ∧ t.size = countNodes t.root

end AVL

/-- Insertion of a key into a key list at its ordered position: the
in-order effect of a successful BST insert into a tree whose in-order
sequence is strictly increasing. -/
def insortd (key : Int) : List Int → List Int
  | [] => [key]
  | x :: xs => if key < x then key :: x :: xs else x :: insortd key xs

/-! # Red-Black model (`src/rbtree.c`)

An `RBNode*` is either the tree's shared sentinel `tree->NIL` (always
BLACK, key irrelevant) or a heap node `{data, color, parent, left,
right}`.  The child pointers of the reachable nodes form a tree, so a
node is modelled by the inductive unfolding `RBT`; a **parent pointer**
is derived data, modelled by a zipper context (`Step`/`Ctx`): the C
loops that climb via `x->parent` walk the context list instead.  The
C idiom of parking `x->parent` on the sentinel during deletion
(transplant writes `v->parent` even for `v == NIL`) is exactly the
zipper holding the position of an empty subtree.  The sentinel's color
is `BLACK` by construction in the model; on every path proved reachable
the C code never recolors `NIL` (the one write `x->color = BLACK` with
`x == NIL` leaves it BLACK). -/

namespace RB

inductive Color : Type where
  | RED : Color
  | BLACK : Color
deriving DecidableEq, Repr

open Color

inductive RBT : Type where
  | nilS : RBT                                        -- tree->NIL
  | node (data : Int) (color : Color) (left right : RBT) : RBT
deriving DecidableEq, Repr

open RBT

/-- `p->color`, with the sentinel BLACK. -/
def colorOf : RBT → Color
  | nilS => BLACK
  | node _ c _ _ => c

/-- `p->color = c`.  Writing to the sentinel is modelled as a no-op: on
the verified paths the only such write is `BLACK`, which the sentinel
already has. -/
def setColor : RBT → Color → RBT
  | nilS, _ => nilS
  | node d _ l r, c => node d c l r

/-- One parent link: the current node is the left (`lstep`) or right
(`rstep`) child of a parent with the given data and color, whose other
child is `sib`. -/
inductive Step : Type where
  | lstep (pd : Int) (pc : Color) (sib : RBT)
  | rstep (pd : Int) (pc : Color) (sib : RBT)
deriving DecidableEq, Repr

/-- A whole parent chain, innermost link first; `[]` means the current
node is `tree->root`. -/
abbrev Ctx := List Step

/-- Rebuild the tree from a context and the subtree in its hole. -/
def plug : Ctx → RBT → RBT
  | [], t => t
  | .lstep pd pc sib :: rest, t => plug rest (node pd pc t sib)
  | .rstep pd pc sib :: rest, t => plug rest (node pd pc sib t)

/-- `tree->root->color = BLACK` -/
def blackenRoot : RBT → RBT
  | nilS => nilS
  | node d _ l r => node d BLACK l r

/-- The BST descent of `insert_rbnode` (`while (x != tree->NIL) ...`):
returns the context of the `NIL` the new node will replace, or `none`
when the data is already present (the C code frees `z` and returns 1). -/
def bstDescend : RBT → Int → Ctx → Option Ctx
  | nilS, _, ctx => some ctx
  | node d c l r, data, ctx =>
    if data < d then bstDescend l data (.lstep d c r :: ctx)
    else if data > d then bstDescend r data (.rstep d c l :: ctx)
    else none

/-- `rb_insert_fixup`'s `while (z->parent->color == RED)` loop.  Each
constructor case is the corresponding CLRS case on the C side; the
rotation cases rebuild the grandparent subtree in place and the loop
then exits (the new parent is BLACK), so they return the plugged tree
directly. -/
def insFixLoop : Ctx → RBT → RBT
  | [], z => z                                  -- z is root: parent is NIL (BLACK)
  | step :: up, z =>
    match step with
    | .lstep pd pc sib =>
      if pc = RED then
        match up with
        | [] => plug (step :: up) z             -- red root parent: unreachable
        | gstep :: gup =>
          match gstep with
          | .lstep gd _ uncle =>                -- parent is a left child; uncle = gp->right
            if colorOf uncle = RED then
              -- Case 1: recolor, continue from the grandparent
              insFixLoop gup (node gd RED (node pd BLACK z sib) (setColor uncle BLACK))
            else
              -- z is a left child: Case 3 (right-rotate the grandparent)
              plug gup (node pd BLACK z (node gd RED sib uncle))
          | .rstep gd _ uncle =>                -- parent is a right child; uncle = gp->left
            if colorOf uncle = RED then
              insFixLoop gup (node gd RED (setColor uncle BLACK) (node pd BLACK z sib))
            else
              -- z left child of a right-child parent: Case 2 (right-rotate
              -- the parent) then Case 3 (left-rotate the grandparent)
              match z with
              | nilS => plug (step :: up) z     -- z is a real node: unreachable
              | node zd zc zl zr =>
                plug gup (node zd BLACK (node gd RED uncle zl) (node pd pc zr sib))
      else
        plug (step :: up) z                     -- parent BLACK: loop exits
    | .rstep pd pc sib =>
      if pc = RED then
        match up with
        | [] => plug (step :: up) z
        | gstep :: gup =>
          match gstep with
          | .rstep gd _ uncle =>                -- parent right child; uncle = gp->left
            if colorOf uncle = RED then
              insFixLoop gup (node gd RED (setColor uncle BLACK) (node pd BLACK sib z))
            else
              -- z right child: Case 3 (left-rotate the grandparent)
              plug gup (node pd BLACK (node gd RED uncle sib) z)
          | .lstep gd _ uncle =>                -- parent left child; uncle = gp->right
            if colorOf uncle = RED then
              insFixLoop gup (node gd RED (node pd BLACK sib z) (setColor uncle BLACK))
            else
              -- z right child of a left-child parent: Case 2 (left-rotate
              -- the parent) then Case 3 (right-rotate the grandparent)
              match z with
              | nilS => plug (step :: up) z     -- unreachable
              | node zd zc zl zr =>
                plug gup (node zd BLACK (node pd pc sib zl) (node gd RED zr uncle))
      else
        plug (step :: up) z

/-- `rb_insert_fixup`: run the loop, then color the root BLACK. -/
def rb_insert_fixup (ctx : Ctx) (z : RBT) : RBT :=
  blackenRoot (insFixLoop ctx z)

/-- The `RBTree` handle `{root, NIL, size}`; the sentinel pointer is the
`nilS` value itself. -/
structure RBTree : Type where
  root : RBT
  size : Nat
deriving DecidableEq, Repr

/-- `create_rbtree()` (allocations succeeding): BLACK self-linked
sentinel, root = sentinel, size 0. -/
def create_rbtree : RBTree := ⟨nilS, 0⟩

/-- `insert_rbnode(tree, data)`; `allocOk = false` makes
`create_rb_node_internal` return NULL.  Returns (status, handle). -/
def insert_rbnode (tr : Option RBTree) (data : Int) (allocOk : Bool) :
    Int × Option RBTree :=
  match tr with
  | none => (-1, none)
  | some t =>
    if allocOk then
      match bstDescend t.root data [] with
      | none => (1, some t)                     -- duplicate: free(z), return 1
      | some ctx =>
        (0, some ⟨rb_insert_fixup ctx (node data RED nilS nilS), t.size + 1⟩)
    else (-1, some t)                           -- malloc failure

/-- `search_rbnode`'s iterative descent; returns the found subtree or
the sentinel. -/
def search_loopRB : RBT → Int → RBT
  | nilS, _ => nilS
  | node d c l r, data =>
    if data = d then node d c l r
    else if data < d then search_loopRB l data
    else search_loopRB r data

/-- `search_rbnode(tree, data)`: NULL handle gives NULL (`none`),
otherwise the found node or the sentinel. -/
def search_rbnode (tr : Option RBTree) (data : Int) : Option RBT :=
  match tr with
  | none => none
  | some t => some (search_loopRB t.root data)

/-- State-threaded version of `search_rbnode`: the C function performs
no write; the embedding returns the handle it was given together with
the result. -/
def search_rbnodeS (tr : Option RBTree) (data : Int) :
    Option RBTree × Option RBT :=
  (tr, search_rbnode tr data)

/-- Same descent as `search_rbnode`, also recording the found node's
context (the delete path re-walks the parent pointers). -/
def search_zipper : RBT → Int → Ctx → Option (Ctx × RBT)
  | nilS, _, _ => none
  | node d c l r, data, ctx =>
    if data = d then some (ctx, node d c l r)
    else if data < d then search_zipper l data (.lstep d c r :: ctx)
    else search_zipper r data (.rstep d c l :: ctx)

/-- `rbtree_minimum_node` with the context of the minimum accumulated
relative to the starting subtree. -/
def minZipper : RBT → Ctx → Ctx × RBT
  | nilS, acc => (acc, nilS)                    -- C returns tree->NIL
  | node d c nilS r, acc => (acc, node d c nilS r)
  | node d c (node ld lc ll lr) r, acc =>
    minZipper (node ld lc ll lr) (.lstep d c r :: acc)

/-- `rb_delete_fixup`'s `while (x != tree->root && x->color == BLACK)`
loop, including the final `x->color = BLACK`.  Case 1 converts a red
sibling and falls through to cases 2-4 within the same iteration,
exactly as the C flow does; the Case 1 conversion is written out in
each branch so that both the converted and unconverted parent/sibling
are explicit. -/
def delFixLoop : Ctx → RBT → RBT
  | [], x => setColor x BLACK                   -- x is root: exit, blacken x
  | Step.lstep pd pc w :: rest, x =>
    if hx : colorOf x = RED then
      plug (Step.lstep pd pc w :: rest) (setColor x BLACK)    -- exit, blacken x
    else
      -- x is a left child, sibling w = x->parent->right
      match w with
      | nilS => plug (Step.lstep pd pc nilS :: rest) x        -- w real: unreachable
      | node wd wc wl wr =>
        if wc = RED then
          -- Case 1: w red, parent black, left-rotate the parent; the new
          -- sibling is wl and the parent now sits under the old w
          match wl with
          | nilS => plug (Step.lstep pd pc (node wd wc nilS wr) :: rest) x
            -- new sibling real: unreachable, leave the tree as it was
          | node wld wlc wll wlr =>
            if colorOf wll = BLACK ∧ colorOf wlr = BLACK then
              -- Case 2
              delFixLoop (Step.lstep wd BLACK wr :: rest)
                (node pd RED x (node wld RED wll wlr))
            else if colorOf wlr = BLACK then
              -- Case 3 then Case 4 (wll is RED)
              match wll with
              | nilS => plug (Step.lstep pd RED (node wld wlc wll wlr) ::
                  Step.lstep wd BLACK wr :: rest) x           -- unreachable
              | node wlld _ wlll wllr =>
                blackenRoot (plug (Step.lstep wd BLACK wr :: rest)
                  (node wlld RED (node pd BLACK x wlll)
                    (node wld BLACK wllr wlr)))
            else
              -- Case 4 (wlr is RED)
              blackenRoot (plug (Step.lstep wd BLACK wr :: rest)
                (node wld RED (node pd BLACK x wll) (setColor wlr BLACK)))
        else
          if colorOf wl = BLACK ∧ colorOf wr = BLACK then
            -- Case 2
            delFixLoop rest (node pd pc x (node wd RED wl wr))
          else if colorOf wr = BLACK then
            -- Case 3 then Case 4 (wl is RED)
            match wl with
            | nilS => plug (Step.lstep pd pc (node wd wc nilS wr) :: rest) x  -- unreachable
            | node wld _ wll wlr =>
              blackenRoot (plug rest
                (node wld pc (node pd BLACK x wll) (node wd BLACK wlr wr)))
          else
            -- Case 4 (wr is RED)
            blackenRoot (plug rest
              (node wd pc (node pd BLACK x wl) (setColor wr BLACK)))
  | Step.rstep pd pc w :: rest, x =>
    if hx : colorOf x = RED then
      plug (Step.rstep pd pc w :: rest) (setColor x BLACK)
    else
      -- x is a right child, sibling w = x->parent->left (mirror image)
      match w with
      | nilS => plug (Step.rstep pd pc nilS :: rest) x
      | node wd wc wl wr =>
        if wc = RED then
          match wr with
          | nilS => plug (Step.rstep pd pc (node wd wc wl nilS) :: rest) x
            -- new sibling real: unreachable, leave the tree as it was
          | node wrd wrc wrl wrr =>
            if colorOf wrr = BLACK ∧ colorOf wrl = BLACK then
              delFixLoop (Step.rstep wd BLACK wl :: rest)
                (node pd RED (node wrd RED wrl wrr) x)
            else if colorOf wrl = BLACK then
              match wrr with
              | nilS => plug (Step.rstep pd RED (node wrd wrc wrl wrr) ::
                  Step.rstep wd BLACK wl :: rest) x
              | node wrrd _ wrrl wrrr =>
                blackenRoot (plug (Step.rstep wd BLACK wl :: rest)
                  (node wrrd RED (node wrd BLACK wrl wrrl)
                    (node pd BLACK wrrr x)))
            else
              blackenRoot (plug (Step.rstep wd BLACK wl :: rest)
                (node wrd RED (setColor wrl BLACK) (node pd BLACK wrr x)))
        else
          if colorOf wr = BLACK ∧ colorOf wl = BLACK then
            delFixLoop rest (node pd pc (node wd RED wl wr) x)
          else if colorOf wl = BLACK then
            match wr with
            | nilS => plug (Step.rstep pd pc (node wd wc wl nilS) :: rest) x
            | node wrd _ wrl wrr =>
              blackenRoot (plug rest
                (node wrd pc (node wd BLACK wl wrl) (node pd BLACK wrr x)))
          else
            blackenRoot (plug rest
              (node wd pc (setColor wl BLACK) (node pd BLACK wr x)))
  termination_by ctx x => 2 * ctx.length + (if colorOf x = BLACK then 1 else 0)
  decreasing_by
    all_goals {
      have hb : (if colorOf t = BLACK then 1 else 0) = 1 := by
        rcases t with _ | ⟨d, c, l, r⟩
        · rfl
        · rcases c
          · exact absurd (by rfl) hx
          · rfl
      simp only [colorOf] at hb ⊢
      simp only [List.length_cons, hb]
      first
        | omega
        | (split <;> first | omega | simp_all)
    }

/-- `delete_rbnode(tree, data)`.  The successor surgery of the
two-children case: `y` (the minimum of `z->right`, reached by the
recorded context) takes `z`'s place and color, keeps its own right
child `x = y->right` in its old slot, and when `y` was BLACK the fixup
runs on `x` at that slot. -/
def delete_rbnode (tr : Option RBTree) (data : Int) : Int × Option RBTree :=
  match tr with
  | none => (-1, none)
  | some t =>
    match search_zipper t.root data [] with
    | none => (1, some t)                       -- z == tree->NIL: not found
    | some (ctx, nilS) => (1, some t)           -- unreachable
    | some (ctx, node zd zc zl zr) =>
      if zl = nilS then
        -- x = z->right, transplant(z, z->right)
        let newRoot := if zc = BLACK then delFixLoop ctx zr else plug ctx zr
        (0, some ⟨newRoot, t.size - 1⟩)
      else if zr = nilS then
        let newRoot := if zc = BLACK then delFixLoop ctx zl else plug ctx zl
        (0, some ⟨newRoot, t.size - 1⟩)
      else
        match minZipper zr [] with
        | (relCtx, nilS) => (0, some t)         -- unreachable: zr is a real node
        | (relCtx, node yd yc _ yr) =>
          -- x = y->right; y replaces z with z's color; x's slot is
          -- y's old slot inside the new right subtree
          let xctx : Ctx := relCtx ++ (Step.rstep yd zc zl :: ctx)
          let newRoot := if yc = BLACK then delFixLoop xctx yr else plug xctx yr
          (0, some ⟨newRoot, t.size - 1⟩)

/-- `get_rbtree_size` -/
def get_rbtree_size (tr : Option RBTree) : Nat :=
  match tr with
  | none => 0
  | some t => t.size

/-- One caller-visible mutation. -/
inductive ROp : Type where
  | ins (k : Int) (allocOk : Bool)
  | del (k : Int)

def applyROp (t : RBTree) : ROp → RBTree
  | .ins k allocOk => ((insert_rbnode (some t) k allocOk).2).getD t
  | .del k => ((delete_rbnode (some t) k).2).getD t

/-- Run a sequence of operations on the tree built by
`create_rbtree()`. -/
def runROps (ops : List ROp) : RBTree :=
  ops.foldl applyROp create_rbtree

/-! ## Specification predicates -/

/-- No RED node has a RED child. -/
def noRedRed : RBT → Prop
  | nilS => True
  | node _ c l r =>
    (c = RED → colorOf l = BLACK ∧ colorOf r = BLACK) ∧ noRedRed l ∧ noRedRed r

/-- Number of BLACK nodes on each root-to-NIL path (the sentinel
itself not counted). -/
def pathBlacks : RBT → List Nat
  | nilS => [0]
  | node _ c l r =>
    (pathBlacks l ++ pathBlacks r).map (fun m => m + (if c = BLACK then 1 else 0))

/-- Number of key-bearing nodes reachable from a subtree root. -/
def countRB : RBT → Nat
  | nilS => 0
  | node _ _ l r => countRB l + countRB r + 1

/-- The workhorse invariant (CLRS properties 2, 4, 5 packaged
inductively): a subtree of root color `c` and black-height `n`. -/
inductive Balanced : RBT → Color → Nat → Prop where
  | nil : Balanced nilS BLACK 0
  | red {d : Int} {l r : RBT} {n : Nat} :
      Balanced l BLACK n → Balanced r BLACK n → Balanced (node d RED l r) RED n
  | black {d : Int} {l r : RBT} {c1 c2 : Color} {n : Nat} :
      Balanced l c1 n → Balanced r c2 n → Balanced (node d BLACK l r) BLACK (n + 1)

/-- Color of the parent stored in one context step. -/
def stepColor : Step → Color
  | .lstep _ pc _ => pc
  | .rstep _ pc _ => pc

/-- The outermost step of the context — the tree root whenever the
context is nonempty — is BLACK. -/
def topBlack : Ctx → Prop
  | [] => True
  | [s] => stepColor s = BLACK
  | _ :: s :: rest => topBlack (s :: rest)

/-- Nodes held by a context: each step contributes its parent node and
the whole sibling subtree. -/
def ctxCount : Ctx → Nat
  | [] => 0
  | .lstep _ _ sib :: rest => ctxCount rest + countRB sib + 1
  | .rstep _ _ sib :: rest => ctxCount rest + countRB sib + 1

/-- `x` is a RED node whose two children are balanced at black-height
`n` (the transient shape the delete fixup's Case 2 hands to the next
iteration: blackening the root restores balance at `n + 1`). -/
def RedOK (x : RBT) (n : Nat) : Prop :=
  ∃ d l r c1 c2, x = node d RED l r ∧ Balanced l c1 n ∧ Balanced r c2 n

/-- A context whose hole accepts a subtree of black-height `n`: every
parent is consistent with its sibling's black height, and a RED parent
has a BLACK sibling and a grandparent above it.  `b = true` means the
hole tolerates a RED-rooted subtree (its parent is BLACK, or it is the
root slot); `b = false` (RED parent) admits only BLACK-rooted fills. -/
inductive CtxAcc : Ctx → Bool → Nat → Prop where
  | nil {n : Nat} : CtxAcc [] true n
  | lstepB {pd : Int} {sib : RBT} {rest : Ctx} {b : Bool} {n : Nat} {c : Color} :
      Balanced sib c n → CtxAcc rest b (n + 1) →
      CtxAcc (.lstep pd BLACK sib :: rest) true n
  | rstepB {pd : Int} {sib : RBT} {rest : Ctx} {b : Bool} {n : Nat} {c : Color} :
      Balanced sib c n → CtxAcc rest b (n + 1) →
      CtxAcc (.rstep pd BLACK sib :: rest) true n
  | lstepR {pd : Int} {sib : RBT} {rest : Ctx} {n : Nat} :
      Balanced sib BLACK n → CtxAcc rest true n → rest ≠ [] →
      CtxAcc (.lstep pd RED sib :: rest) false n
  | rstepR {pd : Int} {sib : RBT} {rest : Ctx} {n : Nat} :
      Balanced sib BLACK n → CtxAcc rest true n → rest ≠ [] →
      CtxAcc (.rstep pd RED sib :: rest) false n

/-- The red-black properties exactly as the specification lists them:
root BLACK, sentinel BLACK, no RED node with a RED child, and the same
number of BLACK nodes on every root-to-sentinel path. -/
def RBInv (t : RBT) : Prop :=
  colorOf t = BLACK ∧ colorOf nilS = BLACK ∧ noRedRed t ∧
    ∃ n, ∀ m ∈ pathBlacks t, m = n

/-- Health of a whole handle: balanced BLACK root and accurate size. -/
def RBGood (t : RBTree) : Prop :=
  (∃ n, Balanced t.root BLACK n) ∧ t.size = countRB t.root


/-- In-order key sequence of a subtree. -/
def inorderRB : RBT → List Int
  | nilS => []
  | node d _ l r => inorderRB l ++ d :: inorderRB r

/-- The in-order key sequence of `plug ctx t` as a function of the
in-order sequence filling the hole. -/
def plugKeys : Ctx → List Int → List Int
  | [], m => m
  | .lstep pd _ sib :: rest, m => plugKeys rest (m ++ pd :: inorderRB sib)
  | .rstep pd _ sib :: rest, m => plugKeys rest (inorderRB sib ++ pd :: m)

end RB

/-! # B-tree heap model (`src/btree.c`, pointer-level)

The list-of-values model in namespace `BT` is faithful to the C program
only while no node is reachable through two different pointers.  The
buggy child-copy loop of `merge_children` *creates* such double
reachability (it writes `right_child->children[0]` into two slots of
the merged node), and every later effect of that corruption goes
through the aliasing.  This second embedding therefore models the heap
itself: a node is an address, `malloc`/`free` manage a cell list, every
C pointer read is a heap read, and the `keys`/`children` arrays are
kept at their malloc'd capacities (`2t-1`/`2t`) with a separate
`num_keys`, exactly as in `btree.h`.  Writing one past an array's last
cell — which the C program does once the corruption is reached —
leaves the model list unchanged where C overruns its allocation; the
loop counters, which is what the control flow reads, are tracked
exactly.  A function returns `none` where the C program dereferences a
freed or NULL pointer or where its loop is still running when the fuel
runs out. -/

namespace BTH

/-- A heap address (`BTreeNode*`). -/
abbrev Addr := Nat

/-- `BTreeNode`: capacity-sized `keys`/`children` plus `num_keys`. -/
structure HNode : Type where
  keys : List Int
  num_keys : Nat
  children : List (Option Addr)
  is_leaf : Bool
deriving DecidableEq, Repr

/-- The allocator state: cell `a` holds `none` after `free`. -/
structure Heap : Type where
  cells : List (Option HNode)
deriving DecidableEq, Repr

/-- Dereference a node pointer; `none` = NULL/dangling dereference. -/
def readH (h : Heap) (a : Addr) : Option HNode :=
  match h.cells.get? a with
  | some (some n) => some n
  | _ => none

def writeH (h : Heap) (a : Addr) (n : HNode) : Heap :=
  ⟨h.cells.set a (some n)⟩

/-- `malloc` a fresh node (allocation always succeeds here). -/
def allocH (h : Heap) (n : HNode) : Heap × Addr :=
  (⟨h.cells ++ [some n]⟩, h.cells.length)

def freeH (h : Heap) (a : Addr) : Heap :=
  ⟨h.cells.set a none⟩

/-- The C descending copy loop `for (j = hi; count times; j--) xs[j+1] = xs[j]`. -/
def copyUp {α : Type} (d : α) : Nat → Nat → List α → List α
  | 0, _, xs => xs
  | Nat.succ n, j, xs => copyUp d n (j - 1) (xs.set (j + 1) (xs.getD j d))

/-- The C ascending copy loop `for (i = lo; count times; i++) xs[i] = xs[i+1]`. -/
def copyDown {α : Type} (d : α) : Nat → Nat → List α → List α
  | 0, _, xs => xs
  | Nat.succ n, i, xs => copyDown d n (i + 1) (xs.set i (xs.getD (i + 1) d))

/-- `create_btree_node(t, is_leaf)`: arrays at capacity, children NULL. -/
def create_btree_nodeH (h : Heap) (t : Nat) (leaf : Bool) : Heap × Addr :=
  allocH h ⟨List.replicate (2 * t - 1) 0, 0, List.replicate (2 * t) none, leaf⟩

/-- `create_btree(t)` on an empty heap (t ≥ 2 assumed by the caller). -/
def create_btreeH (t : Nat) : Heap × Addr :=
  create_btree_nodeH ⟨[]⟩ t true

/-- `find_key_index(node, key)` -/
def find_key_indexH (n : HNode) (key : Int) : Nat :=
  ((n.keys.take n.num_keys).takeWhile (fun x => x < key)).length

/-- `btree_split_child(parent, child_index, full_child, t)` -/
def btree_split_childH (h : Heap) (pa : Addr) (ci : Nat) (fa : Addr) (t : Nat) :
    Option Heap := do
  let full ← readH h fa
  let (h, sa) := create_btree_nodeH h t full.is_leaf
  let sib ← readH h sa
  let sibKeys := (List.range (t - 1)).foldl
    (fun ks j => ks.set j (full.keys.getD (j + t) 0)) sib.keys
  let sibChildren :=
    if full.is_leaf then sib.children
    else (List.range t).foldl
      (fun cs j => cs.set j (full.children.getD (j + t) none)) sib.children
  let h := writeH h sa
    { sib with keys := sibKeys, children := sibChildren, num_keys := t - 1 }
  let h := writeH h fa { full with num_keys := t - 1 }
  let p ← readH h pa
  let pcs := copyUp none (p.num_keys + 1 - (ci + 1)) p.num_keys p.children
  let pcs := pcs.set (ci + 1) (some sa)
  let pks := copyUp 0 (p.num_keys - ci) (p.num_keys - 1) p.keys
  let pks := pks.set ci (full.keys.getD (t - 1) 0)
  some (writeH h pa { p with keys := pks, children := pcs, num_keys := p.num_keys + 1 })

/-- `btree_insert_nonfull(node, key, t)` -/
def btree_insert_nonfullH (t : Nat) : Nat → Heap → Addr → Int → Option Heap
  | 0, _, _, _ => none
  | Nat.succ fuel, h, na, key => do
    let n ← readH h na
    if n.is_leaf then
      let s := ((n.keys.take n.num_keys).reverse.takeWhile (fun x => key < x)).length
      let ks := copyUp 0 s (n.num_keys - 1) n.keys
      let ks := ks.set (n.num_keys - s) key
      some (writeH h na { n with keys := ks, num_keys := n.num_keys + 1 })
    else do
      let s := ((n.keys.take n.num_keys).reverse.takeWhile (fun x => key < x)).length
      let i := n.num_keys - s
      let ca ← n.children.getD i none
      let c ← readH h ca
      if c.num_keys = 2 * t - 1 then do
        let h ← btree_split_childH h na i ca t
        let n ← readH h na
        let i := if key > n.keys.getD i 0 then i + 1 else i
        let ca ← n.children.getD i none
        btree_insert_nonfullH t fuel h ca key
      else
        btree_insert_nonfullH t fuel h ca key

/-- `insert_btree(tree, key)`; the handle's root pointer is returned. -/
def insert_btreeH (t : Nat) (fuel : Nat) (h : Heap) (ra : Addr) (key : Int) :
    Option (Heap × Addr) := do
  let root ← readH h ra
  if root.num_keys = 2 * t - 1 then do
    let (h, nra) := create_btree_nodeH h t false
    let nr ← readH h nra
    let h := writeH h nra { nr with children := nr.children.set 0 (some ra) }
    let h ← btree_split_childH h nra 0 ra t
    let h ← btree_insert_nonfullH t fuel h nra key
    some (h, nra)
  else do
    let h ← btree_insert_nonfullH t fuel h ra key
    some (h, ra)

/-- `remove_key_from_node(node, key_index, t)` -/
def removeKeyH (n : HNode) (ki : Nat) : HNode :=
  { n with keys := copyDown 0 (n.num_keys - 1 - ki) ki n.keys,
           num_keys := n.num_keys - 1 }

/-- `get_predecessor_key(node, t)` -/
def get_predecessor_keyH (t : Nat) : Nat → Heap → Addr → Option Int
  | 0, _, _ => none
  | Nat.succ fuel, h, a => do
    let n ← readH h a
    if n.is_leaf then some (n.keys.getD (n.num_keys - 1) 0)
    else do
      let ca ← n.children.getD n.num_keys none
      get_predecessor_keyH t fuel h ca

/-- `get_successor_key(node, t)` -/
def get_successor_keyH (t : Nat) : Nat → Heap → Addr → Option Int
  | 0, _, _ => none
  | Nat.succ fuel, h, a => do
    let n ← readH h a
    if n.is_leaf then some (n.keys.getD 0 0)
    else do
      let ca ← n.children.getD 0 none
      get_successor_keyH t fuel h ca

/-- `borrow_from_prev_sibling(deficient, parent, idx, left_sibling, t)` -/
def borrow_from_prev_siblingH (h : Heap) (da pa : Addr) (idx : Nat) (la : Addr) :
    Option Heap := do
  let d ← readH h da
  let ks := copyUp 0 d.num_keys (d.num_keys - 1) d.keys
  let cs :=
    if d.is_leaf then d.children
    else copyUp none (d.num_keys + 1) d.num_keys d.children
  let p ← readH h pa
  let ks := ks.set 0 (p.keys.getD (idx - 1) 0)
  let l ← readH h la
  let p := { p with keys := p.keys.set (idx - 1) (l.keys.getD (l.num_keys - 1) 0) }
  let cs := if l.is_leaf then cs else cs.set 0 (l.children.getD l.num_keys none)
  let h := writeH h da { d with keys := ks, children := cs, num_keys := d.num_keys + 1 }
  let h := writeH h pa p
  some (writeH h la { l with num_keys := l.num_keys - 1 })

/-- `borrow_from_next_sibling(deficient, parent, idx, right_sibling, t)` -/
def borrow_from_next_siblingH (h : Heap) (da pa : Addr) (idx : Nat) (ra : Addr) :
    Option Heap := do
  let d ← readH h da
  let p ← readH h pa
  let ks := d.keys.set d.num_keys (p.keys.getD idx 0)
  let r ← readH h ra
  let p := { p with keys := p.keys.set idx (r.keys.getD 0 0) }
  let cs :=
    if r.is_leaf then d.children
    else d.children.set (d.num_keys + 1) (r.children.getD 0 none)
  let rks := copyDown 0 (r.num_keys - 1) 0 r.keys
  let rcs := if r.is_leaf then r.children else copyDown none r.num_keys 0 r.children
  let h := writeH h da { d with keys := ks, children := cs, num_keys := d.num_keys + 1 }
  let h := writeH h pa p
  some (writeH h ra { r with keys := rks, children := rcs, num_keys := r.num_keys - 1 })

/-- The key-copy loop of `merge_children`:
`for (i = 0; i < right_child->num_keys; i++) { left->keys[left->num_keys] =
right->keys[i]; left->num_keys++; }`.  `right_child->num_keys` is re-read
every iteration, so when `la = ra` (the aliased self-merge the corruption
produces) the bound grows as fast as `i` and the loop never exits. -/
def mergeKeyLoop : Nat → Nat → Heap → Addr → Addr → Option Heap
  | 0, _, _, _, _ => none
  | Nat.succ fuel, i, h, la, ra => do
    let r ← readH h ra
    if i < r.num_keys then do
      let l ← readH h la
      let l := { l with keys := l.keys.set l.num_keys (r.keys.getD i 0),
                        num_keys := l.num_keys + 1 }
      mergeKeyLoop fuel (i + 1) (writeH h la l) la ra
    else some h

/-- The state after at most `fuel` iterations of the same loop (used to
exhibit the mid-loop states of a diverging call). -/
def mergeKeyState : Nat → Nat → Heap → Addr → Addr → Heap
  | 0, _, h, _, _ => h
  | Nat.succ fuel, i, h, la, ra =>
    match readH h ra with
    | none => h
    | some r =>
      if i < r.num_keys then
        match readH h la with
        | none => h
        | some l =>
          mergeKeyState fuel (i + 1)
            (writeH h la { l with keys := l.keys.set l.num_keys (r.keys.getD i 0),
                                  num_keys := l.num_keys + 1 }) la ra
      else h

/-- First child-copy loop of `merge_children` (the one whose index
`left->num_keys - right->num_keys + i - 1` lands one slot early). -/
def mergeChildLoop1 : Nat → Nat → Heap → Addr → Addr → Option Heap
  | 0, _, _, _, _ => none
  | Nat.succ fuel, i, h, la, ra => do
    let r ← readH h ra
    if i ≤ r.num_keys then do
      let l ← readH h la
      let cs := l.children.set (l.num_keys - r.num_keys + i - 1) (r.children.getD i none)
      let l := { l with children := cs }
      mergeChildLoop1 fuel (i + 1) (writeH h la l) la ra
    else some h

/-- Second ("corrected indexing") child-copy loop of `merge_children`. -/
def mergeChildLoop2 (olcc : Nat) : Nat → Nat → Heap → Addr → Addr → Option Heap
  | 0, _, _, _, _ => none
  | Nat.succ fuel, i, h, la, ra => do
    let r ← readH h ra
    if i ≤ r.num_keys then do
      let l ← readH h la
      let l := { l with children := l.children.set (olcc + i) (r.children.getD i none) }
      mergeChildLoop2 olcc fuel (i + 1) (writeH h la l) la ra
    else some h

/-- `merge_children(parent, parent_key_idx_to_move_down, t)` -/
def merge_childrenH (fuel : Nat) (h : Heap) (pa : Addr) (ki : Nat) :
    Option Heap := do
  let p ← readH h pa
  let la ← p.children.getD ki none
  let ra ← p.children.getD (ki + 1) none
  let l ← readH h la
  let l := { l with keys := l.keys.set l.num_keys (p.keys.getD ki 0),
                    num_keys := l.num_keys + 1 }
  let h := writeH h la l
  let h ← mergeKeyLoop fuel 0 h la ra
  let l ← readH h la
  let h ←
    if l.is_leaf then some h
    else do
      let h ← mergeChildLoop1 fuel 0 h la ra
      let l ← readH h la
      let r ← readH h ra
      let h ← mergeChildLoop2 (l.num_keys - r.num_keys) fuel 0 h la ra
      some h
  let p ← readH h pa
  let pks := copyDown 0 (p.num_keys - 1 - ki) ki p.keys
  let pcs := copyDown none (p.num_keys - (ki + 1)) (ki + 1) p.children
  let h := writeH h pa { p with keys := pks, children := pcs, num_keys := p.num_keys - 1 }
  some (freeH h ra)

/-- `fill_child_if_needed(parent, child_idx, t)` -/
def fill_child_if_neededH (t : Nat) (fuel : Nat) (h : Heap) (pa : Addr) (ci : Nat) :
    Option Heap := do
  let p ← readH h pa
  let ca ← p.children.getD ci none
  let c ← readH h ca
  if c.num_keys < t - 1 then some h
  else if c.num_keys = t - 1 then do
    let leftOk ←
      if ci > 0 then do
        let la ← p.children.getD (ci - 1) none
        let l ← readH h la
        some (decide (l.num_keys ≥ t))
      else some false
    if leftOk then do
      let la ← p.children.getD (ci - 1) none
      borrow_from_prev_siblingH h ca pa ci la
    else do
      let rightOk ←
        if ci < p.num_keys then do
          let ra ← p.children.getD (ci + 1) none
          let r ← readH h ra
          some (decide (r.num_keys ≥ t))
        else some false
      if rightOk then do
        let ra ← p.children.getD (ci + 1) none
        borrow_from_next_siblingH h ca pa ci ra
      else
        if ci < p.num_keys then merge_childrenH fuel h pa ci
        else merge_childrenH fuel h pa (ci - 1)
  else some h

/-- `btree_delete_recursive(node, key, t)` -/
def btree_delete_recursiveH (t : Nat) : Nat → Heap → Addr → Int → Option Heap
  | 0, _, _, _ => none
  | Nat.succ fuel, h, na, key => do
    let n ← readH h na
    let idx := find_key_indexH n key
    if idx < n.num_keys ∧ n.keys.getD idx 0 = key then
      if n.is_leaf then some (writeH h na (removeKeyH n idx))
      else do
        let la ← n.children.getD idx none
        let l ← readH h la
        if l.num_keys ≥ t then do
          let pred ← get_predecessor_keyH t fuel h la
          let h := writeH h na { n with keys := n.keys.set idx pred }
          btree_delete_recursiveH t fuel h la pred
        else do
          let ra ← n.children.getD (idx + 1) none
          let r ← readH h ra
          if r.num_keys ≥ t then do
            let succ ← get_successor_keyH t fuel h ra
            let h := writeH h na { n with keys := n.keys.set idx succ }
            btree_delete_recursiveH t fuel h ra succ
          else do
            let h ← merge_childrenH fuel h na idx
            let n ← readH h na
            let ca ← n.children.getD idx none
            btree_delete_recursiveH t fuel h ca key
    else
      if n.is_leaf then some h
      else do
        let ca ← n.children.getD idx none
        let c ← readH h ca
        let h ← if c.num_keys < t then fill_child_if_neededH t fuel h na idx else some h
        let n ← readH h na
        let idx := if idx > n.num_keys ∧ idx > 0 then idx - 1 else idx
        let ca ← n.children.getD idx none
        btree_delete_recursiveH t fuel h ca key

/-- `delete_btree(tree, key)`; returns the (possibly replaced) root. -/
def delete_btreeH (t : Nat) (fuel : Nat) (h : Heap) (ra : Addr) (key : Int) :
    Option (Heap × Addr) := do
  let root ← readH h ra
  if root.num_keys = 0 ∧ root.is_leaf then some (h, ra)
  else do
    let h ← btree_delete_recursiveH t fuel h ra key
    let root ← readH h ra
    if root.num_keys = 0 ∧ root.is_leaf = false then
      match root.children.getD 0 none with
      | some ca => some (freeH h ra, ca)
      | none =>
        let h := freeH h ra
        let (h, nra) := create_btree_nodeH h t true
        some (h, nra)
    else some (h, ra)

/-- One public mutation on the handle state. -/
def applyBTreeOpH (t fuel : Nat) (s : Option (Heap × Addr)) (op : Bool × Int) :
    Option (Heap × Addr) := do
  let (h, ra) ← s
  if op.1 then insert_btreeH t fuel h ra op.2 else delete_btreeH t fuel h ra op.2

/-- Run operations from `create_btree(t)`. -/
def runBTreeOpsH (t : Nat) (ops : List (Bool × Int)) : Option (Heap × Addr) :=
  ops.foldl (applyBTreeOpH t 20) (some (create_btreeH t))

/-- Insert 1..10 into a `t = 2` tree, then delete 9, 10 and 9 again:
the second delete of 9 descends through a merge of the root's two
internal children and runs the buggy child-copy loop. -/
def corruptionOpsH : List (Bool × Int) :=
  (List.range 10).map (fun i => (true, (i : Int) + 1)) ++
    [(false, 9), (false, 10), (false, 9)]

/-- Continue from the corrupted state with three more deletes, ending
where the next delete must merge the aliased child with itself. -/
def wreckOpsH : List (Bool × Int) :=
  corruptionOpsH ++ [(false, 5), (false, 6), (false, 7)]

/-- The heap `corruptionOpsH` reaches: the root (address 1) holds the
address 3 in two child slots, and the leaf that held the key 3
(address 2) has leaked — no reachable child slot points to it. -/
def corruptedHeap : Heap := ⟨[
  some ⟨[1, 2, 3], 1, [none, none, none, none], true⟩,
  some ⟨[2, 4, 6], 3, [some 0, some 3, some 3, some 4], false⟩,
  some ⟨[3, 4, 5], 1, [none, none, none, none], true⟩,
  some ⟨[5, 6, 7], 1, [none, none, none, none], true⟩,
  some ⟨[7, 8, 10], 2, [none, none, none, none], true⟩,
  none, none, none]⟩

/-- The heap `wreckOpsH` reaches: root `[2,4]` with live children
`0, 3, 3` — deleting 8 now calls `merge_children` with the left and
right child both at address 3. -/
def wreckedHeap : Heap := ⟨[
  some ⟨[1, 2, 3], 1, [none, none, none, none], true⟩,
  some ⟨[2, 4, 7], 2, [some 0, some 3, some 3, some 4], false⟩,
  some ⟨[3, 4, 5], 1, [none, none, none, none], true⟩,
  some ⟨[8, 8, 8], 1, [none, none, none, none], true⟩,
  none, none, none, none]⟩

/-- The heap just after the self-merge has moved the parent key 4 down
into node 3 (`left->keys[left->num_keys] = ...; left->num_keys++`),
i.e. the state in which the key-copy loop starts running. -/
def mergeStartHeap : Heap :=
  writeH wreckedHeap 3 ⟨[8, 4, 8], 2, [none, none, none, none], true⟩

/-- The heap after the first 14 of `BT.roundTripOps` (all ten inserts,
then deleting 9, 10, 1 and 2): the root's live child slot 1 still holds
address 3, but cell 3 has been freed by an earlier merge — a dangling
pointer inside the live tree. -/
def danglingHeap : Heap := ⟨[
  some ⟨[5, 5, 5], 1, [none, none, none, none], true⟩,
  some ⟨[4, 6, 6], 2, [some 0, some 3, some 4, some 4], false⟩,
  some ⟨[3, 4, 5], 1, [none, none, none, none], true⟩,
  none,
  some ⟨[7, 8, 10], 2, [none, none, none, none], true⟩,
  none, none, none]⟩

end BTH

theorem insortd_mem (key a : Int) :
    ∀ (l : List Int), a ∈ insortd key l ↔ a = key ∨ a ∈ l := by
  intro l
  induction l with
  | nil => simp [insortd]
  | cons x xs ih =>
    by_cases hx : key < x
    · simp only [insortd, if_pos hx, List.mem_cons]
    · simp only [insortd, if_neg hx, List.mem_cons, ih]
      tauto

theorem insortd_append_lt (key k : Int) (hk : key < k) :
    ∀ (A B : List Int), insortd key (A ++ k :: B) = insortd key A ++ k :: B := by
  intro A B
  induction A with
  | nil => simp [insortd, hk]
  | cons a A' ih =>
    by_cases ha : key < a
    · simp [insortd, ha]
    · simp [insortd, ha, ih]

theorem insortd_append_gt (key k : Int) (hk : k < key) :
    ∀ (A B : List Int), (∀ a ∈ A, a < key) →
      insortd key (A ++ k :: B) = A ++ k :: insortd key B := by
  intro A B
  induction A with
  | nil =>
    intro _
    simp [insortd, not_lt.mpr (le_of_lt hk)]
  | cons a A' ih =>
    intro hA
    have ha : ¬ key < a := not_lt.mpr (le_of_lt (hA a (by simp)))
    simp only [List.cons_append, insortd, if_neg ha, List.cons.injEq, true_and]
    exact ih (fun x hx => hA x (by simp [hx]))

theorem insortd_pairwise (key : Int) :
    ∀ (l : List Int), l.Pairwise (· < ·) → key ∉ l →
      (insortd key l).Pairwise (· < ·) := by
  intro l
  induction l with
  | nil => intro _ _; simp [insortd]
  | cons x xs ih =>
    intro hp hm
    rw [List.pairwise_cons] at hp
    by_cases hx : key < x
    · simp only [insortd, if_pos hx]
      rw [List.pairwise_cons]
      refine ⟨?_, ?_⟩
      · intro a ha
        rcases List.mem_cons.mp ha with rfl | ha
        · exact hx
        · exact lt_trans hx (hp.1 a ha)
      · rw [List.pairwise_cons]; exact hp
    · simp only [insortd, if_neg hx]
      rw [List.pairwise_cons]
      have hne : key ≠ x := fun h => hm (by simp [h])
      have hxk : x < key := lt_of_le_of_ne (not_lt.mp hx) (fun h => hne h.symm)
      refine ⟨?_, ih hp.2 (fun h => hm (List.mem_cons_of_mem _ h))⟩
      intro a ha
      rcases (insortd_mem key a xs).mp ha with rfl | ha
      · exact hxk
      · exact hp.1 a ha


theorem pairwise_node_parts {k : Int} {A B : List Int}
    (hp : (A ++ k :: B).Pairwise (fun a b => a < b)) :
    A.Pairwise (fun a b => a < b) ∧ B.Pairwise (fun a b => a < b) ∧
    (∀ a ∈ A, a < k) ∧ (∀ b ∈ B, k < b) := by
  rw [List.pairwise_append] at hp
  obtain ⟨hA, hkB, hcross⟩ := hp
  rw [List.pairwise_cons] at hkB
  exact ⟨hA, hkB.2, fun a ha => hcross a ha k (by simp), hkB.1⟩

theorem mem_split_lt {key k : Int} {A B : List Int} (hkey : key < k)
    (hB : ∀ b ∈ B, k < b) : key ∈ A ++ k :: B ↔ key ∈ A := by
  simp only [List.mem_append, List.mem_cons]
  constructor
  · rintro (h | hk | h)
    · exact h
    · omega
    · have := hB key h; omega
  · exact fun h => Or.inl h

theorem mem_split_gt {key k : Int} {A B : List Int} (hkey : k < key)
    (hA : ∀ a ∈ A, a < k) : key ∈ A ++ k :: B ↔ key ∈ B := by
  simp only [List.mem_append, List.mem_cons]
  constructor
  · rintro (h | hk | h)
    · have := hA key h; omega
    · omega
    · exact h
  · exact fun h => Or.inr (Or.inr h)

namespace AVL

open AVLNode

theorem max_int_eq (a b : Int) : max_int_internal a b = max a b := by
  unfold max_int_internal
  split <;> omega

theorem realHeight_ge (n : AVLNode) : realHeight n ≥ -1 := by
  cases n with
  | nil => simp [realHeight]
  | node k l r h =>
    have := realHeight_ge l
    simp only [realHeight]
    omega

theorem realHeight_nil_iff (n : AVLNode) : realHeight n = -1 ↔ n = nil := by
  cases n with
  | nil => simp [realHeight]
  | node k l r h =>
    simp only [realHeight]
    have hl := realHeight_ge l
    have hr := realHeight_ge r
    constructor
    · intro h'; omega
    · intro h'; cases h'

theorem stored_eq_real {n : AVLNode} (h : HeightsOk n) :
    get_node_height_internal n = realHeight n := by
  cases n with
  | nil => rfl
  | node k l r hh =>
    simp only [get_node_height_internal, realHeight]
    exact h.1

/-- `update_node_height_internal` writes the real height when the
children's stored heights are correct. -/
theorem update_eq {k : Int} {l r : AVLNode} {h : Int}
    (hl : HeightsOk l) (hr : HeightsOk r) :
    update_node_height_internal (node k l r h) =
      node k l r (1 + max (realHeight l) (realHeight r)) := by
  simp only [update_node_height_internal, max_int_eq, stored_eq_real hl,
    stored_eq_real hr]

/-- The four rebalancing cases of the insert are all skipped when the
node is balanced; only the height is rewritten. -/
theorem insRebalance_noRot {k key : Int} {l r : AVLNode} {h : Int}
    (hl : HeightsOk l) (hr : HeightsOk r)
    (hbal : |realHeight l - realHeight r| ≤ 1) :
    insRebalance (node k l r h) key =
      node k l r (1 + max (realHeight l) (realHeight r)) := by
  unfold insRebalance
  rw [update_eq hl hr]
  simp only [get_balance_factor_internal, stored_eq_real hl, stored_eq_real hr]
  rw [abs_le] at hbal
  have h1 : ¬ (realHeight l - realHeight r > 1) := by omega
  have h2 : ¬ (realHeight l - realHeight r < -1) := by omega
  simp [h1, h2]

/-- Effect of `right_rotate_internal` at a node whose left subtree is two
levels taller than the right one and leans left or is even
(`bf(left) ∈ {0, 1}`): the result satisfies the height and balance
invariants and its height is `realHeight r + 2` (strictly leaning left)
or `realHeight r + 3` (even). -/
theorem rrot_spec {k lk : Int} {ll lr r : AVLNode} {lh h : Int}
    (hll : HeightsOk ll) (hlr : HeightsOk lr) (hr : HeightsOk r)
    (bll : BalancedOk ll) (blr : BalancedOk lr) (br : BalancedOk r)
    (hb1 : realHeight ll - realHeight lr ≤ 1)
    (hge : realHeight ll ≥ realHeight lr)
    (himb : max (realHeight ll) (realHeight lr) = realHeight r + 1) :
    HeightsOk (right_rotate_internal (node k (node lk ll lr lh) r h)) ∧
    BalancedOk (right_rotate_internal (node k (node lk ll lr lh) r h)) ∧
    (realHeight (right_rotate_internal (node k (node lk ll lr lh) r h)) = realHeight r + 2 ∨
      realHeight (right_rotate_internal (node k (node lk ll lr lh) r h)) = realHeight r + 3) ∧
    (realHeight ll > realHeight lr →
      realHeight (right_rotate_internal (node k (node lk ll lr lh) r h)) = realHeight r + 2) := by
  have hy : HeightsOk (node k lr r (1 + max (realHeight lr) (realHeight r))) :=
    ⟨rfl, hlr, hr⟩
  have e : right_rotate_internal (node k (node lk ll lr lh) r h) =
      node lk ll (node k lr r (1 + max (realHeight lr) (realHeight r)))
        (1 + max (realHeight ll)
          (realHeight (node k lr r (1 + max (realHeight lr) (realHeight r))))) := by
    simp only [right_rotate_internal]
    rw [update_eq hlr hr, update_eq hll hy]
  rw [e]
  refine ⟨⟨?_, hll, ⟨?_, hlr, hr⟩⟩, ⟨?_, bll, ⟨?_, blr, br⟩⟩, ?_, ?_⟩ <;>
    simp only [realHeight, abs_le] <;> omega

/-- Mirror image: `left_rotate_internal` at a node whose right subtree is
two levels taller and leans right or is even. -/
theorem lrot_spec {k rk : Int} {l rl rr : AVLNode} {rh h : Int}
    (hl : HeightsOk l) (hrl : HeightsOk rl) (hrr : HeightsOk rr)
    (bl : BalancedOk l) (brl : BalancedOk rl) (brr : BalancedOk rr)
    (hb1 : realHeight rr - realHeight rl ≤ 1)
    (hge : realHeight rr ≥ realHeight rl)
    (himb : max (realHeight rl) (realHeight rr) = realHeight l + 1) :
    HeightsOk (left_rotate_internal (node k l (node rk rl rr rh) h)) ∧
    BalancedOk (left_rotate_internal (node k l (node rk rl rr rh) h)) ∧
    (realHeight (left_rotate_internal (node k l (node rk rl rr rh) h)) = realHeight l + 2 ∨
      realHeight (left_rotate_internal (node k l (node rk rl rr rh) h)) = realHeight l + 3) ∧
    (realHeight rr > realHeight rl →
      realHeight (left_rotate_internal (node k l (node rk rl rr rh) h)) = realHeight l + 2) := by
  have hx : HeightsOk (node k l rl (1 + max (realHeight l) (realHeight rl))) :=
    ⟨rfl, hl, hrl⟩
  have e : left_rotate_internal (node k l (node rk rl rr rh) h) =
      node rk (node k l rl (1 + max (realHeight l) (realHeight rl))) rr
        (1 + max (realHeight (node k l rl (1 + max (realHeight l) (realHeight rl))))
          (realHeight rr)) := by
    simp only [left_rotate_internal]
    rw [update_eq hl hrl, update_eq hx hrr]
  rw [e]
  refine ⟨⟨?_, ⟨?_, hl, hrl⟩, hrr⟩, ⟨?_, ⟨?_, bl, brl⟩, brr⟩, ?_, ?_⟩ <;>
    simp only [realHeight, abs_le] <;> omega

/-- Effect of the left-right double rotation at a node whose left subtree
is two levels taller and leans right (`bf(left) = -1`): the result is
invariant-preserving with height exactly `realHeight r + 2`. -/
theorem lrrot_spec {k lk mk : Int} {ll ml mr r : AVLNode} {lh mh h : Int}
    (hll : HeightsOk ll) (hml : HeightsOk ml) (hmr : HeightsOk mr)
    (hr : HeightsOk r)
    (bll : BalancedOk ll) (bml : BalancedOk ml) (bmr : BalancedOk mr)
    (br : BalancedOk r)
    (hmb : |realHeight ml - realHeight mr| ≤ 1)
    (hmx : max (realHeight ml) (realHeight mr) = realHeight ll)
    (hrr : realHeight ll = realHeight r) :
    HeightsOk (right_rotate_internal
      (node k (left_rotate_internal (node lk ll (node mk ml mr mh) lh)) r h)) ∧
    BalancedOk (right_rotate_internal
      (node k (left_rotate_internal (node lk ll (node mk ml mr mh) lh)) r h)) ∧
    realHeight (right_rotate_internal
      (node k (left_rotate_internal (node lk ll (node mk ml mr mh) lh)) r h)) =
      realHeight r + 2 := by
  have hx : HeightsOk (node lk ll ml (1 + max (realHeight ll) (realHeight ml))) :=
    ⟨rfl, hll, hml⟩
  have e1 : left_rotate_internal (node lk ll (node mk ml mr mh) lh) =
      node mk (node lk ll ml (1 + max (realHeight ll) (realHeight ml))) mr
        (1 + max (realHeight (node lk ll ml (1 + max (realHeight ll) (realHeight ml))))
          (realHeight mr)) := by
    simp only [left_rotate_internal]
    rw [update_eq hll hml, update_eq hx hmr]
  rw [e1]
  have hy : HeightsOk (node k mr r (1 + max (realHeight mr) (realHeight r))) :=
    ⟨rfl, hmr, hr⟩
  have e2 : right_rotate_internal
      (node k (node mk (node lk ll ml (1 + max (realHeight ll) (realHeight ml))) mr
        (1 + max (realHeight (node lk ll ml (1 + max (realHeight ll) (realHeight ml))))
          (realHeight mr))) r h) =
      node mk (node lk ll ml (1 + max (realHeight ll) (realHeight ml)))
        (node k mr r (1 + max (realHeight mr) (realHeight r)))
        (1 + max (realHeight (node lk ll ml (1 + max (realHeight ll) (realHeight ml))))
          (realHeight (node k mr r (1 + max (realHeight mr) (realHeight r))))) := by
    simp only [right_rotate_internal]
    rw [update_eq hmr hr, update_eq hx hy]
  rw [e2]
  rw [abs_le] at hmb
  refine ⟨⟨?_, ⟨?_, hll, hml⟩, ⟨?_, hmr, hr⟩⟩,
    ⟨?_, ⟨?_, bll, bml⟩, ⟨?_, bmr, br⟩⟩, ?_⟩ <;>
    simp only [realHeight, abs_le] <;> omega

/-- Mirror image: the right-left double rotation at a node whose right
subtree is two levels taller and leans left (`bf(right) = 1`). -/
theorem rlrot_spec {k rk mk : Int} {l ml mr rr : AVLNode} {rh mh h : Int}
    (hl : HeightsOk l) (hml : HeightsOk ml) (hmr : HeightsOk mr)
    (hrr : HeightsOk rr)
    (bl : BalancedOk l) (bml : BalancedOk ml) (bmr : BalancedOk mr)
    (brr : BalancedOk rr)
    (hmb : |realHeight ml - realHeight mr| ≤ 1)
    (hmx : max (realHeight ml) (realHeight mr) = realHeight rr)
    (hll : realHeight rr = realHeight l) :
    HeightsOk (left_rotate_internal
      (node k l (right_rotate_internal (node rk (node mk ml mr mh) rr rh)) h)) ∧
    BalancedOk (left_rotate_internal
      (node k l (right_rotate_internal (node rk (node mk ml mr mh) rr rh)) h)) ∧
    realHeight (left_rotate_internal
      (node k l (right_rotate_internal (node rk (node mk ml mr mh) rr rh)) h)) =
      realHeight l + 2 := by
  have hy : HeightsOk (node rk mr rr (1 + max (realHeight mr) (realHeight rr))) :=
    ⟨rfl, hmr, hrr⟩
  have e1 : right_rotate_internal (node rk (node mk ml mr mh) rr rh) =
      node mk ml (node rk mr rr (1 + max (realHeight mr) (realHeight rr)))
        (1 + max (realHeight ml)
          (realHeight (node rk mr rr (1 + max (realHeight mr) (realHeight rr))))) := by
    simp only [right_rotate_internal]
    rw [update_eq hmr hrr, update_eq hml hy]
  rw [e1]
  have hx : HeightsOk (node k l ml (1 + max (realHeight l) (realHeight ml))) :=
    ⟨rfl, hl, hml⟩
  have e2 : left_rotate_internal
      (node k l (node mk ml (node rk mr rr (1 + max (realHeight mr) (realHeight rr)))
        (1 + max (realHeight ml)
          (realHeight (node rk mr rr (1 + max (realHeight mr) (realHeight rr)))))) h) =
      node mk (node k l ml (1 + max (realHeight l) (realHeight ml)))
        (node rk mr rr (1 + max (realHeight mr) (realHeight rr)))
        (1 + max (realHeight (node k l ml (1 + max (realHeight l) (realHeight ml))))
          (realHeight (node rk mr rr (1 + max (realHeight mr) (realHeight rr))))) := by
    simp only [left_rotate_internal]
    rw [update_eq hl hml, update_eq hx hy]
  rw [e2]
  rw [abs_le] at hmb
  refine ⟨⟨?_, ⟨?_, hl, hml⟩, ⟨?_, hmr, hrr⟩⟩,
    ⟨?_, ⟨?_, bl, bml⟩, ⟨?_, bmr, brr⟩⟩, ?_⟩ <;>
    simp only [realHeight, abs_le] <;> omega

/-- Same for the delete rebalance. -/
theorem delRebalance_noRot {k : Int} {l r : AVLNode} {h : Int}
    (hl : HeightsOk l) (hr : HeightsOk r)
    (hbal : |realHeight l - realHeight r| ≤ 1) :
    delRebalance (node k l r h) =
      node k l r (1 + max (realHeight l) (realHeight r)) := by
  unfold delRebalance
  rw [update_eq hl hr]
  simp only [get_balance_factor_internal, stored_eq_real hl, stored_eq_real hr]
  rw [abs_le] at hbal
  have h1 : ¬ (realHeight l - realHeight r > 1) := by omega
  have h2 : ¬ (realHeight l - realHeight r < -1) := by omega
  simp [h1, h2]

/-! Which branch each rebalance takes, under the stored-height/real-height
agreement. -/

theorem gbf_node {k : Int} {l r : AVLNode} {h : Int} :
    get_balance_factor_internal (node k l r h) =
      get_node_height_internal l - get_node_height_internal r := rfl

theorem insRebalance_rotR {k key : Int} {l r : AVLNode} {h : Int}
    (hl : HeightsOk l) (hr : HeightsOk r)
    (hbal : realHeight l - realHeight r > 1) (hklt : key < keyOf l) :
    insRebalance (node k l r h) key =
      right_rotate_internal (node k l r (1 + max (realHeight l) (realHeight r))) := by
  unfold insRebalance
  rw [update_eq hl hr]
  simp only [gbf_node, stored_eq_real hl, stored_eq_real hr]
  rw [if_pos ⟨hbal, hklt⟩]

theorem insRebalance_rotLR {k key : Int} {l r : AVLNode} {h : Int}
    (hl : HeightsOk l) (hr : HeightsOk r)
    (hbal : realHeight l - realHeight r > 1) (hkgt : key > keyOf l) :
    insRebalance (node k l r h) key =
      right_rotate_internal
        (node k (left_rotate_internal l) r (1 + max (realHeight l) (realHeight r))) := by
  unfold insRebalance
  rw [update_eq hl hr]
  simp only [gbf_node, stored_eq_real hl, stored_eq_real hr]
  rw [if_neg (fun hc => absurd hc.2 (by omega)),
    if_neg (fun hc => absurd hc.1 (by omega)), if_pos ⟨hbal, hkgt⟩]

theorem insRebalance_rotL {k key : Int} {l r : AVLNode} {h : Int}
    (hl : HeightsOk l) (hr : HeightsOk r)
    (hbal : realHeight l - realHeight r < -1) (hkgt : key > keyOf r) :
    insRebalance (node k l r h) key =
      left_rotate_internal (node k l r (1 + max (realHeight l) (realHeight r))) := by
  unfold insRebalance
  rw [update_eq hl hr]
  simp only [gbf_node, stored_eq_real hl, stored_eq_real hr]
  rw [if_neg (fun hc => absurd hc.1 (by omega)), if_pos ⟨hbal, hkgt⟩]

theorem insRebalance_rotRL {k key : Int} {l r : AVLNode} {h : Int}
    (hl : HeightsOk l) (hr : HeightsOk r)
    (hbal : realHeight l - realHeight r < -1) (hklt : key < keyOf r) :
    insRebalance (node k l r h) key =
      left_rotate_internal
        (node k l (right_rotate_internal r) (1 + max (realHeight l) (realHeight r))) := by
  unfold insRebalance
  rw [update_eq hl hr]
  simp only [gbf_node, stored_eq_real hl, stored_eq_real hr]
  rw [if_neg (fun hc => absurd hc.1 (by omega)),
    if_neg (fun hc => absurd hc.2 (by omega)),
    if_neg (fun hc => absurd hc.1 (by omega)), if_pos ⟨hbal, hklt⟩]

theorem delRebalance_rotR {k : Int} {l r : AVLNode} {h : Int}
    (hl : HeightsOk l) (hr : HeightsOk r)
    (hbal : realHeight l - realHeight r > 1)
    (hbf : get_balance_factor_internal l ≥ 0) :
    delRebalance (node k l r h) =
      right_rotate_internal (node k l r (1 + max (realHeight l) (realHeight r))) := by
  unfold delRebalance
  rw [update_eq hl hr]
  simp only [gbf_node, stored_eq_real hl, stored_eq_real hr]
  rw [if_pos ⟨hbal, hbf⟩]

theorem delRebalance_rotLR {k : Int} {l r : AVLNode} {h : Int}
    (hl : HeightsOk l) (hr : HeightsOk r)
    (hbal : realHeight l - realHeight r > 1)
    (hbf : get_balance_factor_internal l < 0) :
    delRebalance (node k l r h) =
      right_rotate_internal
        (node k (left_rotate_internal l) r (1 + max (realHeight l) (realHeight r))) := by
  unfold delRebalance
  rw [update_eq hl hr]
  simp only [gbf_node, stored_eq_real hl, stored_eq_real hr]
  rw [if_neg (fun hc => absurd hc.2 (by omega)), if_pos ⟨hbal, hbf⟩]

theorem delRebalance_rotL {k : Int} {l r : AVLNode} {h : Int}
    (hl : HeightsOk l) (hr : HeightsOk r)
    (hbal : realHeight l - realHeight r < -1)
    (hbf : get_balance_factor_internal r ≤ 0) :
    delRebalance (node k l r h) =
      left_rotate_internal (node k l r (1 + max (realHeight l) (realHeight r))) := by
  unfold delRebalance
  rw [update_eq hl hr]
  simp only [gbf_node, stored_eq_real hl, stored_eq_real hr]
  rw [if_neg (fun hc => absurd hc.1 (by omega)),
    if_neg (fun hc => absurd hc.1 (by omega)), if_pos ⟨hbal, hbf⟩]

theorem delRebalance_rotRL {k : Int} {l r : AVLNode} {h : Int}
    (hl : HeightsOk l) (hr : HeightsOk r)
    (hbal : realHeight l - realHeight r < -1)
    (hbf : get_balance_factor_internal r > 0) :
    delRebalance (node k l r h) =
      left_rotate_internal
        (node k l (right_rotate_internal r) (1 + max (realHeight l) (realHeight r))) := by
  unfold delRebalance
  rw [update_eq hl hr]
  simp only [gbf_node, stored_eq_real hl, stored_eq_real hr]
  rw [if_neg (fun hc => absurd hc.1 (by omega)),
    if_neg (fun hc => absurd hc.1 (by omega)),
    if_neg (fun hc => absurd hc.2 (by omega)), if_pos ⟨hbal, hbf⟩]

/-- Main lemma for `insert_recursive_internal` (allocation succeeding):
the height and balance invariants are preserved, and the subtree height
either stays put or grows by one with the grown tree leaning toward the
inserted key (`GrewP`). -/
theorem ins_main (key : Int) :
    ∀ n : AVLNode, HeightsOk n → BalancedOk n →
      HeightsOk (insert_recursive_internal n key true).1 ∧
      BalancedOk (insert_recursive_internal n key true).1 ∧
      (realHeight (insert_recursive_internal n key true).1 = realHeight n ∨
        (realHeight (insert_recursive_internal n key true).1 = realHeight n + 1 ∧
          GrewP (insert_recursive_internal n key true).1 key)) := by
  intro n
  induction n with
  | nil =>
    intro _ _
    refine ⟨⟨?_, trivial, trivial⟩, ⟨?_, trivial, trivial⟩, Or.inr ⟨?_, Or.inl ⟨rfl, rfl⟩⟩⟩ <;>
      simp [insert_recursive_internal, create_new_avl_node, realHeight]
  | node k l r h ihl ihr =>
    intro hH hB
    obtain ⟨hh, hHl, hHr⟩ := hH
    obtain ⟨hbal, hBl, hBr⟩ := hB
    rw [abs_le] at hbal
    have hgel := realHeight_ge l
    have hger := realHeight_ge r
    by_cases h1 : key < k
    · rcases hres : insert_recursive_internal l key true with ⟨l', flag, inc⟩
      have IH := ihl hHl hBl
      rw [hres] at IH
      dsimp only at IH
      obtain ⟨IH1, IH2, IH3⟩ := IH
      simp only [insert_recursive_internal, if_pos h1, hres]
      rcases IH3 with heq | ⟨hgrow, hgrew⟩
      · -- left subtree height unchanged: no rotation
        rw [insRebalance_noRot IH1 hHr (by rw [abs_le]; omega)]
        exact ⟨⟨rfl, IH1, hHr⟩, ⟨by rw [abs_le]; omega, IH2, hBr⟩,
          Or.inl (by simp only [realHeight]; omega)⟩
      · -- left subtree grew by one
        have h3 : realHeight r = realHeight l + 1 ∨ realHeight r = realHeight l ∨
            realHeight r = realHeight l - 1 := by omega
        rcases h3 with h3 | h3 | h3
        · -- balance becomes 0
          rw [insRebalance_noRot IH1 hHr (by rw [abs_le]; omega)]
          exact ⟨⟨rfl, IH1, hHr⟩, ⟨by rw [abs_le]; omega, IH2, hBr⟩,
            Or.inl (by simp only [realHeight]; omega)⟩
        · -- balance becomes 1: no rotation, subtree grew
          rw [insRebalance_noRot IH1 hHr (by rw [abs_le]; omega)]
          refine ⟨⟨rfl, IH1, hHr⟩, ⟨by rw [abs_le]; omega, IH2, hBr⟩,
            Or.inr ⟨by simp only [realHeight]; omega, ?_⟩⟩
          exact Or.inr (Or.inl ⟨by omega, h1⟩)
        · -- balance becomes 2: a rotation fires
          cases l' with
          | nil => exact absurd hgrew (by simp [GrewP])
          | node lk ll lr lh =>
            obtain ⟨hsl, hHll, hHlr⟩ := IH1
            obtain ⟨hbl', hBll, hBlr⟩ := IH2
            rw [abs_le] at hbl'
            simp only [realHeight] at hgrow
            rcases hgrew with ⟨hm1, hm2⟩ | ⟨hbf, hklt⟩ | ⟨hbf, hkgt⟩
            · -- freshly created leaf: impossible two levels above a subtree
              rw [hm1, hm2] at hgrow
              omega
            · -- LL case: single right rotation
              rw [insRebalance_rotR (show HeightsOk (node lk ll lr lh) from ⟨hsl, hHll, hHlr⟩) hHr
                (by simp only [realHeight]; omega) (by simpa [keyOf] using hklt)]
              obtain ⟨hA, hBk, hD, hS⟩ := @rrot_spec k _ _ _ _ lh (1 + max (realHeight (node lk ll lr lh)) (realHeight r))
                hHll hHlr hHr hBll hBlr hBr (by omega) (by omega) (by omega)
              exact ⟨hA, hBk, Or.inl (by rw [hS (by omega)]; simp only [realHeight]; omega)⟩
            · -- LR case: double rotation
              have hlr0 : realHeight lr ≥ 0 := by omega
              cases lr with
              | nil => simp [realHeight] at hlr0
              | node mk ml mr mh =>
                obtain ⟨hslr, hHml, hHmr⟩ := hHlr
                obtain ⟨hmb, hBml, hBmr⟩ := hBlr
                simp only [realHeight] at hbf hgrow
                rw [insRebalance_rotLR (show HeightsOk (node lk ll (node mk ml mr mh) lh) from ⟨hsl, hHll, hslr, hHml, hHmr⟩) hHr
                  (by simp only [realHeight]; omega) (by simpa [keyOf] using hkgt)]
                obtain ⟨hA, hBk, hD⟩ := @lrrot_spec k _ _ _ _ _ _ lh mh (1 + max (realHeight (node lk ll (node mk ml mr mh) lh)) (realHeight r))
                  hHll hHml hHmr hHr hBll hBml hBmr hBr hmb (by omega) (by omega)
                exact ⟨hA, hBk, Or.inl (by rw [hD]; simp only [realHeight]; omega)⟩
    · by_cases h2 : key > k
      · rcases hres : insert_recursive_internal r key true with ⟨r', flag, inc⟩
        have IH := ihr hHr hBr
        rw [hres] at IH
        dsimp only at IH
        obtain ⟨IH1, IH2, IH3⟩ := IH
        simp only [insert_recursive_internal, if_neg h1, if_pos h2, hres]
        rcases IH3 with heq | ⟨hgrow, hgrew⟩
        · rw [insRebalance_noRot hHl IH1 (by rw [abs_le]; omega)]
          exact ⟨⟨rfl, hHl, IH1⟩, ⟨by rw [abs_le]; omega, hBl, IH2⟩,
            Or.inl (by simp only [realHeight]; omega)⟩
        · have h3 : realHeight l = realHeight r + 1 ∨ realHeight l = realHeight r ∨
              realHeight l = realHeight r - 1 := by omega
          rcases h3 with h3 | h3 | h3
          · rw [insRebalance_noRot hHl IH1 (by rw [abs_le]; omega)]
            exact ⟨⟨rfl, hHl, IH1⟩, ⟨by rw [abs_le]; omega, hBl, IH2⟩,
              Or.inl (by simp only [realHeight]; omega)⟩
          · rw [insRebalance_noRot hHl IH1 (by rw [abs_le]; omega)]
            refine ⟨⟨rfl, hHl, IH1⟩, ⟨by rw [abs_le]; omega, hBl, IH2⟩,
              Or.inr ⟨by simp only [realHeight]; omega, ?_⟩⟩
            exact Or.inr (Or.inr ⟨by omega, h2⟩)
          · cases r' with
            | nil => exact absurd hgrew (by simp [GrewP])
            | node rk rl rr rh =>
              obtain ⟨hsr, hHrl, hHrr⟩ := IH1
              obtain ⟨hbr', hBrl, hBrr⟩ := IH2
              rw [abs_le] at hbr'
              simp only [realHeight] at hgrow
              rcases hgrew with ⟨hm1, hm2⟩ | ⟨hbf, hklt⟩ | ⟨hbf, hkgt⟩
              · rw [hm1, hm2] at hgrow
                omega
              · -- RL case: double rotation
                have hrl0 : realHeight rl ≥ 0 := by omega
                cases rl with
                | nil => simp [realHeight] at hrl0
                | node mk ml mr mh =>
                  obtain ⟨hsrl, hHml, hHmr⟩ := hHrl
                  obtain ⟨hmb, hBml, hBmr⟩ := hBrl
                  simp only [realHeight] at hbf hgrow
                  rw [insRebalance_rotRL hHl (show HeightsOk (node rk (node mk ml mr mh) rr rh) from ⟨hsr, ⟨hsrl, hHml, hHmr⟩, hHrr⟩)
                    (by simp only [realHeight]; omega) (by simpa [keyOf] using hklt)]
                  obtain ⟨hA, hBk, hD⟩ := @rlrot_spec k _ _ _ _ _ _ rh mh (1 + max (realHeight l) (realHeight (node rk (node mk ml mr mh) rr rh)))
                    hHl hHml hHmr hHrr hBl hBml hBmr hBrr hmb (by omega) (by omega)
                  exact ⟨hA, hBk, Or.inl (by rw [hD]; simp only [realHeight]; omega)⟩
              · -- RR case: single left rotation
                rw [insRebalance_rotL hHl (show HeightsOk (node rk rl rr rh) from ⟨hsr, hHrl, hHrr⟩)
                  (by simp only [realHeight]; omega) (by simpa [keyOf] using hkgt)]
                obtain ⟨hA, hBk, hD, hS⟩ := @lrot_spec k _ _ _ _ rh (1 + max (realHeight l) (realHeight (node rk rl rr rh)))
                  hHl hHrl hHrr hBl hBrl hBrr (by omega) (by omega) (by omega)
                exact ⟨hA, hBk, Or.inl (by rw [hS (by omega)]; simp only [realHeight]; omega)⟩
      · simp only [insert_recursive_internal, if_neg h1, if_neg h2]
        refine ⟨⟨hh, hHl, hHr⟩, ⟨?_, hBl, hBr⟩, Or.inl trivial⟩
        rw [abs_le]
        omega

/-- Main lemma for `delete_recursive_internal`: the height and balance
invariants are preserved and the subtree height shrinks by at most
one. -/
theorem del_main :
    ∀ n : AVLNode, HeightsOk n → BalancedOk n → ∀ key : Int,
      HeightsOk (delete_recursive_internal n key).1 ∧
      BalancedOk (delete_recursive_internal n key).1 ∧
      (realHeight (delete_recursive_internal n key).1 = realHeight n ∨
        realHeight (delete_recursive_internal n key).1 = realHeight n - 1) := by
  intro n
  induction n with
  | nil =>
    intro _ _ key
    exact ⟨trivial, trivial, Or.inl rfl⟩
  | node k l r h ihl ihr =>
    intro hH hB key
    obtain ⟨hh, hHl, hHr⟩ := hH
    obtain ⟨hbal, hBl, hBr⟩ := hB
    rw [abs_le] at hbal
    have hgel := realHeight_ge l
    have hger := realHeight_ge r
    by_cases h1 : key < k
    · -- delete from the left subtree
      rcases hres : delete_recursive_internal l key with ⟨l', flag, dec⟩
      have IH := ihl hHl hBl key
      rw [hres] at IH
      dsimp only at IH
      obtain ⟨IH1, IH2, IH3⟩ := IH
      have hgel' := realHeight_ge l'
      simp only [delete_recursive_internal, if_pos h1, hres]
      by_cases h3 : realHeight r - realHeight l' ≤ 1
      · -- still balanced at this node
        rw [delRebalance_noRot IH1 hHr (by rw [abs_le]; omega)]
        exact ⟨⟨rfl, IH1, hHr⟩, ⟨by rw [abs_le]; omega, IH2, hBr⟩,
          by simp only [realHeight]; omega⟩
      · -- the right subtree is now two levels taller
        have h4 : realHeight r = realHeight l' + 2 := by omega
        have hr0 : realHeight r ≥ 1 := by omega
        cases r with
        | nil => simp [realHeight] at hr0
        | node rk rl rr rh =>
          obtain ⟨hsr, hHrl, hHrr⟩ := hHr
          obtain ⟨hrb, hBrl, hBrr⟩ := hBr
          rw [abs_le] at hrb
          simp only [realHeight] at h4 hr0
          by_cases h5 : realHeight rl - realHeight rr ≤ 0
          · -- sibling leans right or even: single left rotation
            rw [delRebalance_rotL IH1 (show HeightsOk (node rk rl rr rh) from ⟨hsr, hHrl, hHrr⟩)
              (by simp only [realHeight]; omega)
              (by simp only [gbf_node, stored_eq_real hHrl, stored_eq_real hHrr]; omega)]
            obtain ⟨hA, hBk, hD, hS⟩ := @lrot_spec k _ _ _ _ rh (1 + max (realHeight l') (realHeight (node rk rl rr rh)))
              IH1 hHrl hHrr IH2 hBrl hBrr (by omega) (by omega) (by omega)
            refine ⟨hA, hBk, ?_⟩
            rcases hD with hD | hD <;> rw [hD] <;> simp only [realHeight] <;> omega
          · -- sibling leans left: right-left double rotation
            have h6 : realHeight rl = realHeight rr + 1 := by omega
            have hrl0 : realHeight rl ≥ 0 := by omega
            cases rl with
            | nil => simp [realHeight] at hrl0
            | node mk ml mr mh =>
              obtain ⟨hsrl, hHml, hHmr⟩ := hHrl
              obtain ⟨hmb, hBml, hBmr⟩ := hBrl
              simp only [realHeight] at h4 h6
              rw [delRebalance_rotRL IH1
                (show HeightsOk (node rk (node mk ml mr mh) rr rh) from
                  ⟨hsr, ⟨hsrl, hHml, hHmr⟩, hHrr⟩)
                (by simp only [realHeight]; omega)
                (by simp only [gbf_node, stored_eq_real (show HeightsOk (node mk ml mr mh) from
                    ⟨hsrl, hHml, hHmr⟩), stored_eq_real hHrr, realHeight]; omega)]
              obtain ⟨hA, hBk, hD⟩ := @rlrot_spec k _ _ _ _ _ _ rh mh (1 + max (realHeight l') (realHeight (node rk (node mk ml mr mh) rr rh)))
                IH1 hHml hHmr hHrr IH2 hBml hBmr hBrr hmb (by omega) (by omega)
              exact ⟨hA, hBk, by rw [hD]; simp only [realHeight]; omega⟩
    · by_cases h2 : key > k
      · -- delete from the right subtree
        rcases hres : delete_recursive_internal r key with ⟨r', flag, dec⟩
        have IH := ihr hHr hBr key
        rw [hres] at IH
        dsimp only at IH
        obtain ⟨IH1, IH2, IH3⟩ := IH
        have hger' := realHeight_ge r'
        simp only [delete_recursive_internal, if_neg h1, if_pos h2, hres]
        by_cases h3 : realHeight l - realHeight r' ≤ 1
        · rw [delRebalance_noRot hHl IH1 (by rw [abs_le]; omega)]
          exact ⟨⟨rfl, hHl, IH1⟩, ⟨by rw [abs_le]; omega, hBl, IH2⟩,
            by simp only [realHeight]; omega⟩
        · have h4 : realHeight l = realHeight r' + 2 := by omega
          have hl0 : realHeight l ≥ 1 := by omega
          cases l with
          | nil => simp [realHeight] at hl0
          | node lk ll lr lh =>
            obtain ⟨hsl, hHll, hHlr⟩ := hHl
            obtain ⟨hlb, hBll, hBlr⟩ := hBl
            rw [abs_le] at hlb
            simp only [realHeight] at h4 hl0
            by_cases h5 : realHeight ll - realHeight lr ≥ 0
            · rw [delRebalance_rotR (show HeightsOk (node lk ll lr lh) from ⟨hsl, hHll, hHlr⟩)
                IH1 (by simp only [realHeight]; omega)
                (by simp only [gbf_node, stored_eq_real hHll, stored_eq_real hHlr]; omega)]
              obtain ⟨hA, hBk, hD, hS⟩ := @rrot_spec k _ _ _ _ lh (1 + max (realHeight (node lk ll lr lh)) (realHeight r'))
                hHll hHlr IH1 hBll hBlr IH2 (by omega) (by omega) (by omega)
              refine ⟨hA, hBk, ?_⟩
              rcases hD with hD | hD <;> rw [hD] <;> simp only [realHeight] <;> omega
            · have h6 : realHeight lr = realHeight ll + 1 := by omega
              have hlr0 : realHeight lr ≥ 0 := by omega
              cases lr with
              | nil => simp [realHeight] at hlr0
              | node mk ml mr mh =>
                obtain ⟨hslr, hHml, hHmr⟩ := hHlr
                obtain ⟨hmb, hBml, hBmr⟩ := hBlr
                simp only [realHeight] at h4 h6
                rw [delRebalance_rotLR
                  (show HeightsOk (node lk ll (node mk ml mr mh) lh) from
                    ⟨hsl, hHll, hslr, hHml, hHmr⟩) IH1
                  (by simp only [realHeight]; omega)
                  (by simp only [gbf_node, stored_eq_real hHll,
                      stored_eq_real (show HeightsOk (node mk ml mr mh) from
                        ⟨hslr, hHml, hHmr⟩), realHeight]; omega)]
                obtain ⟨hA, hBk, hD⟩ := @lrrot_spec k _ _ _ _ _ _ lh mh (1 + max (realHeight (node lk ll (node mk ml mr mh) lh)) (realHeight r'))
                  hHll hHml hHmr IH1 hBll hBml hBmr IH2 hmb (by omega) (by omega)
                exact ⟨hA, hBk, by rw [hD]; simp only [realHeight]; omega⟩
      · -- key == k: this node is deleted
        cases l with
        | nil =>
          cases r with
          | nil =>
            have hstep : delete_recursive_internal (node k nil nil h) key = (nil, 0, 1) := by
              conv_lhs => rw [delete_recursive_internal.eq_def]
              simp [h1, h2]
            simp only [hstep]
            exact ⟨trivial, trivial, by simp only [realHeight]; omega⟩
          | node rk rl rr rh =>
            obtain ⟨hsr, hHrl, hHrr⟩ := hHr
            obtain ⟨hrb, hBrl, hBrr⟩ := hBr
            have hstep : delete_recursive_internal (node k nil (node rk rl rr rh) h) key =
                (delRebalance (node rk rl rr rh), 0, 1) := by
              conv_lhs => rw [delete_recursive_internal.eq_def]
              simp [h1, h2]
            simp only [hstep]
            rw [delRebalance_noRot hHrl hHrr hrb]
            rw [abs_le] at hrb
            refine ⟨⟨rfl, hHrl, hHrr⟩, ⟨by rw [abs_le]; omega, hBrl, hBrr⟩, ?_⟩
            have hg1 := realHeight_ge rl
            have hg2 := realHeight_ge rr
            simp only [realHeight] at hsr ⊢
            omega
        | node lk ll lr lh =>
          cases r with
          | nil =>
            obtain ⟨hsl, hHll, hHlr⟩ := hHl
            obtain ⟨hlb, hBll, hBlr⟩ := hBl
            have hstep : delete_recursive_internal (node k (node lk ll lr lh) nil h) key =
                (delRebalance (node lk ll lr lh), 0, 1) := by
              conv_lhs => rw [delete_recursive_internal.eq_def]
              simp [h1, h2]
            simp only [hstep]
            rw [delRebalance_noRot hHll hHlr hlb]
            rw [abs_le] at hlb
            refine ⟨⟨rfl, hHll, hHlr⟩, ⟨by rw [abs_le]; omega, hBll, hBlr⟩, ?_⟩
            have hg1 := realHeight_ge ll
            have hg2 := realHeight_ge lr
            simp only [realHeight] at hsl ⊢
            omega
          | node rk rl rr rh =>
            -- two children: copy the successor key up and delete it from
            -- the right subtree
            rcases hres : delete_recursive_internal (node rk rl rr rh)
                (keyOf (find_min_node_internal (node rk rl rr rh))) with ⟨r', flag2, dec⟩
            have IH := ihr hHr hBr (keyOf (find_min_node_internal (node rk rl rr rh)))
            rw [hres] at IH
            dsimp only at IH
            obtain ⟨IH1, IH2, IH3⟩ := IH
            have hger' := realHeight_ge r'
            have hgll := realHeight_ge ll
            have hglr := realHeight_ge lr
            have hstep : delete_recursive_internal
                (node k (node lk ll lr lh) (node rk rl rr rh) h) key =
                (delRebalance (node (keyOf (find_min_node_internal (node rk rl rr rh)))
                  (node lk ll lr lh) r' h), 0, dec) := by
              conv_lhs => rw [delete_recursive_internal.eq_def]
              simp [h1, h2, hres]
            simp only [hstep]
            simp only [realHeight] at IH3
            have hgerr := realHeight_ge (node rk rl rr rh)
            simp only [realHeight] at hgerr hbal
            by_cases h3 : realHeight (node lk ll lr lh) - realHeight r' ≤ 1
            · rw [delRebalance_noRot hHl IH1 (by
                rw [abs_le]
                simp only [realHeight] at h3 ⊢
                have hg1 := realHeight_ge ll
                have hg2 := realHeight_ge lr
                omega)]
              refine ⟨⟨rfl, hHl, IH1⟩, ⟨by
                rw [abs_le]
                simp only [realHeight] at h3 ⊢
                have hg1 := realHeight_ge ll
                have hg2 := realHeight_ge lr
                omega, hBl, IH2⟩, ?_⟩
              simp only [realHeight] at h3 ⊢
              omega
            · have h4 : realHeight (node lk ll lr lh) = realHeight r' + 2 := by
                simp only [realHeight] at h3 ⊢
                omega
              obtain ⟨hsl, hHll, hHlr⟩ := hHl
              obtain ⟨hlb, hBll, hBlr⟩ := hBl
              rw [abs_le] at hlb
              simp only [realHeight] at h4
              by_cases h5 : realHeight ll - realHeight lr ≥ 0
              · rw [delRebalance_rotR (show HeightsOk (node lk ll lr lh) from ⟨hsl, hHll, hHlr⟩)
                  IH1 (by simp only [realHeight]; omega)
                  (by simp only [gbf_node, stored_eq_real hHll, stored_eq_real hHlr]; omega)]
                obtain ⟨hA, hBk, hD, hS⟩ := @rrot_spec
                  (keyOf (find_min_node_internal (node rk rl rr rh))) _ _ _ _ lh
                  (1 + max (realHeight (node lk ll lr lh)) (realHeight r'))
                  hHll hHlr IH1 hBll hBlr IH2 (by omega) (by omega) (by omega)
                refine ⟨hA, hBk, ?_⟩
                rcases hD with hD | hD <;> rw [hD] <;> simp only [realHeight] at h3 ⊢ <;> omega
              · have h6 : realHeight lr = realHeight ll + 1 := by omega
                have hlr0 : realHeight lr ≥ 0 := by omega
                cases lr with
                | nil => simp [realHeight] at hlr0
                | node mk ml mr mh =>
                  obtain ⟨hslr, hHml, hHmr⟩ := hHlr
                  obtain ⟨hmb, hBml, hBmr⟩ := hBlr
                  simp only [realHeight] at h4 h6
                  rw [delRebalance_rotLR
                    (show HeightsOk (node lk ll (node mk ml mr mh) lh) from
                      ⟨hsl, hHll, hslr, hHml, hHmr⟩) IH1
                    (by simp only [realHeight]; omega)
                    (by simp only [gbf_node, stored_eq_real hHll,
                        stored_eq_real (show HeightsOk (node mk ml mr mh) from
                          ⟨hslr, hHml, hHmr⟩), realHeight]; omega)]
                  obtain ⟨hA, hBk, hD⟩ := @lrrot_spec
                    (keyOf (find_min_node_internal (node rk rl rr rh))) _ _ _ _ _ _
                    lh mh
                    (1 + max (realHeight (node lk ll (node mk ml mr mh) lh)) (realHeight r'))
                    hHll hHml hHmr IH1 hBll hBml hBmr IH2 hmb (by omega) (by omega)
                  exact ⟨hA, hBk, by rw [hD]; simp only [realHeight] at h3 ⊢; omega⟩

/-! ## Node counting, status flags, allocation failure -/

theorem count_update (n : AVLNode) :
    countNodes (update_node_height_internal n) = countNodes n := by
  cases n <;> rfl

theorem count_rrot (n : AVLNode) :
    countNodes (right_rotate_internal n) = countNodes n := by
  cases n with
  | nil => rfl
  | node k l r h =>
    cases l with
    | nil => rfl
    | node lk ll lr lh =>
      simp only [right_rotate_internal, update_node_height_internal, countNodes]
      omega

theorem count_lrot (n : AVLNode) :
    countNodes (left_rotate_internal n) = countNodes n := by
  cases n with
  | nil => rfl
  | node k l r h =>
    cases r with
    | nil => rfl
    | node rk rl rr rh =>
      simp only [left_rotate_internal, update_node_height_internal, countNodes]
      omega

theorem count_insRebalance (n : AVLNode) (key : Int) :
    countNodes (insRebalance n key) = countNodes n := by
  cases n with
  | nil => rfl
  | node k l r h =>
    simp only [insRebalance, update_node_height_internal]
    split_ifs <;>
      simp only [count_rrot, count_lrot, countNodes]

theorem count_delRebalance (n : AVLNode) :
    countNodes (delRebalance n) = countNodes n := by
  cases n with
  | nil => rfl
  | node k l r h =>
    simp only [delRebalance, update_node_height_internal]
    split_ifs <;>
      simp only [count_rrot, count_lrot, countNodes]

/-- The node count moves exactly by the size increment the insert
reports through `size_ptr`. -/
theorem ins_count (key : Int) (ok : Bool) :
    ∀ n : AVLNode,
      countNodes (insert_recursive_internal n key ok).1 =
        countNodes n + (insert_recursive_internal n key ok).2.2 := by
  intro n
  induction n with
  | nil => cases ok <;> simp [insert_recursive_internal, create_new_avl_node, countNodes]
  | node k l r h ihl ihr =>
    by_cases h1 : key < k
    · rcases hres : insert_recursive_internal l key ok with ⟨l', flag, inc⟩
      rw [hres] at ihl
      dsimp only at ihl
      simp only [insert_recursive_internal, if_pos h1, hres, count_insRebalance, countNodes]
      omega
    · by_cases h2 : key > k
      · rcases hres : insert_recursive_internal r key ok with ⟨r', flag, inc⟩
        rw [hres] at ihr
        dsimp only at ihr
        simp only [insert_recursive_internal, if_neg h1, if_pos h2, hres,
          count_insRebalance, countNodes]
        omega
      · simp [insert_recursive_internal, if_neg h1, if_neg h2]

/-- The node count moves exactly by the size decrement the delete
reports through `size_ptr` (and the decrement never exceeds the node
count). -/
theorem del_count :
    ∀ (n : AVLNode) (key : Int),
      countNodes n =
        countNodes (delete_recursive_internal n key).1 +
          (delete_recursive_internal n key).2.2 := by
  intro n
  induction n with
  | nil => intro key; rfl
  | node k l r h ihl ihr =>
    intro key
    by_cases h1 : key < k
    · rcases hres : delete_recursive_internal l key with ⟨l', flag, dec⟩
      have IH := ihl key
      rw [hres] at IH
      dsimp only at IH
      simp only [delete_recursive_internal, if_pos h1, hres, count_delRebalance, countNodes]
      omega
    · by_cases h2 : key > k
      · rcases hres : delete_recursive_internal r key with ⟨r', flag, dec⟩
        have IH := ihr key
        rw [hres] at IH
        dsimp only at IH
        simp only [delete_recursive_internal, if_neg h1, if_pos h2, hres,
          count_delRebalance, countNodes]
        omega
      · cases l with
        | nil =>
          cases r with
          | nil =>
            have hstep : delete_recursive_internal (node k nil nil h) key = (nil, 0, 1) := by
              conv_lhs => rw [delete_recursive_internal.eq_def]
              simp [h1, h2]
            simp [hstep, countNodes]
          | node rk rl rr rh =>
            have hstep : delete_recursive_internal (node k nil (node rk rl rr rh) h) key =
                (delRebalance (node rk rl rr rh), 0, 1) := by
              conv_lhs => rw [delete_recursive_internal.eq_def]
              simp [h1, h2]
            simp only [hstep, count_delRebalance, countNodes]
            omega
        | node lk ll lr lh =>
          cases r with
          | nil =>
            have hstep : delete_recursive_internal (node k (node lk ll lr lh) nil h) key =
                (delRebalance (node lk ll lr lh), 0, 1) := by
              conv_lhs => rw [delete_recursive_internal.eq_def]
              simp [h1, h2]
            simp only [hstep, count_delRebalance, countNodes]
            try omega
          | node rk rl rr rh =>
            rcases hres : delete_recursive_internal (node rk rl rr rh)
                (keyOf (find_min_node_internal (node rk rl rr rh))) with ⟨r', flag2, dec⟩
            have IH := ihr (keyOf (find_min_node_internal (node rk rl rr rh)))
            rw [hres] at IH
            dsimp only at IH
            have hstep : delete_recursive_internal
                (node k (node lk ll lr lh) (node rk rl rr rh) h) key =
                (delRebalance (node (keyOf (find_min_node_internal (node rk rl rr rh)))
                  (node lk ll lr lh) r' h), 0, dec) := by
              conv_lhs => rw [delete_recursive_internal.eq_def]
              simp [h1, h2, hres]
            simp only [hstep, count_delRebalance, countNodes] at IH ⊢
            omega

/-- `insert_recursive_internal` reports `0`, `1` or `-1`. -/
theorem ins_flag (key : Int) (ok : Bool) :
    ∀ n : AVLNode,
      (insert_recursive_internal n key ok).2.1 = 0 ∨
      (insert_recursive_internal n key ok).2.1 = 1 ∨
      (insert_recursive_internal n key ok).2.1 = -1 := by
  intro n
  induction n with
  | nil => cases ok <;> simp [insert_recursive_internal]
  | node k l r h ihl ihr =>
    by_cases h1 : key < k
    · rcases hres : insert_recursive_internal l key ok with ⟨l', flag, inc⟩
      rw [hres] at ihl
      simpa [insert_recursive_internal, if_pos h1, hres] using ihl
    · by_cases h2 : key > k
      · rcases hres : insert_recursive_internal r key ok with ⟨r', flag, inc⟩
        rw [hres] at ihr
        simpa [insert_recursive_internal, if_neg h1, if_pos h2, hres] using ihr
      · simp [insert_recursive_internal, if_neg h1, if_neg h2]

/-- `delete_recursive_internal` reports `0` or `1`. -/
theorem del_flag :
    ∀ (n : AVLNode) (key : Int),
      (delete_recursive_internal n key).2.1 = 0 ∨
      (delete_recursive_internal n key).2.1 = 1 := by
  intro n
  induction n with
  | nil => intro key; simp [delete_recursive_internal]
  | node k l r h ihl ihr =>
    intro key
    by_cases h1 : key < k
    · rcases hres : delete_recursive_internal l key with ⟨l', flag, dec⟩
      have IH := ihl key
      rw [hres] at IH
      simpa [delete_recursive_internal, if_pos h1, hres] using IH
    · by_cases h2 : key > k
      · rcases hres : delete_recursive_internal r key with ⟨r', flag, dec⟩
        have IH := ihr key
        rw [hres] at IH
        simpa [delete_recursive_internal, if_neg h1, if_pos h2, hres] using IH
      · by_cases h3 : l = nil ∨ r = nil
        · by_cases h4 : (if l = nil then r else l) = nil
          · have hstep : delete_recursive_internal (node k l r h) key = (nil, 0, 1) := by
              conv_lhs => rw [delete_recursive_internal.eq_def]
              simp [h1, h2, h3, h4]
            simp [hstep]
          · have hstep : delete_recursive_internal (node k l r h) key =
                (delRebalance (if l = nil then r else l), 0, 1) := by
              conv_lhs => rw [delete_recursive_internal.eq_def]
              simp [h1, h2, h3, h4]
            simp [hstep]
        · rcases hres : delete_recursive_internal r
              (keyOf (find_min_node_internal r)) with ⟨r', flag2, dec⟩
          have hstep : delete_recursive_internal (node k l r h) key =
              (delRebalance (node (keyOf (find_min_node_internal r)) l r' h), 0, dec) := by
            conv_lhs => rw [delete_recursive_internal.eq_def]
            simp [h1, h2, h3, hres]
          simp [hstep]

/-- With the allocation failing, the recursive insert reports `-1` (or
`1` if the key was found first), creates nothing, and hands back the
tree unchanged. -/
theorem ins_fail (key : Int) :
    ∀ n : AVLNode, HeightsOk n → BalancedOk n →
      (insert_recursive_internal n key false).1 = n ∧
      (insert_recursive_internal n key false).2.2 = 0 ∧
      ((insert_recursive_internal n key false).2.1 = -1 ∨
        (insert_recursive_internal n key false).2.1 = 1) := by
  intro n
  induction n with
  | nil => intro _ _; simp [insert_recursive_internal]
  | node k l r h ihl ihr =>
    intro hH hB
    obtain ⟨hh, hHl, hHr⟩ := hH
    obtain ⟨hbal, hBl, hBr⟩ := hB
    by_cases h1 : key < k
    · rcases hres : insert_recursive_internal l key false with ⟨l', flag, inc⟩
      have IH := ihl hHl hBl
      rw [hres] at IH
      dsimp only at IH
      obtain ⟨IHe, IHi, IHf⟩ := IH
      subst IHe
      simp only [insert_recursive_internal, if_pos h1, hres]
      rw [insRebalance_noRot hHl hHr hbal, ← hh]
      exact ⟨rfl, IHi, IHf⟩
    · by_cases h2 : key > k
      · rcases hres : insert_recursive_internal r key false with ⟨r', flag, inc⟩
        have IH := ihr hHr hBr
        rw [hres] at IH
        dsimp only at IH
        obtain ⟨IHe, IHi, IHf⟩ := IH
        subst IHe
        simp only [insert_recursive_internal, if_neg h1, if_pos h2, hres]
        rw [insRebalance_noRot hHl hHr hbal, ← hh]
        exact ⟨rfl, IHi, IHf⟩
      · simp [insert_recursive_internal, if_neg h1, if_neg h2]

/-- The claim's stored-field checker follows from the two invariants
used in the preservation proofs. -/
theorem fieldsOk_of :
    ∀ n : AVLNode, HeightsOk n → BalancedOk n → AVLFieldsOk n := by
  intro n
  induction n with
  | nil => intro _ _; trivial
  | node k l r h ihl ihr =>
    intro hH hB
    obtain ⟨hh, hHl, hHr⟩ := hH
    obtain ⟨hbal, hBl, hBr⟩ := hB
    exact ⟨by rw [stored_eq_real hHl, stored_eq_real hHr]; exact hh,
      by rw [stored_eq_real hHl, stored_eq_real hHr]; exact hbal,
      ihl hHl hBl, ihr hHr hBr⟩

/-! ## Sequence-level invariant -/

/-- Handle invariant: correct stored heights, balance, and a size
counter equal to the reachable node count. -/
theorem applyOp_good (t : AVLTree) (op : Op) (hg : AVLGood t) :
    AVLGood (applyOp t op) := by
  obtain ⟨hH, hB, hs⟩ := hg
  cases op with
  | ins key ok =>
    cases ok with
    | true =>
      rcases hres : insert_recursive_internal t.root key true with ⟨root', flag, inc⟩
      have hmain := ins_main key t.root hH hB
      have hcnt := ins_count key true t.root
      rw [hres] at hmain hcnt
      dsimp only at hmain hcnt
      simp only [applyOp, insert_into_avl_tree, hres, Option.getD_some]
      refine ⟨hmain.1, hmain.2.1, ?_⟩
      show t.size + inc = countNodes root'
      omega
    | false =>
      rcases hres : insert_recursive_internal t.root key false with ⟨root', flag, inc⟩
      have hfail := ins_fail key t.root hH hB
      rw [hres] at hfail
      dsimp only at hfail
      obtain ⟨he, hi, _⟩ := hfail
      subst he
      simp only [applyOp, insert_into_avl_tree, hres, Option.getD_some]
      refine ⟨hH, hB, ?_⟩
      show t.size + inc = countNodes t.root
      omega
  | del key =>
    by_cases h0 : t.root = AVLNode.nil ∧ key ≠ 0
    · simp only [applyOp, delete_from_avl_tree, if_pos h0, Option.getD_some]
      exact ⟨hH, hB, hs⟩
    · rcases hres : delete_recursive_internal t.root key with ⟨root', flag, dec⟩
      have hmain := del_main t.root hH hB key
      have hcnt := del_count t.root key
      rw [hres] at hmain hcnt
      dsimp only at hmain hcnt
      simp only [applyOp, delete_from_avl_tree, if_neg h0, hres, Option.getD_some]
      refine ⟨hmain.1, hmain.2.1, ?_⟩
      show t.size - dec = countNodes root'
      omega

theorem foldl_good (ops : List Op) :
    ∀ t : AVLTree, AVLGood t → AVLGood (ops.foldl applyOp t) := by
  induction ops with
  | nil => intro t h; exact h
  | cons op ops ih => intro t h; exact ih _ (applyOp_good t op h)

theorem runOps_good (ops : List Op) : AVLGood (runOps ops) :=
  foldl_good ops create_avl_tree ⟨trivial, trivial, rfl⟩

theorem inorder_update (n : AVLNode) :
    inorder (update_node_height_internal n) = inorder n := by
  cases n <;> rfl

theorem inorder_rrot (n : AVLNode) :
    inorder (right_rotate_internal n) = inorder n := by
  cases n with
  | nil => rfl
  | node k l r h =>
    cases l with
    | nil => rfl
    | node lk ll lr lh =>
      simp [right_rotate_internal, update_node_height_internal, inorder]

theorem inorder_lrot (n : AVLNode) :
    inorder (left_rotate_internal n) = inorder n := by
  cases n with
  | nil => rfl
  | node k l r h =>
    cases r with
    | nil => rfl
    | node rk rl rr rh =>
      simp [left_rotate_internal, update_node_height_internal, inorder]

theorem inorder_insRebalance (n : AVLNode) (key : Int) :
    inorder (insRebalance n key) = inorder n := by
  cases n with
  | nil => rfl
  | node k l r h =>
    simp only [insRebalance, update_node_height_internal]
    split_ifs <;>
      simp [inorder_rrot, inorder_lrot, inorder]

theorem inorder_delRebalance (n : AVLNode) :
    inorder (delRebalance n) = inorder n := by
  cases n with
  | nil => rfl
  | node k l r h =>
    simp only [delRebalance, update_node_height_internal]
    split_ifs <;>
      simp [inorder_rrot, inorder_lrot, inorder]

theorem find_min_head :
    ∀ (n : AVLNode), n ≠ nil →
      ∃ tl, inorder n = keyOf (find_min_node_internal n) :: tl := by
  intro n
  induction n with
  | nil => intro h; exact absurd rfl h
  | node k l r h ihl ihr =>
    intro _
    cases l with
    | nil => exact ⟨inorder r, by simp [find_min_node_internal, inorder, keyOf]⟩
    | node lk ll lr lh =>
      obtain ⟨tl, htl⟩ := ihl (by simp)
      refine ⟨tl ++ k :: inorder r, ?_⟩
      have hunf : inorder (node k (node lk ll lr lh) r h) =
          inorder (node lk ll lr lh) ++ k :: inorder r := rfl
      rw [hunf, htl]
      simp [find_min_node_internal]



theorem ins_sorted_spec (key : Int) (ok : Bool) :
    ∀ (n : AVLNode), (inorder n).Pairwise (fun a b => a < b) →
      inorder (insert_recursive_internal n key ok).1 =
        (if key ∈ inorder n then inorder n
         else if ok then insortd key (inorder n) else inorder n) ∧
      (insert_recursive_internal n key ok).2.1 =
        (if key ∈ inorder n then 1 else if ok then 0 else -1) ∧
      (insert_recursive_internal n key ok).2.2 =
        (if key ∈ inorder n then 0 else if ok then 1 else 0) := by
  intro n
  induction n with
  | nil =>
    intro _
    cases ok <;>
      simp [insert_recursive_internal, inorder, create_new_avl_node, insortd]
  | node k l r h ihl ihr =>
    intro hp
    simp only [inorder] at hp
    obtain ⟨hpl, hpr, hAk, hkB⟩ := pairwise_node_parts hp
    rcases lt_trichotomy key k with h1 | h1 | h1
    · -- key < k: descend left
      rcases hres : insert_recursive_internal l key ok with ⟨l', flag, inc⟩
      have IH := ihl hpl
      rw [hres] at IH
      obtain ⟨IH1, IH2, IH3⟩ := IH
      dsimp only at IH1 IH2 IH3
      have hmem : (key ∈ inorder l ++ k :: inorder r) ↔ key ∈ inorder l :=
        mem_split_lt h1 hkB
      have hstep : insert_recursive_internal (node k l r h) key ok =
          (insRebalance (node k l' r h) key, flag, inc) := by
        simp [insert_recursive_internal, h1, hres]
      rw [hstep]
      refine ⟨?_, ?_, ?_⟩
      · show inorder (insRebalance (node k l' r h) key) = _
        rw [inorder_insRebalance]
        show inorder l' ++ k :: inorder r = _
        rw [IH1]
        simp only [hmem, inorder]
        rw [insortd_append_lt key k h1]
        split_ifs <;> rfl
      · show flag = _
        rw [IH2]
        simp only [inorder, hmem]
      · show inc = _
        rw [IH3]
        simp only [inorder, hmem]
    · -- key = k: duplicate
      have hstep : insert_recursive_internal (node k l r h) key ok =
          (node k l r h, 1, 0) := by
        simp [insert_recursive_internal, h1]
      have hm' : key ∈ inorder (node k l r h) := by
        simp [inorder, h1]
      rw [hstep]
      refine ⟨?_, ?_, ?_⟩ <;> simp only [if_pos hm'] <;> rfl
    · -- key > k: descend right
      rcases hres : insert_recursive_internal r key ok with ⟨r', flag, inc⟩
      have IH := ihr hpr
      rw [hres] at IH
      obtain ⟨IH1, IH2, IH3⟩ := IH
      dsimp only at IH1 IH2 IH3
      have hmem : (key ∈ inorder l ++ k :: inorder r) ↔ key ∈ inorder r :=
        mem_split_gt h1 hAk
      have hstep : insert_recursive_internal (node k l r h) key ok =
          (insRebalance (node k l r' h) key, flag, inc) := by
        simp [insert_recursive_internal, h1, hres, asymm h1]
      rw [hstep]
      refine ⟨?_, ?_, ?_⟩
      · show inorder (insRebalance (node k l r' h) key) = _
        rw [inorder_insRebalance]
        show inorder l ++ k :: inorder r' = _
        rw [IH1]
        simp only [hmem, inorder]
        rw [insortd_append_gt key k h1 _ _ (fun a ha => lt_trans (hAk a ha) h1)]
        split_ifs <;> rfl
      · show flag = _
        rw [IH2]
        simp only [inorder, hmem]
      · show inc = _
        rw [IH3]
        simp only [inorder, hmem]




theorem del_sorted_spec :
    ∀ (n : AVLNode) (key : Int), (inorder n).Pairwise (fun a b => a < b) →
      inorder (delete_recursive_internal n key).1 = (inorder n).erase key ∧
      (delete_recursive_internal n key).2.1 = (if key ∈ inorder n then 0 else 1) ∧
      (delete_recursive_internal n key).2.2 = (if key ∈ inorder n then 1 else 0) := by
  intro n
  induction n with
  | nil =>
    intro key _
    simp [delete_recursive_internal, inorder]
  | node k l r h ihl ihr =>
    intro key hp
    simp only [inorder] at hp
    obtain ⟨hpl, hpr, hAk, hkB⟩ := pairwise_node_parts hp
    rcases lt_trichotomy key k with h1 | h1 | h1
    · -- key < k: descend left
      rcases hres : delete_recursive_internal l key with ⟨l', flag, dec⟩
      have IH := ihl key hpl
      rw [hres] at IH
      obtain ⟨IH1, IH2, IH3⟩ := IH
      dsimp only at IH1 IH2 IH3
      have hmem : (key ∈ inorder l ++ k :: inorder r) ↔ key ∈ inorder l :=
        mem_split_lt h1 hkB
      have hstep : delete_recursive_internal (node k l r h) key =
          (delRebalance (node k l' r h), flag, dec) := by
        simp [delete_recursive_internal, h1, hres]
      rw [hstep]
      refine ⟨?_, ?_, ?_⟩
      · show inorder (delRebalance (node k l' r h)) = _
        rw [inorder_delRebalance]
        show inorder l' ++ k :: inorder r = _
        rw [IH1]
        simp only [inorder]
        by_cases hm : key ∈ inorder l
        · rw [List.erase_append_left _ hm]
        · rw [List.erase_of_not_mem hm,
            List.erase_of_not_mem (fun hc => hm (hmem.mp hc))]
      · show flag = _
        rw [IH2]
        simp only [inorder, hmem]
      · show dec = _
        rw [IH3]
        simp only [inorder, hmem]
    · -- key = k: the node itself
      subst h1
      have hnl : key ∉ inorder l := fun hc => absurd (hAk key hc) (lt_irrefl key)
      cases l with
      | nil =>
        cases r with
        | nil =>
          have hstep : delete_recursive_internal (node key nil nil h) key =
              (nil, 0, 1) := by
            conv_lhs => rw [delete_recursive_internal.eq_def]
            simp
          rw [hstep]
          refine ⟨?_, ?_, ?_⟩ <;>
            simp [inorder, List.erase_cons_head]
        | node rk rl rr rh =>
          have hstep : delete_recursive_internal (node key nil (node rk rl rr rh) h) key =
              (delRebalance (node rk rl rr rh), 0, 1) := by
            conv_lhs => rw [delete_recursive_internal.eq_def]
            simp
          rw [hstep]
          refine ⟨?_, ?_, ?_⟩
          · show inorder (delRebalance (node rk rl rr rh)) = _
            rw [inorder_delRebalance]
            simp [inorder, List.erase_cons_head]
          · simp [inorder]
          · simp [inorder]
      | node lk ll lr lh =>
        cases r with
        | nil =>
          have hstep : delete_recursive_internal (node key (node lk ll lr lh) nil h) key =
              (delRebalance (node lk ll lr lh), 0, 1) := by
            conv_lhs => rw [delete_recursive_internal.eq_def]
            simp
          rw [hstep]
          refine ⟨?_, ?_, ?_⟩
          · show inorder (delRebalance (node lk ll lr lh)) = _
            rw [inorder_delRebalance,
              show inorder (node key (node lk ll lr lh) nil h) =
                inorder (node lk ll lr lh) ++ [key] from rfl,
              List.erase_append_right _ hnl]
            simp
          · simp [inorder]
          · simp [inorder]
        | node rk rl rr rh =>
          obtain ⟨tl, htl⟩ := find_min_head (node rk rl rr rh) (by simp)
          rcases hres : delete_recursive_internal (node rk rl rr rh)
              (keyOf (find_min_node_internal (node rk rl rr rh))) with ⟨r', flag2, dec⟩
          have IH := ihr (keyOf (find_min_node_internal (node rk rl rr rh))) hpr
          rw [hres] at IH
          obtain ⟨IH1, IH2, IH3⟩ := IH
          dsimp only at IH1 IH2 IH3
          have hmmem : keyOf (find_min_node_internal (node rk rl rr rh)) ∈
              inorder (node rk rl rr rh) := by
            rw [htl]; exact List.mem_cons_self _ _
          have hstep : delete_recursive_internal
              (node key (node lk ll lr lh) (node rk rl rr rh) h) key =
              (delRebalance (node (keyOf (find_min_node_internal (node rk rl rr rh)))
                (node lk ll lr lh) r' h), 0, dec) := by
            conv_lhs => rw [delete_recursive_internal.eq_def]
            simp [hres]
          rw [hstep]
          refine ⟨?_, ?_, ?_⟩
          · show inorder (delRebalance
                (node (keyOf (find_min_node_internal (node rk rl rr rh)))
                  (node lk ll lr lh) r' h)) = _
            rw [inorder_delRebalance]
            show inorder (node lk ll lr lh) ++
              keyOf (find_min_node_internal (node rk rl rr rh)) :: inorder r' = _
            rw [IH1, htl, List.erase_cons_head,
              show inorder (node key (node lk ll lr lh) (node rk rl rr rh) h) =
                inorder (node lk ll lr lh) ++ key :: inorder (node rk rl rr rh) from rfl,
              List.erase_append_right _ hnl, List.erase_cons_head, htl]
          · simp [inorder]
          · rw [IH3, if_pos hmmem]
            simp [inorder]
    · -- key > k: descend right
      rcases hres : delete_recursive_internal r key with ⟨r', flag, dec⟩
      have IH := ihr key hpr
      rw [hres] at IH
      obtain ⟨IH1, IH2, IH3⟩ := IH
      dsimp only at IH1 IH2 IH3
      have hmem : (key ∈ inorder l ++ k :: inorder r) ↔ key ∈ inorder r :=
        mem_split_gt h1 hAk
      have hnl : key ∉ inorder l := fun hc => absurd (lt_trans (hAk key hc) h1) (lt_irrefl key)
      have hstep : delete_recursive_internal (node k l r h) key =
          (delRebalance (node k l r' h), flag, dec) := by
        simp [delete_recursive_internal, h1, hres, asymm h1]
      rw [hstep]
      refine ⟨?_, ?_, ?_⟩
      · show inorder (delRebalance (node k l r' h)) = _
        rw [inorder_delRebalance]
        show inorder l ++ k :: inorder r' = _
        rw [IH1,
          show inorder (node k l r h) = inorder l ++ k :: inorder r from rfl,
          List.erase_append_right _ hnl]
        simp [List.erase_cons, (show ¬ k = key from fun hc => absurd hc (ne_of_lt h1))]
      · show flag = _
        rw [IH2]
        simp only [inorder, hmem]
      · show dec = _
        rw [IH3]
        simp only [inorder, hmem]




theorem applyOp_sorted {t : AVLTree}
    (hs : (inorder t.root).Pairwise (fun a b => a < b)) :
    ∀ (op : Op), (inorder (applyOp t op).root).Pairwise (fun a b => a < b) := by
  intro op
  cases op with
  | ins k ok =>
    rcases hres : insert_recursive_internal t.root k ok with ⟨r', flag, inc⟩
    have hspec := (ins_sorted_spec k ok t.root hs).1
    rw [hres] at hspec
    dsimp only at hspec
    have hroot : (applyOp t (.ins k ok)).root = r' := by
      simp [applyOp, insert_into_avl_tree, hres]
    rw [hroot, hspec]
    by_cases hm : k ∈ inorder t.root
    · rw [if_pos hm]; exact hs
    · rw [if_neg hm]
      cases ok
      · simpa using hs
      · simpa using insortd_pairwise k _ hs hm
  | del k =>
    by_cases hc : t.root = AVLNode.nil ∧ k ≠ 0
    · have heq : applyOp t (.del k) = t := by
        simp [applyOp, delete_from_avl_tree, hc]
      rw [heq]; exact hs
    · rcases hres : delete_recursive_internal t.root k with ⟨r', flag, dec⟩
      have hspec := (del_sorted_spec t.root k hs).1
      rw [hres] at hspec
      dsimp only at hspec
      have hroot : (applyOp t (.del k)).root = r' := by
        simp [applyOp, delete_from_avl_tree, if_neg hc, hres]
      rw [hroot, hspec]
      exact hs.sublist (List.erase_sublist _ _)

theorem foldl_sorted :
    ∀ (ops : List Op) (t : AVLTree), (inorder t.root).Pairwise (fun a b => a < b) →
      (inorder (ops.foldl applyOp t).root).Pairwise (fun a b => a < b) := by
  intro ops
  induction ops with
  | nil => intro t hs; exact hs
  | cons op rest ih =>
    intro t hs
    rw [List.foldl_cons]
    exact ih _ (applyOp_sorted hs op)

theorem runOps_sorted (ops : List Op) :
    (inorder (runOps ops).root).Pairwise (fun a b => a < b) :=
  foldl_sorted ops create_avl_tree (by simp [create_avl_tree, inorder])

end AVL




/-! # B-tree theorems -/

namespace BT

theorem strictIncB_iff_chain (l : List Int) :
    strictIncB l = true ↔ List.Chain' (fun a b : Int => a < b) l := by
  induction l with
  | nil => simp [strictIncB]
  | cons a rest ih =>
    cases rest with
    | nil => simp [strictIncB]
    | cons b rest =>
      rw [List.chain'_cons]
      constructor
      · intro h
        have := (Bool.and_eq_true _ _).mp h
        exact ⟨by exact_mod_cast (decide_eq_true_eq).mp this.1, ih.mp this.2⟩
      · rintro ⟨h1, h2⟩
        exact (Bool.and_eq_true _ _).mpr ⟨decide_eq_true h1, ih.mpr h2⟩

end BT
/-! # Red-Black theorems -/

namespace RB

open Color RBT

theorem balanced_colorOf {t : RBT} {c : Color} {n : Nat} (h : Balanced t c n) :
    colorOf t = c := by
  cases h <;> rfl

theorem setColor_black {t : RBT} {n : Nat} (h : Balanced t RED n) :
    Balanced (setColor t BLACK) BLACK (n + 1) := by
  cases h with
  | red hl hr => exact .black hl hr

theorem setColor_id {t : RBT} (h : colorOf t = BLACK) : setColor t BLACK = t := by
  cases t with
  | nilS => rfl
  | node d c l r => cases c; · simp [colorOf] at h
                    · rfl

theorem setColor_count (t : RBT) (c : Color) : countRB (setColor t c) = countRB t := by
  cases t <;> rfl

theorem blackenRoot_balanced {t : RBT} {c : Color} {n : Nat} (h : Balanced t c n) :
    ∃ m, Balanced (blackenRoot t) BLACK m := by
  cases h with
  | nil => exact ⟨0, .nil⟩
  | red hl hr => exact ⟨_ + 1, .black hl hr⟩
  | black hl hr => exact ⟨_ + 1, .black hl hr⟩

theorem blackenRoot_count (t : RBT) : countRB (blackenRoot t) = countRB t := by
  cases t <;> rfl

theorem plug_append (a b : Ctx) (t : RBT) : plug (a ++ b) t = plug b (plug a t) := by
  induction a generalizing t with
  | nil => rfl
  | cons s rest ih => cases s <;> simp [plug, ih]

theorem plug_count (ctx : Ctx) (t : RBT) :
    countRB (plug ctx t) = ctxCount ctx + countRB t := by
  induction ctx generalizing t with
  | nil => simp [plug, ctxCount]
  | cons s rest ih => cases s <;> simp [plug, ctxCount, ih, countRB] <;> omega

theorem ctxCount_append (a b : Ctx) : ctxCount (a ++ b) = ctxCount a + ctxCount b := by
  induction a with
  | nil => simp [ctxCount]
  | cons s rest ih => cases s <;> simp [ctxCount, ih] <;> omega

theorem topBlack_tail {s : Step} {r : Ctx} (h : topBlack (s :: r)) : topBlack r := by
  cases r with
  | nil => trivial
  | cons s' r' => exact h

theorem topBlack_cons_of {s : Step} {r : Ctx} (hs : stepColor s = BLACK)
    (h : topBlack r) : topBlack (s :: r) := by
  cases r with
  | nil => exact hs
  | cons s' r' => exact h

theorem topBlack_cons {s : Step} {r : Ctx} (hr : r ≠ []) (h : topBlack r) :
    topBlack (s :: r) := by
  cases r with
  | nil => exact absurd rfl hr
  | cons s' r' => exact h

theorem plug_colorOf_black {ctx : Ctx} (h : topBlack ctx) (hne : ctx ≠ []) (t : RBT) :
    colorOf (plug ctx t) = BLACK := by
  induction ctx generalizing t with
  | nil => exact absurd rfl hne
  | cons s rest ih =>
    cases rest with
    | nil =>
      cases s with
      | lstep pd pc sib => simpa [plug, colorOf, stepColor, topBlack] using h
      | rstep pd pc sib => simpa [plug, colorOf, stepColor, topBlack] using h
    | cons s' r' =>
      have h' : topBlack (s' :: r') := h
      cases s <;> exact ih h' (by simp) _

theorem acc_plug {ctx : Ctx} {b : Bool} {n : Nat} (h : CtxAcc ctx b n) :
    ∀ {t : RBT} {c : Color}, Balanced t c n → (b = true ∨ c = BLACK) →
      ∃ m co, Balanced (plug ctx t) co m := by
  induction h with
  | nil => exact fun ht _ => ⟨_, _, ht⟩
  | lstepB hs _ ih =>
    intro t c ht _
    exact ih (.black ht hs) (Or.inr rfl)
  | rstepB hs _ ih =>
    intro t c ht _
    exact ih (.black hs ht) (Or.inr rfl)
  | lstepR hs _ _ ih =>
    intro t c ht hc
    rcases hc with hc | hc
    · exact absurd hc (by simp)
    · subst hc; exact ih (.red ht hs) (Or.inl rfl)
  | rstepR hs _ _ ih =>
    intro t c ht hc
    rcases hc with hc | hc
    · exact absurd hc (by simp)
    · subst hc; exact ih (.red hs ht) (Or.inl rfl)

theorem acc_plug_black {ctx : Ctx} {b : Bool} {n : Nat} {t : RBT} {c : Color}
    (h : CtxAcc ctx b n) (ht : Balanced t c n) (hc : b = true ∨ c = BLACK)
    (htop : topBlack ctx) (hroot : ctx = [] → c = BLACK) :
    ∃ m, Balanced (plug ctx t) BLACK m := by
  obtain ⟨m, co, hb⟩ := acc_plug h ht hc
  rcases hctx : ctx with _ | ⟨s, rest⟩
  · subst hctx
    have : c = BLACK := hroot rfl
    subst this
    exact ⟨n, by simpa [plug] using ht⟩
  · subst hctx
    have hcol : colorOf (plug (s :: rest) t) = BLACK :=
      plug_colorOf_black htop (by simp) t
    have hco : colorOf (plug (s :: rest) t) = co := balanced_colorOf hb
    rw [hcol] at hco
    exact ⟨m, hco ▸ hb⟩

theorem balanced_noRedRed {t : RBT} {c : Color} {n : Nat} (h : Balanced t c n) :
    noRedRed t := by
  induction h with
  | nil => trivial
  | red hl hr ihl ihr =>
    exact ⟨fun _ => ⟨balanced_colorOf hl, balanced_colorOf hr⟩, ihl, ihr⟩
  | black hl hr ihl ihr =>
    exact ⟨fun h => absurd h (by simp), ihl, ihr⟩

theorem balanced_pathBlacks {t : RBT} {c : Color} {n : Nat} (h : Balanced t c n) :
    ∀ m ∈ pathBlacks t, m = n := by
  induction h with
  | nil => intro m hm; simpa [pathBlacks] using hm
  | red hl hr ihl ihr =>
    intro m hm
    simp only [pathBlacks, List.mem_map, List.mem_append] at hm
    obtain ⟨a, ha | ha, rfl⟩ := hm
    · rw [ihl a ha]; simp
    · rw [ihr a ha]; simp
  | black hl hr ihl ihr =>
    intro m hm
    simp only [pathBlacks, List.mem_map, List.mem_append] at hm
    obtain ⟨a, ha | ha, rfl⟩ := hm
    · rw [ihl a ha]; simp
    · rw [ihr a ha]; simp

theorem balanced_RBInv {t : RBT} {n : Nat} (h : Balanced t BLACK n) : RBInv t :=
  ⟨balanced_colorOf h, rfl, balanced_noRedRed h, n, balanced_pathBlacks h⟩

theorem bstDescend_acc {t : RBT} {c : Color} {n : Nat} (ht : Balanced t c n) :
    ∀ {data : Int} {ctx0 : Ctx} {b0 : Bool},
    CtxAcc ctx0 b0 n → (b0 = true ∨ c = BLACK) → (c = RED → ctx0 ≠ []) →
    topBlack ctx0 →
    ∀ {ctx : Ctx}, bstDescend t data ctx0 = some ctx →
    (∃ b, CtxAcc ctx b 0) ∧ topBlack ctx := by
  induction ht with
  | nil =>
    intro data ctx0 b0 hacc _ _ htop ctx hres
    simp [bstDescend] at hres
    subst hres
    exact ⟨⟨b0, hacc⟩, htop⟩
  | red hl hr ihl ihr =>
    rename_i d l r n
    intro data ctx0 b0 hacc hcompat hne htop ctx hres
    have hb0 : b0 = true := by
      rcases hcompat with h | h
      · exact h
      · exact absurd h (by simp)
    subst hb0
    by_cases h1 : data < d
    · simp only [bstDescend, if_pos h1] at hres
      exact ihl (CtxAcc.lstepR hr hacc (hne rfl)) (Or.inr rfl)
        (fun h => absurd h (by simp)) (topBlack_cons (hne rfl) htop) hres
    · by_cases h2 : data > d
      · simp only [bstDescend, if_neg h1, if_pos h2] at hres
        exact ihr (CtxAcc.rstepR hl hacc (hne rfl)) (Or.inr rfl)
          (fun h => absurd h (by simp)) (topBlack_cons (hne rfl) htop) hres
      · simp only [bstDescend, if_neg h1, if_neg h2] at hres
        exact absurd hres (by simp)
  | black hl hr ihl ihr =>
    rename_i d l r c1 c2 n
    intro data ctx0 b0 hacc hcompat hne htop ctx hres
    by_cases h1 : data < d
    · simp only [bstDescend, if_pos h1] at hres
      exact ihl (CtxAcc.lstepB hr hacc) (Or.inl rfl)
        (fun _ => by simp) (topBlack_cons_of rfl htop) hres
    · by_cases h2 : data > d
      · simp only [bstDescend, if_neg h1, if_pos h2] at hres
        exact ihr (CtxAcc.rstepB hl hacc) (Or.inl rfl)
          (fun _ => by simp) (topBlack_cons_of rfl htop) hres
      · simp only [bstDescend, if_neg h1, if_neg h2] at hres
        exact absurd hres (by simp)

theorem insFixLoop_ok_aux : ∀ (N : Nat) (ctx : Ctx), ctx.length ≤ N →
    ∀ {b : Bool} {n : Nat} {z : RBT}, Balanced z RED n → CtxAcc ctx b n →
    ∃ m co, Balanced (insFixLoop ctx z) co m := by
  intro N
  induction N with
  | zero =>
    intro ctx hlen b n z hz hacc
    cases ctx with
    | nil => exact ⟨n, RED, by simpa [insFixLoop] using hz⟩
    | cons s rest => simp at hlen
  | succ N ih =>
    intro ctx hlen b n z hz hacc
    cases hacc with
    | nil => exact ⟨n, RED, by simpa [insFixLoop] using hz⟩
    | lstepB hs hrest =>
      rename_i pd sib up b' c
      have he : insFixLoop (Step.lstep pd BLACK sib :: up) z =
          plug (Step.lstep pd BLACK sib :: up) z := by
        rw [insFixLoop.eq_def]; rfl
      rw [he]
      exact acc_plug (CtxAcc.lstepB hs hrest) hz (Or.inl rfl)
    | rstepB hs hrest =>
      rename_i pd sib up b' c
      have he : insFixLoop (Step.rstep pd BLACK sib :: up) z =
          plug (Step.rstep pd BLACK sib :: up) z := by
        rw [insFixLoop.eq_def]; rfl
      rw [he]
      exact acc_plug (CtxAcc.rstepB hs hrest) hz (Or.inl rfl)
    | lstepR hs hup hne =>
      rename_i pd sib up
      cases up with
      | nil => exact absurd rfl hne
      | cons gstep gup =>
        have hlen' : gup.length ≤ N := by simp at hlen; omega
        cases hup with
        | lstepB hu hgup =>
          rename_i gd uncle b' cu
          have hcu := balanced_colorOf hu
          cases cu with
          | RED =>
            have he : insFixLoop (Step.lstep pd RED sib :: Step.lstep gd BLACK uncle :: gup) z =
                insFixLoop gup
                  (node gd RED (node pd BLACK z sib) (setColor uncle BLACK)) := by
              rw [insFixLoop.eq_def] ; simp [hcu]
            rw [he]
            exact ih gup hlen' (.red (.black hz hs) (setColor_black hu)) hgup
          | BLACK =>
            have he : insFixLoop (Step.lstep pd RED sib :: Step.lstep gd BLACK uncle :: gup) z =
                plug gup (node pd BLACK z (node gd RED sib uncle)) := by
              rw [insFixLoop.eq_def] ; simp [hcu]
            rw [he]
            exact acc_plug hgup (.black hz (.red hs hu)) (Or.inr rfl)
        | rstepB hu hgup =>
          rename_i gd uncle b' cu
          have hcu := balanced_colorOf hu
          cases hz with
          | red hzl hzr =>
            rename_i zd zl zr
            cases cu with
            | RED =>
              have he : insFixLoop (Step.lstep pd RED sib :: Step.rstep gd BLACK uncle :: gup)
                  (node zd RED zl zr) =
                  insFixLoop gup (node gd RED (setColor uncle BLACK)
                    (node pd BLACK (node zd RED zl zr) sib)) := by
                rw [insFixLoop.eq_def] ; simp [hcu]
              rw [he]
              exact ih gup hlen'
                (.red (setColor_black hu) (.black (.red hzl hzr) hs)) hgup
            | BLACK =>
              have he : insFixLoop (Step.lstep pd RED sib :: Step.rstep gd BLACK uncle :: gup)
                  (node zd RED zl zr) =
                  plug gup (node zd BLACK (node gd RED uncle zl)
                    (node pd RED zr sib)) := by
                rw [insFixLoop.eq_def] ; simp [hcu]
              rw [he]
              exact acc_plug hgup (.black (.red hu hzl) (.red hzr hs)) (Or.inr rfl)
    | rstepR hs hup hne =>
      rename_i pd sib up
      cases up with
      | nil => exact absurd rfl hne
      | cons gstep gup =>
        have hlen' : gup.length ≤ N := by simp at hlen; omega
        cases hup with
        | rstepB hu hgup =>
          rename_i gd uncle b' cu
          have hcu := balanced_colorOf hu
          cases cu with
          | RED =>
            have he : insFixLoop (Step.rstep pd RED sib :: Step.rstep gd BLACK uncle :: gup) z =
                insFixLoop gup
                  (node gd RED (setColor uncle BLACK) (node pd BLACK sib z)) := by
              rw [insFixLoop.eq_def] ; simp [hcu]
            rw [he]
            exact ih gup hlen' (.red (setColor_black hu) (.black hs hz)) hgup
          | BLACK =>
            have he : insFixLoop (Step.rstep pd RED sib :: Step.rstep gd BLACK uncle :: gup) z =
                plug gup (node pd BLACK (node gd RED uncle sib) z) := by
              rw [insFixLoop.eq_def] ; simp [hcu]
            rw [he]
            exact acc_plug hgup (.black (.red hu hs) hz) (Or.inr rfl)
        | lstepB hu hgup =>
          rename_i gd uncle b' cu
          have hcu := balanced_colorOf hu
          cases hz with
          | red hzl hzr =>
            rename_i zd zl zr
            cases cu with
            | RED =>
              have he : insFixLoop (Step.rstep pd RED sib :: Step.lstep gd BLACK uncle :: gup)
                  (node zd RED zl zr) =
                  insFixLoop gup (node gd RED
                    (node pd BLACK sib (node zd RED zl zr)) (setColor uncle BLACK)) := by
                rw [insFixLoop.eq_def] ; simp [hcu]
              rw [he]
              exact ih gup hlen'
                (.red (.black hs (.red hzl hzr)) (setColor_black hu)) hgup
            | BLACK =>
              have he : insFixLoop (Step.rstep pd RED sib :: Step.lstep gd BLACK uncle :: gup)
                  (node zd RED zl zr) =
                  plug gup (node zd BLACK (node pd RED sib zl)
                    (node gd RED zr uncle)) := by
                rw [insFixLoop.eq_def] ; simp [hcu]
              rw [he]
              exact acc_plug hgup (.black (.red hs hzl) (.red hzr hu)) (Or.inr rfl)

theorem insFixLoop_ok {ctx : Ctx} {b : Bool} {n : Nat} {z : RBT}
    (hz : Balanced z RED n) (hacc : CtxAcc ctx b n) :
    ∃ m co, Balanced (insFixLoop ctx z) co m :=
  insFixLoop_ok_aux ctx.length ctx le_rfl hz hacc

theorem delFixLoop_nil {x : RBT} {n : Nat} (hx : Balanced x BLACK n ∨ RedOK x n) :
    ∃ m, Balanced (delFixLoop [] x) BLACK m := by
  have he : delFixLoop [] x = setColor x BLACK := by rw [delFixLoop.eq_def]
  rw [he]
  rcases hx with hx | ⟨d, l, r, c1, c2, rfl, hl, hr⟩
  · rw [setColor_id (balanced_colorOf hx)]
    exact ⟨n, hx⟩
  · exact ⟨n + 1, .black hl hr⟩

theorem delFixLoop_red_exit {x : RBT} (hx : colorOf x = RED) (s : Step) (rest : Ctx) :
    delFixLoop (s :: rest) x = plug (s :: rest) (setColor x BLACK) := by
  rw [delFixLoop.eq_def]
  cases s <;> simp [hx]

theorem delFixLoop_ok_aux : ∀ (N : Nat) (ctx : Ctx), ctx.length ≤ N →
    ∀ {b : Bool} {n : Nat} {x : RBT},
    (Balanced x BLACK n ∨ RedOK x n) → CtxAcc ctx b (n + 1) → topBlack ctx →
    ∃ m, Balanced (delFixLoop ctx x) BLACK m := by
  intro N
  induction N with
  | zero =>
    intro ctx hlen b n x hx hacc htop
    cases ctx with
    | nil => exact delFixLoop_nil hx
    | cons s rest => simp at hlen
  | succ N ih =>
    intro ctx hlen b n x hx hacc htop
    rcases hx with hxB | hxR
    case inr =>
      obtain ⟨d, l, r, c1, c2, rfl, hl, hr⟩ := hxR
      cases ctx with
      | nil => exact delFixLoop_nil (Or.inr ⟨d, l, r, c1, c2, rfl, hl, hr⟩)
      | cons s rest =>
        rw [@delFixLoop_red_exit (node d RED l r) rfl s rest]
        exact acc_plug_black hacc (.black hl hr) (Or.inr rfl) htop (fun _ => rfl)
    case inl =>
      have hcx : colorOf x = BLACK := balanced_colorOf hxB
      cases hacc with
      | nil => exact delFixLoop_nil (Or.inl hxB)
      | lstepB hw hrest =>
        rename_i pd w rest b' cw
        have hlen' : rest.length ≤ N := by simp at hlen; omega
        have htop' : topBlack rest := topBlack_tail htop
        cases cw with
        | RED =>
          cases hw with
          | red hwl hwr =>
            rename_i wd wl wr
            cases hwl with
            | black hwll hwlr =>
              rename_i wld wll wlr cl1 cl2
              have hc1 := balanced_colorOf hwll
              have hc2 := balanced_colorOf hwlr
              cases cl2 with
              | RED =>
                rw [delFixLoop.eq_def]
                simp only [hcx]
                simp [hc1, hc2]
                obtain ⟨m, co, hb⟩ := acc_plug (CtxAcc.lstepB hwr hrest)
                  (Balanced.red (.black hxB hwll) (setColor_black hwlr)) (Or.inl rfl)
                exact blackenRoot_balanced hb
              | BLACK =>
                cases cl1 with
                | BLACK =>
                  rw [delFixLoop.eq_def]
                  simp [hcx, hc1, hc2]
                  rw [@delFixLoop_red_exit
                    (node pd RED x (node wld RED wll wlr)) rfl _ rest]
                  exact acc_plug_black (CtxAcc.lstepB hwr hrest)
                    (Balanced.black hxB (.red hwll hwlr)) (Or.inr rfl)
                    (topBlack_cons_of rfl htop') (fun h => absurd h (by simp))
                | RED =>
                  cases hwll with
                  | red hwlll hwllr =>
                    rename_i wlld wlll wllr
                    rw [delFixLoop.eq_def]
                    simp [hcx, hc2]
                    obtain ⟨m, co, hb⟩ := acc_plug (CtxAcc.lstepB hwr hrest)
                      (Balanced.red (.black hxB hwlll) (.black hwllr hwlr)) (Or.inl rfl)
                    exact blackenRoot_balanced hb
        | BLACK =>
          cases hw with
          | black hwl hwr =>
            rename_i wd wl wr cw1 cw2
            have hc1 := balanced_colorOf hwl
            have hc2 := balanced_colorOf hwr
            cases cw2 with
            | RED =>
              rw [delFixLoop.eq_def]
              simp [hcx, hc1, hc2]
              obtain ⟨m, co, hb⟩ := acc_plug hrest
                (Balanced.black (.black hxB hwl) (setColor_black hwr)) (Or.inr rfl)
              exact blackenRoot_balanced hb
            | BLACK =>
              cases cw1 with
              | BLACK =>
                rw [delFixLoop.eq_def]
                simp [hcx, hc1, hc2]
                exact ih rest hlen'
                  (Or.inl (Balanced.black hxB (.red hwl hwr))) hrest htop'
              | RED =>
                cases hwl with
                | red hwll hwlr =>
                  rename_i wld wll wlr
                  rw [delFixLoop.eq_def]
                  simp [hcx, hc2]
                  obtain ⟨m, co, hb⟩ := acc_plug hrest
                    (Balanced.black (.black hxB hwll) (.black hwlr hwr)) (Or.inr rfl)
                  exact blackenRoot_balanced hb
      | lstepR hw hrest hne =>
        rename_i pd w rest
        have hlen' : rest.length ≤ N := by simp at hlen; omega
        have htop' : topBlack rest := topBlack_tail htop
        cases hw with
        | black hwl hwr =>
          rename_i wd wl wr cw1 cw2
          have hc1 := balanced_colorOf hwl
          have hc2 := balanced_colorOf hwr
          cases cw2 with
          | RED =>
            rw [delFixLoop.eq_def]
            simp [hcx, hc1, hc2]
            obtain ⟨m, co, hb⟩ := acc_plug hrest
              (Balanced.red (.black hxB hwl) (setColor_black hwr)) (Or.inl rfl)
            exact blackenRoot_balanced hb
          | BLACK =>
            cases cw1 with
            | BLACK =>
              rw [delFixLoop.eq_def]
              simp [hcx, hc1, hc2]
              exact ih rest hlen'
                (Or.inr ⟨pd, x, node wd RED wl wr, BLACK, RED, rfl, hxB, .red hwl hwr⟩)
                hrest htop'
            | RED =>
              cases hwl with
              | red hwll hwlr =>
                rename_i wld wll wlr
                rw [delFixLoop.eq_def]
                simp [hcx, hc2]
                obtain ⟨m, co, hb⟩ := acc_plug hrest
                  (Balanced.red (.black hxB hwll) (.black hwlr hwr)) (Or.inl rfl)
                exact blackenRoot_balanced hb
      | rstepB hw hrest =>
        rename_i pd w rest b' cw
        have hlen' : rest.length ≤ N := by simp at hlen; omega
        have htop' : topBlack rest := topBlack_tail htop
        cases cw with
        | RED =>
          cases hw with
          | red hwl hwr =>
            rename_i wd wl wr
            cases hwr with
            | black hwrl hwrr =>
              rename_i wrd wrl wrr cr1 cr2
              have hc1 := balanced_colorOf hwrl
              have hc2 := balanced_colorOf hwrr
              cases cr1 with
              | RED =>
                rw [delFixLoop.eq_def]
                simp [hcx, hc1, hc2]
                obtain ⟨m, co, hb⟩ := acc_plug (CtxAcc.rstepB hwl hrest)
                  (Balanced.red (setColor_black hwrl) (.black hwrr hxB)) (Or.inl rfl)
                exact blackenRoot_balanced hb
              | BLACK =>
                cases cr2 with
                | BLACK =>
                  rw [delFixLoop.eq_def]
                  simp [hcx, hc1, hc2]
                  rw [@delFixLoop_red_exit
                    (node pd RED (node wrd RED wrl wrr) x) rfl _ rest]
                  exact acc_plug_black (CtxAcc.rstepB hwl hrest)
                    (Balanced.black (.red hwrl hwrr) hxB) (Or.inr rfl)
                    (topBlack_cons_of rfl htop') (fun h => absurd h (by simp))
                | RED =>
                  cases hwrr with
                  | red hwrrl hwrrr =>
                    rename_i wrrd wrrl wrrr
                    rw [delFixLoop.eq_def]
                    simp [hcx, hc1]
                    obtain ⟨m, co, hb⟩ := acc_plug (CtxAcc.rstepB hwl hrest)
                      (Balanced.red (.black hwrl hwrrl) (.black hwrrr hxB)) (Or.inl rfl)
                    exact blackenRoot_balanced hb
        | BLACK =>
          cases hw with
          | black hwl hwr =>
            rename_i wd wl wr cw1 cw2
            have hc1 := balanced_colorOf hwl
            have hc2 := balanced_colorOf hwr
            cases cw1 with
            | RED =>
              rw [delFixLoop.eq_def]
              simp [hcx, hc1, hc2]
              obtain ⟨m, co, hb⟩ := acc_plug hrest
                (Balanced.black (setColor_black hwl) (.black hwr hxB)) (Or.inr rfl)
              exact blackenRoot_balanced hb
            | BLACK =>
              cases cw2 with
              | BLACK =>
                rw [delFixLoop.eq_def]
                simp [hcx, hc1, hc2]
                exact ih rest hlen'
                  (Or.inl (Balanced.black (.red hwl hwr) hxB)) hrest htop'
              | RED =>
                cases hwr with
                | red hwrl hwrr =>
                  rename_i wrd wrl wrr
                  rw [delFixLoop.eq_def]
                  simp [hcx, hc1]
                  obtain ⟨m, co, hb⟩ := acc_plug hrest
                    (Balanced.black (.black hwl hwrl) (.black hwrr hxB)) (Or.inr rfl)
                  exact blackenRoot_balanced hb
      | rstepR hw hrest hne =>
        rename_i pd w rest
        have hlen' : rest.length ≤ N := by simp at hlen; omega
        have htop' : topBlack rest := topBlack_tail htop
        cases hw with
        | black hwl hwr =>
          rename_i wd wl wr cw1 cw2
          have hc1 := balanced_colorOf hwl
          have hc2 := balanced_colorOf hwr
          cases cw1 with
          | RED =>
            rw [delFixLoop.eq_def]
            simp [hcx, hc1, hc2]
            obtain ⟨m, co, hb⟩ := acc_plug hrest
              (Balanced.red (setColor_black hwl) (.black hwr hxB)) (Or.inl rfl)
            exact blackenRoot_balanced hb
          | BLACK =>
            cases cw2 with
            | BLACK =>
              rw [delFixLoop.eq_def]
              simp [hcx, hc1, hc2]
              exact ih rest hlen'
                (Or.inr ⟨pd, node wd RED wl wr, x, RED, BLACK, rfl, .red hwl hwr, hxB⟩)
                hrest htop'
            | RED =>
              cases hwr with
              | red hwrl hwrr =>
                rename_i wrd wrl wrr
                rw [delFixLoop.eq_def]
                simp [hcx, hc1]
                obtain ⟨m, co, hb⟩ := acc_plug hrest
                  (Balanced.red (.black hwl hwrl) (.black hwrr hxB)) (Or.inl rfl)
                exact blackenRoot_balanced hb

theorem delFixLoop_ok {ctx : Ctx} {b : Bool} {n : Nat} {x : RBT}
    (hx : Balanced x BLACK n ∨ RedOK x n) (hacc : CtxAcc ctx b (n + 1))
    (htop : topBlack ctx) : ∃ m, Balanced (delFixLoop ctx x) BLACK m :=
  delFixLoop_ok_aux ctx.length ctx le_rfl hx hacc htop

theorem search_zipper_acc {t : RBT} {c : Color} {n : Nat} (ht : Balanced t c n) :
    ∀ {data : Int} {ctx0 : Ctx} {b0 : Bool},
    CtxAcc ctx0 b0 n → (b0 = true ∨ c = BLACK) → (c = RED → ctx0 ≠ []) →
    topBlack ctx0 →
    ∀ {ctx : Ctx} {z : RBT}, search_zipper t data ctx0 = some (ctx, z) →
    ∃ cz nz b, Balanced z cz nz ∧ CtxAcc ctx b nz ∧ (b = true ∨ cz = BLACK) ∧
      (cz = RED → ctx ≠ []) ∧ topBlack ctx := by
  induction ht with
  | nil =>
    intro data ctx0 b0 hacc hcompat hne htop ctx z hres
    simp [search_zipper] at hres
  | red hl hr ihl ihr =>
    rename_i d l r n
    intro data ctx0 b0 hacc hcompat hne htop ctx z hres
    have hb0 : b0 = true := by
      rcases hcompat with h | h
      · exact h
      · exact absurd h (by simp)
    subst hb0
    by_cases h1 : data = d
    · simp only [search_zipper, if_pos h1] at hres
      obtain ⟨rfl, rfl⟩ := Option.some.inj hres |> Prod.mk.inj
      exact ⟨RED, n, true, .red hl hr, hacc, Or.inl rfl, hne, htop⟩
    · by_cases h2 : data < d
      · simp only [search_zipper, if_neg h1, if_pos h2] at hres
        exact ihl (CtxAcc.lstepR hr hacc (hne rfl)) (Or.inr rfl)
          (fun h => absurd h (by simp)) (topBlack_cons (hne rfl) htop) hres
      · simp only [search_zipper, if_neg h1, if_neg h2] at hres
        exact ihr (CtxAcc.rstepR hl hacc (hne rfl)) (Or.inr rfl)
          (fun h => absurd h (by simp)) (topBlack_cons (hne rfl) htop) hres
  | black hl hr ihl ihr =>
    rename_i d l r c1 c2 n
    intro data ctx0 b0 hacc hcompat hne htop ctx z hres
    by_cases h1 : data = d
    · simp only [search_zipper, if_pos h1] at hres
      obtain ⟨rfl, rfl⟩ := Option.some.inj hres |> Prod.mk.inj
      exact ⟨BLACK, n + 1, b0, .black hl hr, hacc,
        Or.inr rfl, fun h => absurd h (by simp), htop⟩
    · by_cases h2 : data < d
      · simp only [search_zipper, if_neg h1, if_pos h2] at hres
        exact ihl (CtxAcc.lstepB hr hacc) (Or.inl rfl)
          (fun _ => by simp) (topBlack_cons_of rfl htop) hres
      · simp only [search_zipper, if_neg h1, if_neg h2] at hres
        exact ihr (CtxAcc.rstepB hl hacc) (Or.inl rfl)
          (fun _ => by simp) (topBlack_cons_of rfl htop) hres

theorem minZipper_append (t : RBT) : ∀ (acc acc2 : Ctx),
    minZipper t (acc ++ acc2) = ((minZipper t acc).1 ++ acc2, (minZipper t acc).2) := by
  induction t with
  | nilS => intro acc acc2; rfl
  | node d c l r ihl ihr =>
    intro acc acc2
    cases l with
    | nilS => rfl
    | node ld lc ll lr =>
      have := ihl (Step.lstep d c r :: acc) acc2
      simpa [minZipper] using this

theorem minZipper_shape (t : RBT) : ∀ (acc : Ctx), t ≠ nilS →
    ∃ d c r, (minZipper t acc).2 = node d c nilS r := by
  induction t with
  | nilS => intro acc h; exact absurd rfl h
  | node d c l r ihl ihr =>
    intro acc _
    cases l with
    | nilS => exact ⟨d, c, r, rfl⟩
    | node ld lc ll lr => exact ihl _ (by simp)

theorem minZipper_acc {t : RBT} {c : Color} {n : Nat} (ht : Balanced t c n) :
    ∀ {acc0 : Ctx} {b0 : Bool},
    CtxAcc acc0 b0 n → (b0 = true ∨ c = BLACK) → (c = RED → acc0 ≠ []) →
    topBlack acc0 → t ≠ nilS →
    ∃ cy ny b, Balanced (minZipper t acc0).2 cy ny ∧
      CtxAcc (minZipper t acc0).1 b ny ∧ (b = true ∨ cy = BLACK) ∧
      (cy = RED → (minZipper t acc0).1 ≠ []) ∧ topBlack (minZipper t acc0).1 := by
  induction ht with
  | nil => intro acc0 b0 _ _ _ _ hne; exact absurd rfl hne
  | red hl hr ihl ihr =>
    rename_i d l r n
    intro acc0 b0 hacc hcompat hne htop _
    have hb0 : b0 = true := by
      rcases hcompat with h | h
      · exact h
      · exact absurd h (by simp)
    subst hb0
    cases l with
    | nilS =>
      exact ⟨RED, n, true, .red hl hr, hacc, Or.inl rfl, fun _ => hne rfl, htop⟩
    | node ld lc ll lr =>
      exact ihl (CtxAcc.lstepR hr hacc (hne rfl)) (Or.inr rfl)
        (fun h => absurd h (by simp)) (topBlack_cons (hne rfl) htop) (by simp)
  | black hl hr ihl ihr =>
    rename_i d l r c1 c2 n
    intro acc0 b0 hacc hcompat hne htop _
    cases l with
    | nilS =>
      exact ⟨BLACK, n + 1, b0, .black hl hr, hacc, Or.inr rfl,
        fun h => absurd h (by simp), htop⟩
    | node ld lc ll lr =>
      exact ihl (CtxAcc.lstepB hr hacc) (Or.inl rfl)
        (fun _ => by simp) (topBlack_cons_of rfl htop) (by simp)

theorem insFixLoop_count (ctx : Ctx) (z : RBT) :
    countRB (insFixLoop ctx z) = ctxCount ctx + countRB z := by
  induction ctx, z using insFixLoop.induct <;>
    rw [insFixLoop.eq_def] <;>
    simp_all [plug_count, ctxCount, countRB, setColor_count] <;>
    omega

theorem delFixLoop_count (ctx : Ctx) (x : RBT) :
    countRB (delFixLoop ctx x) = ctxCount ctx + countRB x := by
  induction ctx, x using delFixLoop.induct <;>
    rw [delFixLoop.eq_def] <;>
    simp_all [plug_count, ctxCount, countRB, setColor_count, blackenRoot_count] <;>
    omega

theorem bstDescend_count (t : RBT) : ∀ (data : Int) (ctx0 ctx : Ctx),
    bstDescend t data ctx0 = some ctx → ctxCount ctx = ctxCount ctx0 + countRB t := by
  induction t with
  | nilS =>
    intro data ctx0 ctx hres
    simp [bstDescend] at hres
    subst hres
    simp [countRB]
  | node d c l r ihl ihr =>
    intro data ctx0 ctx hres
    by_cases h1 : data < d
    · simp only [bstDescend, if_pos h1] at hres
      have := ihl data _ _ hres
      simp [ctxCount, countRB] at this ⊢
      omega
    · by_cases h2 : data > d
      · simp only [bstDescend, if_neg h1, if_pos h2] at hres
        have := ihr data _ _ hres
        simp [ctxCount, countRB] at this ⊢
        omega
      · simp only [bstDescend, if_neg h1, if_neg h2] at hres
        exact absurd hres (by simp)

theorem search_zipper_count (t : RBT) : ∀ (data : Int) (ctx0 ctx : Ctx) (z : RBT),
    search_zipper t data ctx0 = some (ctx, z) →
    ctxCount ctx + countRB z = ctxCount ctx0 + countRB t := by
  induction t with
  | nilS =>
    intro data ctx0 ctx z hres
    simp [search_zipper] at hres
  | node d c l r ihl ihr =>
    intro data ctx0 ctx z hres
    by_cases h1 : data = d
    · simp only [search_zipper, if_pos h1] at hres
      obtain ⟨rfl, rfl⟩ := Option.some.inj hres |> Prod.mk.inj
      rfl
    · by_cases h2 : data < d
      · simp only [search_zipper, if_neg h1, if_pos h2] at hres
        have := ihl data _ _ _ hres
        simp [ctxCount, countRB] at this ⊢
        omega
      · simp only [search_zipper, if_neg h1, if_neg h2] at hres
        have := ihr data _ _ _ hres
        simp [ctxCount, countRB] at this ⊢
        omega

theorem minZipper_count (t : RBT) : ∀ (acc : Ctx),
    ctxCount (minZipper t acc).1 + countRB (minZipper t acc).2 =
      ctxCount acc + countRB t := by
  induction t with
  | nilS => intro acc; simp [minZipper, countRB]
  | node d c l r ihl ihr =>
    intro acc
    cases l with
    | nilS => simp [minZipper, countRB]
    | node ld lc ll lr =>
      have := ihl (Step.lstep d c r :: acc)
      simp [minZipper, ctxCount, countRB] at this ⊢
      omega

theorem balanced_to_inv {x : RBT} {c : Color} {n : Nat} (h : Balanced x c n) :
    Balanced x BLACK n ∨ RedOK x n := by
  cases c with
  | BLACK => exact Or.inl h
  | RED =>
    cases h with
    | red hl hr => exact Or.inr ⟨_, _, _, BLACK, BLACK, rfl, hl, hr⟩

theorem insert_rbnode_good {t : RBTree} (hg : RBGood t) (data : Int) (ok : Bool) :
    ∀ {t' : RBTree}, (insert_rbnode (some t) data ok).2 = some t' → RBGood t' := by
  intro t' hres
  obtain ⟨⟨Nb, hbal⟩, hsz⟩ := hg
  by_cases hok : ok = true
  · subst hok
    rcases hd : bstDescend t.root data [] with _ | ctx
    · simp [insert_rbnode, hd] at hres
      subst hres
      exact ⟨⟨Nb, hbal⟩, hsz⟩
    · simp [insert_rbnode, hd] at hres
      subst hres
      constructor
      · obtain ⟨⟨b, hacc⟩, htopc⟩ := bstDescend_acc hbal CtxAcc.nil (Or.inl rfl)
          (fun h => absurd h (by simp)) trivial hd
        obtain ⟨m, co, hloop⟩ := insFixLoop_ok (Balanced.red .nil .nil) hacc
        obtain ⟨m', hB⟩ := blackenRoot_balanced hloop
        exact ⟨m', hB⟩
      · show t.size + 1 = countRB (rb_insert_fixup ctx (node data RED nilS nilS))
        have hct := bstDescend_count t.root data [] ctx hd
        simp only [rb_insert_fixup]
        rw [blackenRoot_count, insFixLoop_count]
        simp [ctxCount, countRB] at hct ⊢
        omega
  · simp [insert_rbnode, hok] at hres
    subst hres
    exact ⟨⟨Nb, hbal⟩, hsz⟩

theorem delete_rbnode_good {t : RBTree} (hg : RBGood t) (data : Int) :
    ∀ {t' : RBTree}, (delete_rbnode (some t) data).2 = some t' → RBGood t' := by
  intro t' hres
  obtain ⟨⟨Nb, hbal⟩, hsz⟩ := hg
  rcases hs : search_zipper t.root data [] with _ | ⟨ctx, z⟩
  · simp [delete_rbnode, hs] at hres
    subst hres
    exact ⟨⟨Nb, hbal⟩, hsz⟩
  · rcases z with _ | ⟨zd, zc, zl, zr⟩
    · simp [delete_rbnode, hs] at hres
      subst hres
      exact ⟨⟨Nb, hbal⟩, hsz⟩
    · obtain ⟨cz, nz, b, hbz, hacc, hcompat, hnectx, htopctx⟩ :=
        search_zipper_acc hbal CtxAcc.nil (Or.inl rfl)
          (fun h => absurd h (by simp)) trivial hs
      have hcz : zc = cz := balanced_colorOf hbz
      subst hcz
      have hcount := search_zipper_count t.root data [] ctx _ hs
      simp [ctxCount, countRB] at hcount
      by_cases hzl : zl = nilS
      · subst hzl
        cases hbz with
        | red hbzl hbzr =>
          cases hbzl
          simp [delete_rbnode, hs] at hres
          subst hres
          constructor
          · exact acc_plug_black hacc hbzr (Or.inr rfl) htopctx (fun _ => rfl)
          · show t.size - 1 = countRB (plug ctx zr)
            rw [plug_count]
            simp [ctxCount, countRB] at hcount ⊢
            omega
        | black hbzl hbzr =>
          cases hbzl
          simp [delete_rbnode, hs] at hres
          subst hres
          constructor
          · exact delFixLoop_ok (balanced_to_inv hbzr) hacc htopctx
          · show t.size - 1 = countRB (delFixLoop ctx zr)
            rw [delFixLoop_count]
            simp [ctxCount, countRB] at hcount ⊢
            omega
      · by_cases hzr : zr = nilS
        · subst hzr
          cases hbz with
          | red hbzl hbzr =>
            cases hbzr
            cases hbzl
            exact absurd rfl hzl
          | black hbzl hbzr =>
            cases hbzr
            simp [delete_rbnode, hs, hzl] at hres
            subst hres
            constructor
            · exact delFixLoop_ok (balanced_to_inv hbzl) hacc htopctx
            · show t.size - 1 = countRB (delFixLoop ctx zl)
              rw [delFixLoop_count]
              simp [ctxCount, countRB] at hcount ⊢
              omega
        · -- two children: successor surgery
          rcases hmz : minZipper zr [] with ⟨relCtx, y⟩
          obtain ⟨yd, yc, yr, hy⟩ := minZipper_shape zr [] hzr
          rw [hmz] at hy
          simp at hy
          subst hy
          cases hbz with
          | black hbzl hbzr =>
            rename_i c1 c2 nz'
            have haccJ : CtxAcc (Step.rstep yd BLACK zl :: ctx) true nz' :=
              CtxAcc.rstepB hbzl hacc
            obtain ⟨cy, ny, by', hby, haccY, hcompatY, hneY, htopY⟩ :=
              minZipper_acc hbzr haccJ (Or.inl rfl) (fun _ => by simp)
                (topBlack_cons_of rfl htopctx) hzr
            have hsplit : minZipper zr (Step.rstep yd BLACK zl :: ctx) =
                (relCtx ++ (Step.rstep yd BLACK zl :: ctx), node yd yc nilS yr) := by
              have hap := minZipper_append zr [] (Step.rstep yd BLACK zl :: ctx)
              simp at hap
              rw [hap, hmz]
            rw [hsplit] at hby haccY hneY htopY
            have hcy : yc = cy := balanced_colorOf hby
            subst hcy
            have hcty := minZipper_count zr (Step.rstep yd BLACK zl :: ctx)
            rw [hsplit] at hcty
            simp [ctxCount, countRB] at hcty
            cases hby with
            | red hyl hyr =>
              cases hyl
              simp [delete_rbnode, hs, hzl, hzr, hmz] at hres
              subst hres
              constructor
              · exact acc_plug_black haccY hyr (Or.inr rfl) htopY (fun _ => rfl)
              · show t.size - 1 = countRB (plug (relCtx ++ (Step.rstep yd BLACK zl :: ctx)) yr)
                rw [plug_count]
                omega
            | black hyl hyr =>
              cases hyl
              simp [delete_rbnode, hs, hzl, hzr, hmz] at hres
              subst hres
              constructor
              · exact delFixLoop_ok (balanced_to_inv hyr) haccY htopY
              · show t.size - 1 =
                    countRB (delFixLoop (relCtx ++ (Step.rstep yd BLACK zl :: ctx)) yr)
                rw [delFixLoop_count]
                omega
          | red hbzl hbzr =>
            have hb' : b = true := by
              rcases hcompat with h | h
              · exact h
              · exact absurd h (by simp)
            subst hb'
            have haccJ : CtxAcc (Step.rstep yd RED zl :: ctx) false nz :=
              CtxAcc.rstepR hbzl hacc (hnectx rfl)
            obtain ⟨cy, ny, by', hby, haccY, hcompatY, hneY, htopY⟩ :=
              minZipper_acc hbzr haccJ (Or.inr rfl) (fun _ => by simp)
                (topBlack_cons (hnectx rfl) htopctx) hzr
            have hsplit : minZipper zr (Step.rstep yd RED zl :: ctx) =
                (relCtx ++ (Step.rstep yd RED zl :: ctx), node yd yc nilS yr) := by
              have hap := minZipper_append zr [] (Step.rstep yd RED zl :: ctx)
              simp at hap
              rw [hap, hmz]
            rw [hsplit] at hby haccY hneY htopY
            have hcy : yc = cy := balanced_colorOf hby
            subst hcy
            have hcty := minZipper_count zr (Step.rstep yd RED zl :: ctx)
            rw [hsplit] at hcty
            simp [ctxCount, countRB] at hcty
            cases hby with
            | red hyl hyr =>
              cases hyl
              simp [delete_rbnode, hs, hzl, hzr, hmz] at hres
              subst hres
              constructor
              · exact acc_plug_black haccY hyr (Or.inr rfl) htopY (fun _ => rfl)
              · show t.size - 1 = countRB (plug (relCtx ++ (Step.rstep yd RED zl :: ctx)) yr)
                rw [plug_count]
                omega
            | black hyl hyr =>
              cases hyl
              simp [delete_rbnode, hs, hzl, hzr, hmz] at hres
              subst hres
              constructor
              · exact delFixLoop_ok (balanced_to_inv hyr) haccY htopY
              · show t.size - 1 =
                    countRB (delFixLoop (relCtx ++ (Step.rstep yd RED zl :: ctx)) yr)
                rw [delFixLoop_count]
                omega

theorem create_rbtree_good : RBGood create_rbtree := ⟨⟨0, .nil⟩, rfl⟩

theorem applyROp_good {t : RBTree} (hg : RBGood t) (op : ROp) :
    RBGood (applyROp t op) := by
  cases op with
  | ins k ok =>
    rcases hres : (insert_rbnode (some t) k ok).2 with _ | t'
    · simp [applyROp, hres]; exact hg
    · simpa [applyROp, hres] using insert_rbnode_good hg k ok hres
  | del k =>
    rcases hres : (delete_rbnode (some t) k).2 with _ | t'
    · simp [applyROp, hres]; exact hg
    · simpa [applyROp, hres] using delete_rbnode_good hg k hres

theorem foldROps_good : ∀ (ops : List ROp) (t : RBTree), RBGood t →
    RBGood (ops.foldl applyROp t) := by
  intro ops
  induction ops with
  | nil => intro t h; exact h
  | cons op rest ih => intro t h; exact ih _ (applyROp_good h op)

theorem runROps_rbgood (ops : List ROp) : RBGood (runROps ops) :=
  foldROps_good ops create_rbtree create_rbtree_good

theorem insert_rbnode_status (tr : Option RBTree) (data : Int) (ok : Bool) :
    (insert_rbnode tr data ok).1 = 0 ∨ (insert_rbnode tr data ok).1 = 1 ∨
      (insert_rbnode tr data ok).1 = -1 := by
  rcases tr with _ | t
  · simp [insert_rbnode]
  · by_cases hok : ok = true
    · subst hok
      rcases hd : bstDescend t.root data [] with _ | ctx <;>
        simp [insert_rbnode, hd]
    · simp [insert_rbnode, hok]

theorem delete_rbnode_status_some (t : RBTree) (data : Int) :
    (delete_rbnode (some t) data).1 = 0 ∨ (delete_rbnode (some t) data).1 = 1 := by
  rcases hs : search_zipper t.root data [] with _ | ⟨ctx, z⟩
  · simp [delete_rbnode, hs]
  · rcases z with _ | ⟨zd, zc, zl, zr⟩
    · simp [delete_rbnode, hs]
    · by_cases hzl : zl = nilS
      · simp [delete_rbnode, hs, hzl]
      · by_cases hzr : zr = nilS
        · simp [delete_rbnode, hs, hzl, hzr]
        · rcases hmz : minZipper zr [] with ⟨relCtx, y⟩
          rcases y with _ | ⟨yd, yc, yl, yr⟩ <;>
            simp [delete_rbnode, hs, hzl, hzr, hmz]

theorem insert_rbnode_alloc_fail (t : RBTree) (data : Int) :
    insert_rbnode (some t) data false = (-1, some t) := rfl

theorem inorderRB_setColor (t : RBT) (c : Color) :
    inorderRB (setColor t c) = inorderRB t := by
  cases t <;> rfl

theorem inorderRB_blackenRoot (t : RBT) :
    inorderRB (blackenRoot t) = inorderRB t := by
  cases t <;> rfl

theorem inorderRB_plug :
    ∀ (ctx : Ctx) (t : RBT), inorderRB (plug ctx t) = plugKeys ctx (inorderRB t) := by
  intro ctx
  induction ctx with
  | nil => intro t; rfl
  | cons s rest ih =>
    intro t
    cases s with
    | lstep pd pc sib => simp [plug, plugKeys, ih, inorderRB]
    | rstep pd pc sib => simp [plug, plugKeys, ih, inorderRB]

theorem insFixLoop_inorder (ctx : Ctx) (z : RBT) :
    inorderRB (insFixLoop ctx z) = plugKeys ctx (inorderRB z) := by
  induction ctx, z using insFixLoop.induct <;>
    rw [insFixLoop.eq_def] <;>
    simp_all [inorderRB_plug, plugKeys, inorderRB, inorderRB_setColor,
      inorderRB_blackenRoot]

theorem delFixLoop_inorder (ctx : Ctx) (x : RBT) :
    inorderRB (delFixLoop ctx x) = plugKeys ctx (inorderRB x) := by
  induction ctx, x using delFixLoop.induct <;>
    rw [delFixLoop.eq_def] <;>
    simp_all [inorderRB_plug, plugKeys, inorderRB, inorderRB_setColor,
      inorderRB_blackenRoot]




theorem bstDescend_inorder :
    ∀ (t : RBT) (data : Int) (ctx0 : Ctx),
      (inorderRB t).Pairwise (fun a b => a < b) →
      (bstDescend t data ctx0 = none → data ∈ inorderRB t) ∧
      (∀ ctx, bstDescend t data ctx0 = some ctx →
        data ∉ inorderRB t ∧ ∃ rel, ctx = rel ++ ctx0 ∧
          inorderRB (plug rel (node data RED nilS nilS)) =
            insortd data (inorderRB t)) := by
  intro t data
  induction t with
  | nilS =>
    intro ctx0 _
    refine ⟨fun h => by simp [bstDescend] at h, ?_⟩
    intro ctx hres
    simp only [bstDescend, Option.some.injEq] at hres
    subst hres
    exact ⟨by simp [inorderRB], [], by simp [plug, inorderRB, insortd]⟩
  | node d c l r ihl ihr =>
    intro ctx0 hp
    simp only [inorderRB] at hp
    obtain ⟨hpl, hpr, hAk, hkB⟩ := pairwise_node_parts hp
    rcases lt_trichotomy data d with h1 | h1 | h1
    · -- data < d: descend left
      have IH := ihl (.lstep d c r :: ctx0) hpl
      refine ⟨?_, ?_⟩
      · intro hres
        simp only [bstDescend, if_pos h1] at hres
        have := IH.1 hres
        simp only [inorderRB, List.mem_append]
        exact Or.inl this
      · intro ctx hres
        simp only [bstDescend, if_pos h1] at hres
        obtain ⟨hnm, rel, hrel, hio⟩ := IH.2 ctx hres
        refine ⟨?_, rel ++ [.lstep d c r], ?_, ?_⟩
        · simp only [inorderRB]
          rw [mem_split_lt h1 hkB]
          exact hnm
        · rw [hrel, List.append_assoc, List.singleton_append]
        · rw [plug_append]
          simp only [plug, inorderRB]
          rw [hio, insortd_append_lt data d h1]
    · -- data = d: duplicate, returns none
      refine ⟨?_, ?_⟩
      · intro _
        simp [inorderRB, h1]
      · intro ctx hres
        simp only [bstDescend, if_neg (by omega : ¬ data < d),
          if_neg (by omega : ¬ data > d)] at hres
        exact Option.noConfusion hres
    · -- data > d: descend right
      have IH := ihr (.rstep d c l :: ctx0) hpr
      refine ⟨?_, ?_⟩
      · intro hres
        simp only [bstDescend, if_neg (by omega : ¬ data < d), if_pos h1] at hres
        have := IH.1 hres
        simp only [inorderRB, List.mem_append, List.mem_cons]
        exact Or.inr (Or.inr this)
      · intro ctx hres
        simp only [bstDescend, if_neg (by omega : ¬ data < d), if_pos h1] at hres
        obtain ⟨hnm, rel, hrel, hio⟩ := IH.2 ctx hres
        refine ⟨?_, rel ++ [.rstep d c l], ?_, ?_⟩
        · simp only [inorderRB]
          rw [mem_split_gt h1 hAk]
          exact hnm
        · rw [hrel, List.append_assoc, List.singleton_append]
        · rw [plug_append]
          simp only [plug, inorderRB]
          rw [hio, insortd_append_gt data d h1 _ _
            (fun a ha => lt_trans (hAk a ha) h1)]

theorem search_zipper_inorder :
    ∀ (t : RBT) (data : Int) (ctx0 : Ctx),
      (inorderRB t).Pairwise (fun a b => a < b) →
      (search_zipper t data ctx0 = none → data ∉ inorderRB t) ∧
      (∀ ctx z, search_zipper t data ctx0 = some (ctx, z) →
        ∃ rel A B zc zl zr, z = node data zc zl zr ∧ ctx = rel ++ ctx0 ∧
          inorderRB t = A ++ (inorderRB z ++ B) ∧
          (∀ X, inorderRB (plug rel X) = A ++ (inorderRB X ++ B)) ∧
          (∀ a ∈ A, a < data) ∧ (∀ b ∈ B, data < b)) := by
  intro t data
  induction t with
  | nilS =>
    intro ctx0 _
    refine ⟨fun _ => by simp [inorderRB], ?_⟩
    intro ctx z hres
    simp [search_zipper] at hres
  | node d c l r ihl ihr =>
    intro ctx0 hp
    simp only [inorderRB] at hp
    obtain ⟨hpl, hpr, hAk, hkB⟩ := pairwise_node_parts hp
    rcases lt_trichotomy data d with h1 | h1 | h1
    · -- data < d: descend left
      have IH := ihl (.lstep d c r :: ctx0) hpl
      refine ⟨?_, ?_⟩
      · intro hres
        simp only [search_zipper, if_neg (by omega : ¬ data = d), if_pos h1] at hres
        have := IH.1 hres
        simp only [inorderRB]
        rw [mem_split_lt h1 hkB]
        exact this
      · intro ctx z hres
        simp only [search_zipper, if_neg (by omega : ¬ data = d), if_pos h1] at hres
        obtain ⟨rel, A, B, zc, zl, zr, hz, hrel, hio, hplug, hA, hB⟩ := IH.2 ctx z hres
        refine ⟨rel ++ [.lstep d c r], A, B ++ d :: inorderRB r, zc, zl, zr, hz,
          ?_, ?_, ?_, hA, ?_⟩
        · rw [hrel, List.append_assoc, List.singleton_append]
        · simp only [inorderRB]
          rw [hio]
          simp [List.append_assoc]
        · intro X
          rw [plug_append]
          simp only [plug, inorderRB]
          rw [hplug]
          simp [List.append_assoc]
        · intro b hb
          rcases List.mem_append.mp hb with hb | hb
          · exact hB b hb
          · rcases List.mem_cons.mp hb with rfl | hb
            · exact h1
            · exact lt_trans h1 (hkB b hb)
    · -- data = d: found at this node
      refine ⟨?_, ?_⟩
      · intro hres
        simp [search_zipper, h1] at hres
      · intro ctx z hres
        simp only [search_zipper, if_pos h1, Option.some.injEq, Prod.mk.injEq] at hres
        obtain ⟨hctx, hzeq⟩ := hres
        refine ⟨[], [], [], c, l, r, ?_, by rw [List.nil_append, hctx], ?_, ?_, by simp, by simp⟩
        · rw [← hzeq, h1]
        · rw [← hzeq]
          simp
        · intro X
          simp [plug]
    · -- data > d: descend right
      have IH := ihr (.rstep d c l :: ctx0) hpr
      refine ⟨?_, ?_⟩
      · intro hres
        simp only [search_zipper, if_neg (by omega : ¬ data = d),
          if_neg (by omega : ¬ data < d)] at hres
        have := IH.1 hres
        simp only [inorderRB]
        rw [mem_split_gt h1 hAk]
        exact this
      · intro ctx z hres
        simp only [search_zipper, if_neg (by omega : ¬ data = d),
          if_neg (by omega : ¬ data < d)] at hres
        obtain ⟨rel, A, B, zc, zl, zr, hz, hrel, hio, hplug, hA, hB⟩ := IH.2 ctx z hres
        refine ⟨rel ++ [.rstep d c l], inorderRB l ++ d :: A, B, zc, zl, zr, hz,
          ?_, ?_, ?_, ?_, hB⟩
        · rw [hrel, List.append_assoc, List.singleton_append]
        · simp only [inorderRB]
          rw [hio]
          simp [List.append_assoc]
        · intro X
          rw [plug_append]
          simp only [plug, inorderRB]
          rw [hplug]
          simp [List.append_assoc]
        · intro a ha
          rcases List.mem_append.mp ha with ha | ha
          · exact lt_trans (hAk a ha) h1
          · rcases List.mem_cons.mp ha with rfl | ha
            · exact h1
            · exact hA a ha

theorem minZipper_inorder :
    ∀ (l : RBT) (d : Int) (c : Color) (r : RBT) (acc : Ctx),
      ∃ yd yc yr rel S,
        minZipper (node d c l r) acc = (rel ++ acc, node yd yc nilS yr) ∧
        (∀ X, inorderRB (plug rel X) = inorderRB X ++ S) ∧
        inorderRB (node d c l r) = yd :: (inorderRB yr ++ S) := by
  intro l
  induction l with
  | nilS =>
    intro d c r acc
    refine ⟨d, c, r, [], [], by simp [minZipper], fun X => by simp [plug], ?_⟩
    simp [inorderRB]
  | node ld lc ll lr ihl ihr =>
    intro d c r acc
    obtain ⟨yd, yc, yr, rel, S, hmz, hplug, hio⟩ := ihl ld lc lr (.lstep d c r :: acc)
    refine ⟨yd, yc, yr, rel ++ [.lstep d c r], S ++ d :: inorderRB r, ?_, ?_, ?_⟩
    · rw [show minZipper (node d c (node ld lc ll lr) r) acc =
          minZipper (node ld lc ll lr) (.lstep d c r :: acc) from rfl, hmz,
        List.append_assoc, List.singleton_append]
    · intro X
      rw [plug_append]
      simp only [plug, inorderRB]
      rw [hplug]
      simp [List.append_assoc]
    · rw [show inorderRB (node d c (node ld lc ll lr) r) =
          inorderRB (node ld lc ll lr) ++ d :: inorderRB r from rfl, hio]
      simp [List.append_assoc]




theorem newRoot_inorder (ctx : Ctx) (x : RBT) (cc : Color) :
    inorderRB (if cc = BLACK then delFixLoop ctx x else plug ctx x) =
      plugKeys ctx (inorderRB x) := by
  split
  · exact delFixLoop_inorder ctx x
  · rw [inorderRB_plug]

theorem insert_rbnode_sorted (t : RBTree) (data : Int) (ok : Bool)
    (hs : (inorderRB t.root).Pairwise (fun a b => a < b)) :
    (insert_rbnode (some t) data ok).1 =
      (if ok then (if data ∈ inorderRB t.root then 1 else 0) else -1) ∧
    ∃ t', (insert_rbnode (some t) data ok).2 = some t' ∧
      inorderRB t'.root =
        (if ok then (if data ∈ inorderRB t.root then inorderRB t.root
          else insortd data (inorderRB t.root)) else inorderRB t.root) ∧
      t'.size = t.size +
        (if ok then (if data ∈ inorderRB t.root then 0 else 1) else 0) := by
  cases ok with
  | false =>
    refine ⟨rfl, t, rfl, by simp, by simp⟩
  | true =>
    rcases hd : bstDescend t.root data [] with _ | ctx
    · -- duplicate: free(z), return 1, tree untouched
      have hmem := (bstDescend_inorder t.root data [] hs).1 hd
      refine ⟨?_, t, ?_, ?_, ?_⟩
      · simp [insert_rbnode, hd, hmem]
      · simp [insert_rbnode, hd]
      · simp [hmem]
      · simp [hmem]
    · -- new node plugged at the descent hole, then fixup
      obtain ⟨hnm, rel, hrel, hio⟩ := (bstDescend_inorder t.root data [] hs).2 ctx hd
      rw [List.append_nil] at hrel
      subst hrel
      rw [inorderRB_plug] at hio
      refine ⟨?_, ⟨rb_insert_fixup ctx (node data RED nilS nilS), t.size + 1⟩, ?_, ?_, ?_⟩
      · simp [insert_rbnode, hd, hnm]
      · simp [insert_rbnode, hd]
      · show inorderRB (rb_insert_fixup ctx (node data RED nilS nilS)) = _
        rw [rb_insert_fixup, inorderRB_blackenRoot, insFixLoop_inorder, hio]
        simp [hnm]
      · simp [hnm]

theorem delete_rbnode_sorted (t : RBTree) (data : Int)
    (hs : (inorderRB t.root).Pairwise (fun a b => a < b)) :
    (delete_rbnode (some t) data).1 = (if data ∈ inorderRB t.root then 0 else 1) ∧
    ∃ t', (delete_rbnode (some t) data).2 = some t' ∧
      inorderRB t'.root = (inorderRB t.root).erase data ∧
      t'.size = t.size - (if data ∈ inorderRB t.root then 1 else 0) := by
  rcases hz : search_zipper t.root data [] with _ | ⟨ctx, z⟩
  · -- not found
    have hnm := (search_zipper_inorder t.root data [] hs).1 hz
    refine ⟨by simp [delete_rbnode, hz, hnm], t, by simp [delete_rbnode, hz],
      by rw [List.erase_of_not_mem hnm], by simp [hnm]⟩
  · obtain ⟨rel, A, B, zc, zl, zr, hzeq, hrel, hio, hplug, hA, hB⟩ :=
      (search_zipper_inorder t.root data [] hs).2 ctx z hz
    rw [List.append_nil] at hrel
    subst hrel
    subst hzeq
    have hmem : data ∈ inorderRB t.root := by
      rw [hio]
      simp [inorderRB]
    have hdA : data ∉ A := fun hc => absurd (hA data hc) (lt_irrefl data)
    have hpz : (inorderRB (node data zc zl zr)).Pairwise (fun a b => a < b) := by
      rw [hio] at hs
      exact hs.sublist ((List.sublist_append_left _ B).trans (List.sublist_append_right A _))
    have hzl_lt : ∀ a ∈ inorderRB zl, a < data := by
      have := pairwise_node_parts (by simpa only [inorderRB] using hpz)
      exact this.2.2.1
    have hzlnm : data ∉ inorderRB zl := fun hc => absurd (hzl_lt data hc) (lt_irrefl data)
    have herase : (inorderRB t.root).erase data =
        A ++ (inorderRB zl ++ (inorderRB zr ++ B)) := by
      rw [hio, List.erase_append_right _ hdA,
        show inorderRB (node data zc zl zr) ++ B =
          inorderRB zl ++ (data :: (inorderRB zr ++ B)) from by
            simp [inorderRB],
        List.erase_append_right _ hzlnm, List.erase_cons_head]
    by_cases hzl : zl = nilS
    · -- z has no left child: x = z->right is transplanted
      subst hzl
      refine ⟨by simp [delete_rbnode, hz, hmem],
        ⟨(if zc = BLACK then delFixLoop ctx zr else plug ctx zr), t.size - 1⟩,
        by simp [delete_rbnode, hz], ?_, by simp [hmem]⟩
      show inorderRB (if zc = BLACK then delFixLoop ctx zr else plug ctx zr) = _
      rw [newRoot_inorder, ← inorderRB_plug, hplug, herase]
      simp [inorderRB]
    · by_cases hzr : zr = nilS
      · -- z has no right child
        subst hzr
        refine ⟨by simp [delete_rbnode, hz, hzl, hmem],
          ⟨(if zc = BLACK then delFixLoop ctx zl else plug ctx zl), t.size - 1⟩,
          by simp [delete_rbnode, hz, hzl], ?_, by simp [hmem]⟩
        show inorderRB (if zc = BLACK then delFixLoop ctx zl else plug ctx zl) = _
        rw [newRoot_inorder, ← inorderRB_plug, hplug, herase]
        simp [inorderRB]
      · -- two children: successor surgery
        rcases zr with _ | ⟨zrd, zrc, zrl, zrr⟩
        · exact absurd rfl hzr
        obtain ⟨yd, yc, yr, rel2, S, hmz, hplug2, hio2⟩ :=
          minZipper_inorder zrl zrd zrc zrr []
        rw [List.append_nil] at hmz
        refine ⟨by simp [delete_rbnode, hz, hzl, hmz, hmem],
          ⟨(if yc = BLACK
            then delFixLoop (rel2 ++ (Step.rstep yd zc zl :: ctx)) yr
            else plug (rel2 ++ (Step.rstep yd zc zl :: ctx)) yr), t.size - 1⟩,
          by simp [delete_rbnode, hz, hzl, hmz], ?_, by simp [hmem]⟩
        show inorderRB (if yc = BLACK
            then delFixLoop (rel2 ++ (Step.rstep yd zc zl :: ctx)) yr
            else plug (rel2 ++ (Step.rstep yd zc zl :: ctx)) yr) = _
        rw [newRoot_inorder, ← inorderRB_plug, plug_append]
        show inorderRB (plug ctx (node yd zc zl (plug rel2 yr))) = _
        rw [hplug, herase]
        have : inorderRB (node yd zc zl (plug rel2 yr)) =
            inorderRB zl ++ (inorderRB (node zrd zrc zrl zrr)) := by
          rw [show inorderRB (node yd zc zl (plug rel2 yr)) =
            inorderRB zl ++ yd :: inorderRB (plug rel2 yr) from rfl, hplug2 yr, hio2]
        rw [this, hio2]
        simp [List.append_assoc]
    
theorem applyROp_sorted {t : RBTree}
    (hs : (inorderRB t.root).Pairwise (fun a b => a < b)) :
    ∀ (op : ROp), (inorderRB (applyROp t op).root).Pairwise (fun a b => a < b) := by
  intro op
  cases op with
  | ins k ok =>
    obtain ⟨-, t', ht', hio, -⟩ := insert_rbnode_sorted t k ok hs
    have : applyROp t (.ins k ok) = t' := by
      simp [applyROp, ht']
    rw [this, hio]
    cases ok
    · simpa using hs
    · by_cases hm : k ∈ inorderRB t.root
      · simpa [hm] using hs
      · simpa [hm] using insortd_pairwise k _ hs hm
  | del k =>
    obtain ⟨-, t', ht', hio, -⟩ := delete_rbnode_sorted t k hs
    have : applyROp t (.del k) = t' := by
      simp [applyROp, ht']
    rw [this, hio]
    exact hs.sublist (List.erase_sublist _ _)

theorem foldROps_sorted :
    ∀ (ops : List ROp) (t : RBTree), (inorderRB t.root).Pairwise (fun a b => a < b) →
      (inorderRB (ops.foldl applyROp t).root).Pairwise (fun a b => a < b) := by
  intro ops
  induction ops with
  | nil => intro t hs; exact hs
  | cons op rest ih =>
    intro t hs
    rw [List.foldl_cons]
    exact ih _ (applyROp_sorted hs op)

theorem runROps_sorted (ops : List ROp) :
    (inorderRB (runROps ops).root).Pairwise (fun a b => a < b) :=
  foldROps_sorted ops create_rbtree (by simp [create_rbtree, inorderRB])

end RB

/-! # B-tree heap-model theorems -/

namespace BTH

theorem readH_writeH_self (h : Heap) (a : Addr) (n : HNode)
    (ha : a < h.cells.length) : readH (writeH h a n) a = some n := by
  simp [readH, writeH, List.getElem?_set, ha]

theorem readH_lt {h : Heap} {a : Addr} {n : HNode} (hr : readH h a = some n) :
    a < h.cells.length := by
  by_contra hlt
  rw [readH, List.get?_eq_none.mpr (Nat.le_of_not_lt hlt)] at hr
  exact absurd hr (by simp)

theorem bind_none_of {α β : Type} (x : Option α) (f : α → Option β) (h : x = none) :
    x.bind f = none := by rw [h]; rfl

/-- Once `merge_children` is entered with `left_child == right_child`,
its key-copy loop re-reads `right_child->num_keys` — the very counter
the body increments — every iteration, so it never exits. -/
theorem mergeKeyLoop_self : ∀ (fuel i : Nat) (h : Heap) (a : Addr) (l : HNode),
    readH h a = some l → i < l.num_keys → mergeKeyLoop fuel i h a a = none := by
  intro fuel
  induction fuel with
  | zero => intro i h a l _ _; rfl
  | succ fuel ih =>
    intro i h a l hr hlt
    rw [mergeKeyLoop]
    rw [hr]
    simp only [Option.bind_eq_bind, Option.some_bind, if_pos hlt]
    exact ih (i + 1) _ a _ (readH_writeH_self _ _ _ (readH_lt hr)) (by simp; omega)

theorem merge_wrecked_none (F : Nat) : merge_childrenH F wreckedHeap 1 1 = none := by
  have hk : mergeKeyLoop F 0 mergeStartHeap 3 3 = none :=
    mergeKeyLoop_self F 0 mergeStartHeap 3
      ⟨[8, 4, 8], 2, [none, none, none, none], true⟩ (by rfl) (by decide)
  exact bind_none_of _ _ hk

theorem fill_wrecked_none (F : Nat) :
    fill_child_if_neededH 2 F wreckedHeap 1 2 = none :=
  merge_wrecked_none F

theorem recdel_wrecked_none (F : Nat) :
    btree_delete_recursiveH 2 (F + 1) wreckedHeap 1 8 = none :=
  bind_none_of _ _ (fill_wrecked_none F)

/-- `delete_btree` on the reachable heap `wreckedHeap` for the key 8
completes for no fuel at all: the C call never returns. -/
theorem del8_diverges : ∀ (F : Nat), delete_btreeH 2 F wreckedHeap 1 8 = none := by
  intro F
  cases F with
  | zero => rfl
  | succ F => exact bind_none_of _ _ (recdel_wrecked_none F)

theorem fill_dangling_none (F : Nat) :
    fill_child_if_neededH 2 F danglingHeap 1 0 = none := rfl

theorem recdel_dangling_none (F : Nat) :
    btree_delete_recursiveH 2 (F + 1) danglingHeap 1 3 = none := rfl

/-- From `danglingHeap`, deleting 3 dereferences the freed cell (the C
program reads freed memory) for every fuel: the round trip never
reaches an empty tree. -/
theorem del3_crashes : ∀ (F : Nat), delete_btreeH 2 F danglingHeap 1 3 = none := by
  intro F
  cases F with
  | zero => rfl
  | succ F => rfl

end BTH





/-! # Claims -/

/-- C1: for every AVL tree built by any sequence of
`insert_into_avl_tree` / `delete_from_avl_tree` calls starting from
`create_avl_tree`, after every operation every node's stored height
equals `1 + max(child heights)` (with `-1` for an absent child) and
every balance factor has absolute value at most 1. -/
theorem claim_C1 (ops : List AVL.Op) : AVL.AVLFieldsOk (AVL.runOps ops).root := by
  obtain ⟨hH, hB, _⟩ := AVL.runOps_good ops
  exact AVL.fieldsOk_of _ hH hB

/-- C2: for every Red-Black tree built by any sequence of
`insert_rbnode` / `delete_rbnode` calls starting from `create_rbtree`,
after every operation the root is BLACK, the sentinel is BLACK, no RED
node has a RED child, and every root-to-sentinel path carries the same
number of BLACK nodes. -/
theorem claim_C2 (ops : List RB.ROp) : RB.RBInv (RB.runROps ops).root := by
  obtain ⟨⟨n, hbal⟩, _⟩ := RB.runROps_rbgood ops
  exact RB.balanced_RBInv hbal

/-- C3 counterexample: the structural B-tree invariants do **not**
survive deletions whose descent merges two internal children.  On the
pointer-level model: inserting 1..10 at `t = 2` and deleting 9, 10, 9
reaches `corruptedHeap`, whose root stores the same child address in
two live slots (the buggy copy loop of `merge_children`); three more
deletes reach `wreckedHeap`, from which `delete_btree(tree, 8)` merges
that aliased child with itself and never returns — its key-copy loop
increments the same `num_keys` it tests, driving the node's key count
past `2t-1 = 3` (the state after two iterations already holds 4 keys). -/
theorem claim_C3 :
    BTH.runBTreeOpsH 2 BTH.corruptionOpsH = some (BTH.corruptedHeap, 1) ∧
    (∃ p, BTH.readH BTH.corruptedHeap 1 = some p ∧ p.is_leaf = false ∧
      p.children.getD 1 none = some 3 ∧ p.children.getD 2 none = some 3) ∧
    BTH.runBTreeOpsH 2 BTH.wreckOpsH = some (BTH.wreckedHeap, 1) ∧
    (∀ fuel, BTH.delete_btreeH 2 fuel BTH.wreckedHeap 1 8 = none) ∧
    (BTH.readH (BTH.mergeKeyState 2 0 BTH.mergeStartHeap 3 3) 3).map
      BTH.HNode.num_keys = some 4 :=
  ⟨rfl, ⟨_, rfl, rfl, rfl, rfl⟩, rfl, BTH.del8_diverges, rfl⟩

/-- C4 counterexample: after the reachable B-tree operation sequence
`corruptionOps` (inserts 1..10, then deletes 9, 10, 9 at `t = 2`), the
in-order key sequence is `[1, 2, 5, 4, 5, 6, 7, 8]` — not strictly
increasing — so the claimed global ordering invariant fails for the
B-tree variant. -/
theorem claim_C4 :
    ¬ List.Chain' (fun a b : Int => a < b)
      (BT.inorderKeys 20 (BT.runBTreeOps 2 BT.corruptionOps).root) := by
  intro h
  have hb := (BT.strictIncB_iff_chain
    (BT.inorderKeys 20 (BT.runBTreeOps 2 BT.corruptionOps).root)).mpr h
  have hf : BT.strictIncB
      (BT.inorderKeys 20 (BT.runBTreeOps 2 BT.corruptionOps).root) = false := rfl
  rw [hf] at hb
  exact Bool.false_ne_true hb

/-- C5 counterexample: `insert_btree` has no duplicate check — inserting
10 into a tree that already holds 10 stores it a second time, so the
tree is changed rather than left untouched with an AlreadyExists
status (the function returns nothing at all). -/
theorem claim_C5 :
    BT.keysOf (BT.runBTreeOps 2 (BT.insList [10])).root = [10] ∧
    BT.keysOf (BT.runBTreeOps 2 (BT.insList [10, 10])).root = [10, 10] :=
  ⟨rfl, rfl⟩

/-- C6 counterexample: `delete_rbnode(NULL, 0)` returns -1 — a delete
status outside the claimed {0, 1} (and the B-tree `insert_btree` /
`delete_btree` return `void`, reporting no status at all, which the
model mirrors by returning only the tree). -/
theorem claim_C6_cex : RB.delete_rbnode none 0 = (-1, none) := rfl

/-- C6 amended: on live handles the status mapping holds exactly for
the AVL and Red-Black trees, tied to what the operation does, over
every tree reachable by any operation sequence from `create`.  Insert
returns 1 exactly when the key is already present (tree and size
unchanged); -1 exactly on allocation failure (Red-Black allocates the
node before descending, so every failed-allocation insert returns -1;
AVL reaches its single allocation only when the key is absent); 0
exactly otherwise — and then the key is really inserted: the in-order
sequence becomes the old one with the key at its sorted position and
the size grows by one.  Delete returns 0 exactly when the key is
present — and really removes it: the in-order sequence loses the key
and the size drops by one — and 1 exactly when it is absent, the tree
unchanged. -/
theorem claim_C6 :
    (∀ (ops : List RB.ROp) (data : Int) (ok : Bool),
      (RB.insert_rbnode (some (RB.runROps ops)) data ok).1 =
        (if ok then (if data ∈ RB.inorderRB (RB.runROps ops).root then 1 else 0)
         else -1) ∧
      ∃ t', (RB.insert_rbnode (some (RB.runROps ops)) data ok).2 = some t' ∧
        RB.inorderRB t'.root =
          (if ok then (if data ∈ RB.inorderRB (RB.runROps ops).root
            then RB.inorderRB (RB.runROps ops).root
            else insortd data (RB.inorderRB (RB.runROps ops).root))
           else RB.inorderRB (RB.runROps ops).root) ∧
        t'.size = (RB.runROps ops).size +
          (if ok then (if data ∈ RB.inorderRB (RB.runROps ops).root then 0 else 1)
           else 0)) ∧
    (∀ (ops : List RB.ROp) (data : Int),
      (RB.delete_rbnode (some (RB.runROps ops)) data).1 =
        (if data ∈ RB.inorderRB (RB.runROps ops).root then 0 else 1) ∧
      ∃ t', (RB.delete_rbnode (some (RB.runROps ops)) data).2 = some t' ∧
        RB.inorderRB t'.root = (RB.inorderRB (RB.runROps ops).root).erase data ∧
        t'.size = (RB.runROps ops).size -
          (if data ∈ RB.inorderRB (RB.runROps ops).root then 1 else 0)) ∧
    (∀ (ops : List AVL.Op) (key : Int) (ok : Bool),
      (AVL.insert_into_avl_tree (some (AVL.runOps ops)) key ok).1 =
        (if key ∈ AVL.inorder (AVL.runOps ops).root then 1
         else if ok then 0 else -1) ∧
      ∃ t', (AVL.insert_into_avl_tree (some (AVL.runOps ops)) key ok).2 = some t' ∧
        AVL.inorder t'.root =
          (if key ∈ AVL.inorder (AVL.runOps ops).root
            then AVL.inorder (AVL.runOps ops).root
           else if ok then insortd key (AVL.inorder (AVL.runOps ops).root)
           else AVL.inorder (AVL.runOps ops).root) ∧
        t'.size = (AVL.runOps ops).size +
          (if key ∈ AVL.inorder (AVL.runOps ops).root then 0
           else if ok then 1 else 0)) ∧
    (∀ (ops : List AVL.Op) (key : Int),
      (AVL.delete_from_avl_tree (some (AVL.runOps ops)) key).1 =
        (if key ∈ AVL.inorder (AVL.runOps ops).root then 0 else 1) ∧
      ∃ t', (AVL.delete_from_avl_tree (some (AVL.runOps ops)) key).2 = some t' ∧
        AVL.inorder t'.root = (AVL.inorder (AVL.runOps ops).root).erase key ∧
        t'.size = (AVL.runOps ops).size -
          (if key ∈ AVL.inorder (AVL.runOps ops).root then 1 else 0)) := by
  refine ⟨?_, ?_, ?_, ?_⟩
  · intro ops data ok
    exact RB.insert_rbnode_sorted (RB.runROps ops) data ok (RB.runROps_sorted ops)
  · intro ops data
    exact RB.delete_rbnode_sorted (RB.runROps ops) data (RB.runROps_sorted ops)
  · intro ops key ok
    have hs := AVL.runOps_sorted ops
    rcases hres : AVL.insert_recursive_internal (AVL.runOps ops).root key ok
      with ⟨r', flag, inc⟩
    have spec := AVL.ins_sorted_spec key ok (AVL.runOps ops).root hs
    rw [hres] at spec
    obtain ⟨s1, s2, s3⟩ := spec
    dsimp only at s1 s2 s3
    refine ⟨?_, ⟨r', (AVL.runOps ops).size + inc⟩, ?_, s1, ?_⟩
    · simp only [AVL.insert_into_avl_tree, hres]
      exact s2
    · simp [AVL.insert_into_avl_tree, hres]
    · rw [s3]
  · intro ops key
    have hs := AVL.runOps_sorted ops
    by_cases hc : (AVL.runOps ops).root = AVL.AVLNode.nil ∧ key ≠ 0
    · have hroot : AVL.inorder (AVL.runOps ops).root = [] := by
        rw [hc.1]; rfl
      refine ⟨?_, AVL.runOps ops, ?_, ?_, ?_⟩
      · simp [AVL.delete_from_avl_tree, hc, AVL.inorder]
      · simp [AVL.delete_from_avl_tree, hc]
      · simp [hroot]
      · simp [hroot]
    · rcases hres : AVL.delete_recursive_internal (AVL.runOps ops).root key
        with ⟨r', flag, dec⟩
      have spec := AVL.del_sorted_spec (AVL.runOps ops).root key hs
      rw [hres] at spec
      obtain ⟨s1, s2, s3⟩ := spec
      dsimp only at s1 s2 s3
      refine ⟨?_, ⟨r', (AVL.runOps ops).size - dec⟩, ?_, s1, ?_⟩
      · simp only [AVL.delete_from_avl_tree, if_neg hc, hres]
        exact s2
      · simp [AVL.delete_from_avl_tree, if_neg hc, hres]
      · rw [s3]

/-- C7 counterexample: with the allocation oracle `[true, false, true]`
the `malloc` inside `btree_split_child` fails, yet inserting 15 into
the full root `[5,10,20]` still restructures the tree and completes —
a partial mutation with no failure status (the function is `void`). -/
theorem claim_C7_cex :
    BT.insert_btreeA 20 [true, false, true] ⟨BT.N.mk [5, 10, 20] [] true, 2⟩ 15 =
      (⟨BT.N.mk [10] [BT.N.mk [5] [] true, BT.N.mk [15, 20] [] true] false, 2⟩, []) :=
  rfl

/-- C7 amended: the AVL and Red-Black inserts do satisfy the claim —
with node allocation failing they report -1 (or 1 for an AVL duplicate
found before the allocation point) and hand back the tree unchanged. -/
theorem claim_C7 :
    (∀ (t : RB.RBTree) key, RB.insert_rbnode (some t) key false = (-1, some t)) ∧
    (∀ (ops : List AVL.Op) key,
      (AVL.insert_into_avl_tree (some (AVL.runOps ops)) key false).2 =
        some (AVL.runOps ops) ∧
      ((AVL.insert_into_avl_tree (some (AVL.runOps ops)) key false).1 = -1 ∨
        (AVL.insert_into_avl_tree (some (AVL.runOps ops)) key false).1 = 1)) := by
  refine ⟨fun _ _ => rfl, ?_⟩
  intro ops key
  obtain ⟨hH, hB, _⟩ := AVL.runOps_good ops
  obtain ⟨he, hz, hf⟩ := AVL.ins_fail key (AVL.runOps ops).root hH hB
  rcases hres : AVL.insert_recursive_internal (AVL.runOps ops).root key false
    with ⟨r, f, i⟩
  rw [hres] at he hz hf
  dsimp only at he hz hf
  subst he hz
  constructor
  · simp only [AVL.insert_into_avl_tree, hres, Nat.add_zero]
  · simp only [AVL.insert_into_avl_tree, hres]
    exact hf

/-- C8 counterexample: inserting the ten distinct keys 1..10 into a
`t = 2` B-tree and then deleting all ten does not return the tree to
the empty state.  On the pointer-level model the run has no final state
at all: after 14 operations the live root still holds address 3 in an
in-range child slot although that cell was freed by an earlier
`merge_children` (the buggy copy left the subtree doubly linked, and
the double link's other copy was merged and freed), and the next delete
dereferences the freed cell for every fuel. -/
theorem claim_C8 :
    BTH.runBTreeOpsH 2 BT.roundTripOps = none ∧
    BTH.runBTreeOpsH 2 (BT.roundTripOps.take 14) = some (BTH.danglingHeap, 1) ∧
    BTH.readH BTH.danglingHeap 3 = none ∧
    (∃ p, BTH.readH BTH.danglingHeap 1 = some p ∧
      p.children.getD 1 none = some 3 ∧ 1 ≤ p.num_keys) ∧
    (∀ fuel, BTH.delete_btreeH 2 fuel BTH.danglingHeap 1 3 = none) :=
  ⟨rfl, rfl, rfl, ⟨_, rfl, rfl, by decide⟩, BTH.del3_crashes⟩

/-- C9 counterexample: the B-tree handle `{root, t}` carries no size
counter: no function of its only metadatum `t` can equal the stored key
count, because two reachable trees share `t = 2` while holding 1 and 2
keys. -/
theorem claim_C9_cex :
    ¬ ∃ f : Nat → Nat,
      f (BT.runBTreeOps 2 (BT.insList [10])).t =
        BT.totalKeys 20 (BT.runBTreeOps 2 (BT.insList [10])).root ∧
      f (BT.runBTreeOps 2 (BT.insList [10, 20])).t =
        BT.totalKeys 20 (BT.runBTreeOps 2 (BT.insList [10, 20])).root := by
  rintro ⟨f, h1, h2⟩
  have e1 : BT.totalKeys 20 (BT.runBTreeOps 2 (BT.insList [10])).root = 1 := rfl
  have e2 : BT.totalKeys 20 (BT.runBTreeOps 2 (BT.insList [10, 20])).root = 2 := rfl
  have e3 : (BT.runBTreeOps 2 (BT.insList [10])).t = 2 := rfl
  have e4 : (BT.runBTreeOps 2 (BT.insList [10, 20])).t = 2 := rfl
  rw [e1, e3] at h1
  rw [e2, e4] at h2
  omega

/-- C9 amended: the AVL and Red-Black handles do keep `size` equal to
the number of reachable key-bearing nodes after every operation. -/
theorem claim_C9 :
    (∀ ops : List AVL.Op,
      (AVL.runOps ops).size = AVL.countNodes (AVL.runOps ops).root) ∧
    (∀ ops : List RB.ROp,
      (RB.runROps ops).size = RB.countRB (RB.runROps ops).root) :=
  ⟨fun ops => (AVL.runOps_good ops).2.2, fun ops => (RB.runROps_rbgood ops).2⟩

/-- C10: the three search functions perform no write: the
state-threaded embeddings hand back exactly the handle they were
given, for every tree and key, found or not. -/
theorem claim_C10 :
    (∀ (fuel : Nat) (tr : BT.T) (key : Int),
      BT.search_btreeS fuel tr key = (tr, BT.search_btree fuel tr key)) ∧
    (∀ (tr : Option AVL.AVLTree) (key : Int),
      AVL.search_in_avl_treeS tr key = (tr, AVL.search_in_avl_tree tr key)) ∧
    (∀ (tr : Option RB.RBTree) (data : Int),
      RB.search_rbnodeS tr data = (tr, RB.search_rbnode tr data)) :=
  ⟨fun _ _ _ => rfl, fun _ _ => rfl, fun _ _ => rfl⟩
